import Mathlib

/-!
Verification development for the PBIP impact analyzer
(dependency graph and safe refactoring engine).

The definitions below are a shallow embedding of the JavaScript source:
* `DAXParser` (parsers module): comment/string stripping and the
  measure / column / table / function reference scanners
  (regular expressions are embedded as explicit left-to-right scanners
  with the same leftmost-match, non-overlapping semantics);
* `DependencyAnalyzer` (analyzer module): graph construction,
  upstream/downstream traversal, cycle detection, delete-risk scoring;
* `RefactoringEngine` (refactor module): rename planning, DAX rewriting,
  and the transactional multi-file applier with backup and rollback,
  modelled over an explicit file-system state with an injectable
  write-failure schedule.

Strings are modelled as `List Char` (`Str`); JavaScript string indices
become list positions.  Presentation-only payload fields that no verified
operation reads (format strings, display folders, lineage tags, data
types, hidden flags, counts) are omitted from the records.
-/

namespace Pbip

/-- Strings as lists of characters. -/
abbrev Str := List Char

/-- Conversion from Lean string literals. -/
def str (s : String) : Str := s.data

/-- JavaScript `\w` character class: `[A-Za-z0-9_]` (ASCII). -/
def isWordChar (c : Char) : Bool :=
  (('a' ≤ c && c ≤ 'z') || ('A' ≤ c && c ≤ 'Z') || ('0' ≤ c && c ≤ '9') || c = '_')

/-- JavaScript `\s` character class, restricted to the ASCII whitespace
the analysed files contain: space, tab, newline, carriage return,
form feed and vertical tab. -/
def isSpaceChar (c : Char) : Bool :=
  (c = ' ' || c = '\t' || c = '\n' || c = '\r' || c = '\x0c' || c = '\x0b')

/-- ASCII upper-casing, as used for the case-insensitive `i` regex flag. -/
def upChar (c : Char) : Char :=
  if 'a' ≤ c && c ≤ 'z' then Char.ofNat (c.toNat - 32) else c

/-- Case-insensitive character comparison (regex `i` flag). -/
def ciChar (a b : Char) : Bool := upChar a = upChar b

/-- Exact literal prefix test. -/
def isLitPrefix : Str → Str → Bool
  | [], _ => true
  | _ :: _, [] => false
  | p :: ps, c :: cs => p = c && isLitPrefix ps cs

/-- Case-insensitive literal prefix test. -/
def ciPrefix : Str → Str → Bool
  | [], _ => true
  | _ :: _, [] => false
  | p :: ps, c :: cs => ciChar p c && ciPrefix ps cs

/-- First-occurrence containment test (JavaScript `String.prototype.includes`). -/
def containsSub (s pat : Str) : Bool :=
  match s with
  | [] => isLitPrefix pat []
  | _ :: r => isLitPrefix pat s || containsSub r pat

/-- Whether a case-insensitive occurrence of `pat` starts anywhere in `s`. -/
def containsCI (s pat : Str) : Bool :=
  match s with
  | [] => ciPrefix pat []
  | _ :: r => ciPrefix pat s || containsCI r pat

/-- JavaScript `String.prototype.trim` (ASCII whitespace model). -/
def trimStr (s : Str) : Str :=
  ((s.dropWhile isSpaceChar).reverse.dropWhile isSpaceChar).reverse

/-- Insertion-ordered deduplication (JavaScript `Set.add` ignores an
element already present; `Array.from` lists first occurrences in
insertion order). -/
def dedupAux (seen : List Str) : List Str → List Str
  | [] => []
  | x :: xs => if seen.contains x then dedupAux seen xs else x :: dedupAux (x :: seen) xs

def dedup (l : List Str) : List Str := dedupAux [] l

/-! ### DAXParser.cleanDAX: strip block comments, line comments, string literals -/

/-- Whether `*/` occurs in the remainder (the lazy `[\\s\\S]*?\\*\\/`
can only complete if it does). -/
def hasStarSlash : Str → Bool
  | [] => false
  | '*' :: '/' :: _ => true
  | _ :: r => hasStarSlash r

/-- `daxExpression.replace(/\\/\\*[\\s\\S]*?\\*\\//g, '')`.  The flag is
true while inside a comment being dropped; a `/*` with no later `*/`
matches nothing and the remainder is kept verbatim. -/
def removeBlockCommentsAux : Bool → Str → Str
  | _, [] => []
  | false, '/' :: '*' :: r =>
    if hasStarSlash r then removeBlockCommentsAux true r else '/' :: '*' :: r
  | false, c :: r => c :: removeBlockCommentsAux false r
  | true, '*' :: '/' :: r => removeBlockCommentsAux false r
  | true, _ :: r => removeBlockCommentsAux true r

def removeBlockComments (s : Str) : Str := removeBlockCommentsAux false s

/-- `cleaned.replace(/\\/\\/.*​/g, '')`: drop from `//` to just before the
next newline (regex `.` does not match `\\n`). -/
def removeLineCommentsAux : Bool → Str → Str
  | _, [] => []
  | false, '/' :: '/' :: r => removeLineCommentsAux true r
  | false, c :: r => c :: removeLineCommentsAux false r
  | true, '\n' :: r => '\n' :: removeLineCommentsAux false r
  | true, _ :: r => removeLineCommentsAux true r

def removeLineComments (s : Str) : Str := removeLineCommentsAux false s

/-- Whether `"` occurs in the remainder. -/
def hasDQuote : Str → Bool
  | [] => false
  | '"' :: _ => true
  | _ :: r => hasDQuote r

/-- `cleaned.replace(/"[^"]*"/g, '""')`: blank out string literals; an
unmatched final quote stays. -/
def blankStringsAux : Bool → Str → Str
  | _, [] => []
  | false, c :: r =>
    if c = '"' then
      (if hasDQuote r then '"' :: '"' :: blankStringsAux true r else c :: r)
    else c :: blankStringsAux false r
  | true, c :: r =>
    if c = '"' then blankStringsAux false r else blankStringsAux true r

def blankStrings (s : Str) : Str := blankStringsAux false s

/-- `DAXParser.cleanDAX`: the three replacement passes in source order. -/
def cleanDAX (dax : Str) : Str :=
  blankStrings (removeLineComments (removeBlockComments dax))

/-! ### DAXParser reference extraction -/

/-- Negation of the `]` character class boundary (`[^\]]`). -/
def notRB (c : Char) : Bool := ¬(c = ']')

/-- Split at the first `]`: the regex fragment `([^\]]+)\]`
(capture, remainder after the bracket). -/
def splitAtRBracket (s : Str) : Option (Str × Str) :=
  match s.dropWhile notRB with
  | [] => none
  | _ :: rest => some (s.takeWhile notRB, rest)

theorem splitAtRBracket_length :
    ∀ {s inner rest : Str}, splitAtRBracket s = some (inner, rest) →
      inner.length + 1 + rest.length = s.length := by
  intro s inner rest h
  unfold splitAtRBracket at h
  split at h
  · exact absurd h (by simp)
  · rename_i c rest2 heq
    simp only [Option.some.injEq, Prod.mk.injEq] at h
    obtain ⟨h1, h2⟩ := h
    subst h1; subst h2
    have hsplit := congrArg List.length (List.takeWhile_append_dropWhile notRB s)
    rw [heq] at hsplit
    simp at hsplit
    omega

/-- Captures of the global scan `/\\[([^\\]]+)\\]/g` in match order.  A
positive first argument skips characters already consumed by the
previous match (`splitAtRBracket` splits `r` as `inner ++ ']' ++ rest`,
so skipping `inner.length + 1` characters continues exactly after the
closing bracket). -/
def bracketCapturesAux : Nat → Str → List Str
  | _, [] => []
  | skip+1, _ :: r => bracketCapturesAux skip r
  | 0, c :: r =>
    if c = '[' then
      match splitAtRBracket r with
      | some (inner, _) =>
        if inner = [] then bracketCapturesAux 0 r
        else inner :: bracketCapturesAux (inner.length + 1) r
      | none => []
    else bracketCapturesAux 0 r

def bracketCaptures (s : Str) : List Str := bracketCapturesAux 0 s

/-- `DAXParser.extractMeasureReferences`: every `[...]` capture, trimmed,
kept when nonempty and not containing `[`, deduplicated in first-seen
order (the JavaScript `Set`). -/
def extractMeasureReferences (dax : Str) : List Str :=
  dedup ((((bracketCaptures (cleanDAX dax)).map trimStr).filter
    (fun ref => ¬(ref.contains '[') && ¬(ref = []))))

/-- One candidate closing position for the lazy `'.+?'` alternative of
the column-reference regex: succeeds when the current character is a
closing quote with nonempty consumed text and the following `[...]`
part matches.  On any failure the lazy dot extends past this character
(regex backtracking). -/
def candidateQuoted (acc : Str) (c : Char) (r : Str) : Option (Str × Str × Str) :=
  if c = '\'' ∧ acc ≠ [] then
    match r with
    | '[' :: r2 =>
      match splitAtRBracket r2 with
      | some (inner, rest) => if inner = [] then none else some (acc.reverse, inner, rest)
      | none => none
    | _ => none
  else none

theorem candidateQuoted_length :
    ∀ {acc : Str} {c : Char} {r t i rest : Str},
      candidateQuoted acc c r = some (t, i, rest) → rest.length < r.length := by
  intro acc c r t i rest h
  unfold candidateQuoted at h
  split at h
  · split at h
    · rename_i r2
      split at h
      · rename_i inner rest2 hbr
        split at h
        · simp at h
        · simp only [Option.some.injEq, Prod.mk.injEq] at h
          obtain ⟨_, _, h3⟩ := h
          subst h3
          have := splitAtRBracket_length hbr
          simp; omega
      · simp at h
    · simp at h
  · simp at h

/-- Lazy scan for the closing quote of `'.+?'` followed by `[...]`.
`acc` is the reversed text consumed by `.+?` so far; `.` does not match
a newline.  Returns (table capture without quotes, column capture,
remainder after the whole match). -/
def tryQuotedTable : Str → Str → Option (Str × Str × Str)
  | _, [] => none
  | acc, c :: r =>
    if c = '\n' then none
    else
      match candidateQuoted acc c r with
      | some out => some out
      | none => tryQuotedTable (c :: acc) r

theorem tryQuotedTable_length :
    ∀ {acc s : Str} {t i rest : Str},
      tryQuotedTable acc s = some (t, i, rest) → rest.length < s.length := by
  intro acc s
  induction s generalizing acc with
  | nil => intro t i rest h; simp [tryQuotedTable] at h
  | cons c r ih =>
    intro t i rest h
    unfold tryQuotedTable at h
    split at h
    · simp at h
    · split at h
      · rename_i out hout
        simp only [Option.some.injEq] at h
        subst h
        have := candidateQuoted_length hout
        simp; omega
      · have := ih h; simp; omega

/-- The maximal-word-run alternative `(\\w+)` followed by
`\\[([^\\]]+)\\]`, then the quoted alternative, tried at every position
left to right (global scan of `/(\\w+|\'.+?\')\\[([^\\]]+)\\]/g`).  On a
failed attempt the scan advances one character, exactly as the regex
engine does; after a match, the returned remainder is a suffix of `r`,
so skipping the length difference continues exactly at it. -/
def colMatchesAux : Nat → Str → List (Str × Str)
  | _, [] => []
  | skip+1, _ :: r => colMatchesAux skip r
  | 0, c :: r =>
    if isWordChar c then
      match r.dropWhile isWordChar with
      | '[' :: r2 =>
        match splitAtRBracket r2 with
        | some (inner, rest) =>
          if inner = [] then colMatchesAux 0 r
          else (c :: r.takeWhile isWordChar, inner) :: colMatchesAux (r.length - rest.length) r
        | none => colMatchesAux 0 r
      | _ => colMatchesAux 0 r
    else if c = '\'' then
      match tryQuotedTable [] r with
      | some (tbl, inner, rest) => (tbl, inner) :: colMatchesAux (r.length - rest.length) r
      | none => colMatchesAux 0 r
    else colMatchesAux 0 r

def colMatches (s : Str) : List (Str × Str) := colMatchesAux 0 s

/-- `DAXParser.extractColumnReferences`: `(table, column)` pairs in match
order; duplicates are kept (the source pushes onto an array).  The
JavaScript code trims both captures and strips the surrounding quotes
from the table capture; a word-run capture never has surrounding
whitespace and a quoted capture begins and ends with a quote, so the
table trim is the identity and only the column capture is trimmed. -/
def extractColumnReferences (dax : Str) : List (Str × Str) :=
  (colMatches (cleanDAX dax)).map (fun p => (p.1, trimStr p.2))

/-- The whitelist of the table-reference regex in
`DAXParser.extractTableReferences`. -/
def daxTableFnNames : List Str :=
  [str "COUNTROWS", str "RELATEDTABLE", str "VALUES", str "ALL", str "DISTINCT",
   str "SUMMARIZE", str "ADDCOLUMNS", str "FILTER", str "CALCULATETABLE"]

/-- First keyword of `kws` (in alternation order) that is a
case-insensitive prefix of `s`; returns its length. -/
def firstKwCI : List Str → Str → Option Nat
  | [], _ => none
  | k :: ks, s => if ciPrefix k s then some k.length else firstKwCI ks s

/-- Negation of the `'` character class boundary (`[^']`). -/
def notSQ (c : Char) : Bool := ¬(c = '\'')

/-- Split at the first `'` (regex fragment `([^']+)'`). -/
def splitAtSQuote (s : Str) : Option (Str × Str) :=
  match s.dropWhile notSQ with
  | [] => none
  | _ :: rest => some (s.takeWhile notSQ, rest)

theorem splitAtSQuote_length :
    ∀ {s inner rest : Str}, splitAtSQuote s = some (inner, rest) →
      inner.length + 1 + rest.length = s.length := by
  intro s inner rest h
  unfold splitAtSQuote at h
  split at h
  · exact absurd h (by simp)
  · rename_i c rest2 heq
    simp only [Option.some.injEq, Prod.mk.injEq] at h
    obtain ⟨h1, h2⟩ := h
    subst h1; subst h2
    have hsplit := congrArg List.length (List.takeWhile_append_dropWhile notSQ s)
    rw [heq] at hsplit
    simp at hsplit
    omega

theorem dropWhile_length_le (p : Char → Bool) (l : Str) :
    (l.dropWhile p).length ≤ l.length := by
  induction l with
  | nil => simp
  | cons c r ih =>
    by_cases hc : p c
    · simp [List.dropWhile_cons, hc]; omega
    · simp [List.dropWhile_cons, hc]

/-- Regex fragment `\\s*` followed by a literal expected character.
Greedy whitespace matching needs no backtracking here because the
expected characters are never whitespace. -/
def expectChar (ch : Char) (s : Str) : Option Str :=
  match s.dropWhile isSpaceChar with
  | c :: r => if c = ch then some r else none
  | [] => none

theorem expectChar_length :
    ∀ {ch : Char} {s r : Str}, expectChar ch s = some r → r.length < s.length := by
  intro ch s r h
  unfold expectChar at h
  split at h
  · rename_i c r2 heq
    split at h
    · simp only [Option.some.injEq] at h
      subst h
      have := dropWhile_length_le isSpaceChar s
      rw [heq] at this
      simp at this
      omega
    · simp at h
  · simp at h

/-- Regex fragment `\\s*(?:[,)])`: the argument terminator. -/
def expectTerm (s : Str) : Option Str :=
  match s.dropWhile isSpaceChar with
  | c :: r => if c = ',' ∨ c = ')' then some r else none
  | [] => none

theorem expectTerm_length :
    ∀ {s r : Str}, expectTerm s = some r → r.length < s.length := by
  intro s r h
  unfold expectTerm at h
  split at h
  · rename_i c r2 heq
    split at h
    · simp only [Option.some.injEq] at h
      subst h
      have := dropWhile_length_le isSpaceChar s
      rw [heq] at this
      simp at this
      omega
    · simp at h
  · simp at h

/-- The argument part `\\s*\\(\\s*(?:'([^']+)'|(\\w+))\\s*(?:[,)])` of the
table-reference regex: the captured table name (quoted captures without
their quotes) and the remainder after the whole match. -/
def tableArgMatch (s : Str) : Option (Str × Str) :=
  match expectChar '(' s with
  | none => none
  | some s2 =>
    match s2.dropWhile isSpaceChar with
    | '\'' :: s4 =>
      match splitAtSQuote s4 with
      | some (inner, rest) =>
        if inner = [] then none
        else (expectTerm rest).map (fun s6 => (inner, s6))
      | none => none
    | c :: s4 =>
      if isWordChar c then
        (expectTerm (s4.dropWhile isWordChar)).map
          (fun s6 => (c :: s4.takeWhile isWordChar, s6))
      else none
    | [] => none

theorem tableArgMatch_length :
    ∀ {s name rest : Str}, tableArgMatch s = some (name, rest) →
      rest.length < s.length := by
  intro s name rest h
  unfold tableArgMatch at h
  split at h
  · simp at h
  · rename_i s2 hexp
    have e1 := expectChar_length hexp
    split at h
    · rename_i s4 hdw
      have e2 : s4.length < s2.length := by
        have := dropWhile_length_le isSpaceChar s2
        rw [hdw] at this
        simp at this
        omega
      split at h
      · rename_i inner rest1 hsq
        have e3 := splitAtSQuote_length hsq
        split at h
        · simp at h
        · rcases hterm : expectTerm rest1 with _ | s6
          · rw [hterm] at h; simp [Option.map] at h
          · rw [hterm] at h
            simp only [Option.map, Option.some.injEq, Prod.mk.injEq] at h
            obtain ⟨h1, h2⟩ := h
            subst h2
            have e4 := expectTerm_length hterm
            omega
      · simp at h
    · rename_i c s4 hne hdw
      have e2 : s4.length < s2.length := by
        have := dropWhile_length_le isSpaceChar s2
        rw [hdw] at this
        simp at this
        omega
      split at h
      · rcases hterm : expectTerm (s4.dropWhile isWordChar) with _ | s6
        · rw [hterm] at h; simp [Option.map] at h
        · rw [hterm] at h
          simp only [Option.map, Option.some.injEq, Prod.mk.injEq] at h
          obtain ⟨h1, h2⟩ := h
          subst h2
          have e4 := expectTerm_length hterm
          have e5 := dropWhile_length_le isWordChar s4
          omega
      · simp at h
    · simp at h

/-- Global scan of the table-reference regex: at each position try the
keyword alternation (at most one keyword can match, the names being
prefix-distinct) then the argument part; on failure advance one
character, on success continue after the consumed terminator (the
returned remainder is a suffix of `r`). -/
def tableRefScanAux : Nat → Str → List Str
  | _, [] => []
  | skip+1, _ :: r => tableRefScanAux skip r
  | 0, c :: r =>
    match firstKwCI daxTableFnNames (c :: r) with
    | some n =>
      match tableArgMatch (List.drop n (c :: r)) with
      | some (name, rest) => name :: tableRefScanAux (r.length - rest.length) r
      | none => tableRefScanAux 0 r
    | none => tableRefScanAux 0 r

def tableRefScan (s : Str) : List Str := tableRefScanAux 0 s

/-- `DAXParser.extractTableReferences` (quoted captures are returned
without their quotes; the JavaScript `match[1] || match[2]`). -/
def extractTableReferences (dax : Str) : List Str :=
  dedup (tableRefScan (cleanDAX dax))

/-- The `[A-Z0-9_]` continuation class of the function-call regex. -/
def isFnChar (c : Char) : Bool :=
  (('A' ≤ c && c ≤ 'Z') || ('0' ≤ c && c ≤ '9') || c = '_')

def isUpperAZ (c : Char) : Bool := ('A' ≤ c && c ≤ 'Z')

/-- Global scan of `/\\b([A-Z][A-Z0-9_]*)\\s*\\(/g` (case-sensitive):
`prev` is the character before the current position, for the `\\b`
boundary; after a match the scan continues after the `(`, whose
remainder is a suffix of `r`. -/
def fnCallScanAux : Option Char → Nat → Str → List Str
  | _, _, [] => []
  | prev, skip+1, _ :: r => fnCallScanAux prev skip r
  | prev, 0, c :: r =>
    if isUpperAZ c && (match prev with | none => true | some p => ¬(isWordChar p)) then
      match (r.dropWhile isFnChar).dropWhile isSpaceChar with
      | '(' :: s3 =>
        (c :: r.takeWhile isFnChar) :: fnCallScanAux (some '(') (r.length - s3.length) r
      | _ => fnCallScanAux (some c) 0 r
    else fnCallScanAux (some c) 0 r

def fnCallScan (prev : Option Char) (s : Str) : List Str := fnCallScanAux prev 0 s

/-- `DAXParser.extractFunctionCalls`. -/
def extractFunctionCalls (dax : Str) : List Str :=
  dedup (fnCallScan none (cleanDAX dax))

/-- The combined result record of `DAXParser.extractReferences`. -/
structure DAXRefs where
  measureRefs : List Str
  columnRefs : List (Str × Str)
  tableRefs : List Str
  functions : List Str
deriving Repr, DecidableEq

/-- `DAXParser.extractReferences`. -/
def extractReferences (dax : Str) : DAXRefs :=
  { measureRefs := extractMeasureReferences dax
    columnRefs := extractColumnReferences dax
    tableRefs := extractTableReferences dax
    functions := extractFunctionCalls dax }

/-! ### DependencyAnalyzer: graph data model -/

/-- One entry of a node's `dependencies` or `usedBy` array.  The source
pushes ad-hoc objects; the fields below are the union of those the
verified operations read (`type`, `ref`, `name` for planner lookups,
and the page/visual identity for visual usages). -/
structure Dep where
  dtype : Str
  ref : Str
  name : Str := []
  pageId : Str := []
  visualId : Str := []
  visualType : Str := []
deriving Repr, DecidableEq

/-- Construct a `Dep` from the explicitly pushed fields, the rest
remaining at their defaults. -/
def mkDep (dtype ref : Str) (name : Str := []) : Dep :=
  { dtype := dtype, ref := ref, name := name }

/-- An entry of the graph's `edges` array. -/
structure GEdge where
  src : Str
  tgt : Str
  etype : Str
deriving Repr, DecidableEq

/-- A graph node (`dependencyGraph.nodes[id]`).  `ntype` is the `type`
discriminator; the other payload fields are those the verified
operations read. -/
structure GNode where
  ntype : Str
  name : Str := []
  table : Str := []
  column : Str := []
  dax : Str := []
  tableName : Str := []
  pageId : Str := []
  visualId : Str := []
  visualType : Str := []
  dependencies : List Dep := []
  usedBy : List Dep := []
deriving Repr, DecidableEq

/-- The dependency graph: `nodes` is a JavaScript object with string
keys (insertion-ordered, assignment replaces in place), `edges` an
array. -/
structure Graph where
  nodes : List (Str × GNode) := []
  edges : List GEdge := []
deriving Repr, DecidableEq

/-- `dependencyGraph.nodes[id]` read access. -/
def Graph.find? (g : Graph) (id : Str) : Option GNode :=
  List.lookup id g.nodes

/-- JavaScript `nodes[id] = v`: replace in place if the key exists,
otherwise append. -/
def setKey : List (Str × GNode) → Str → GNode → List (Str × GNode)
  | [], id, v => [(id, v)]
  | (k, w) :: t, id, v => if k == id then (k, v) :: t else (k, w) :: setKey t id v

def Graph.setNode (g : Graph) (id : Str) (v : GNode) : Graph :=
  { g with nodes := setKey g.nodes id v }

/-- Mutate the node stored under `id` (JavaScript object aliasing:
`nodes[id].dependencies.push(...)`). -/
def modKey : List (Str × GNode) → Str → (GNode → GNode) → List (Str × GNode)
  | [], _, _ => []
  | (k, w) :: t, id, f => if k == id then (k, f w) :: t else (k, w) :: modKey t id f

def Graph.modNode (g : Graph) (id : Str) (f : GNode → GNode) : Graph :=
  { g with nodes := modKey g.nodes id f }

/-- The common push pattern at every edge-creation site:
`fromNode.dependencies.push(d)`, `toNode.usedBy.push(u)`,
`edges.push({from, to, type})`, in that order. -/
def addEdgePair (g : Graph) (fromId toId : Str) (d u : Dep) (etype : Str) : Graph :=
  let g := g.modNode fromId (fun n => { n with dependencies := n.dependencies ++ [d] })
  let g := g.modNode toId (fun n => { n with usedBy := n.usedBy ++ [u] })
  { g with edges := g.edges ++ [⟨fromId, toId, etype⟩] }

/-! ### Parsed model records (the builder's input) -/

structure MeasureRec where
  name : Str
  dax : Str
deriving Repr, DecidableEq

structure ColumnRec where
  name : Str
deriving Repr, DecidableEq

structure CalcItemRec where
  name : Str
  dax : Str
deriving Repr, DecidableEq

/-- One parsed field-parameter mapping
(`{type, table, property, displayName}`). -/
structure FieldParamRef where
  rtype : Str
  table : Str := []
  property : Str
deriving Repr, DecidableEq

structure TableRec where
  tableName : Str
  columns : List ColumnRec
  isCalculationGroup : Bool := false
  calculationItems : List CalcItemRec := []
  isFieldParameter : Bool := false
  fieldParameterRefs : List FieldParamRef := []
deriving Repr, DecidableEq

/-- One field reference of a parsed visual.  `locations` holds the
`location` values of the per-occurrence metadata list. -/
structure VisualField where
  ftype : Str
  name : Str := []
  entity : Str := []
  table : Str := []
  column : Str := []
  location : Str := []
  locations : List Str := []
deriving Repr, DecidableEq

structure VisualRec where
  pageId : Str
  visualId : Str
  visualType : Str
  visualName : Str := []
  pageName : Str := []
  fields : List VisualField
deriving Repr, DecidableEq

structure RelationshipRec where
  name : Str
  fromTable : Str
  fromColumn : Str
  toTable : Str
  toColumn : Str
  isActive : Bool := true
deriving Repr, DecidableEq

structure ParsedData where
  measures : List MeasureRec := []
  tables : List TableRec := []
  visuals : List VisualRec := []
  relationships : List RelationshipRec := []
deriving Repr, DecidableEq

/-- An `orphanedReferences` entry. -/
inductive Orphan where
  | measureRef (referencedName inMeasure nodeId : Str)
  | columnRef (referencedTable referencedColumn inMeasure nodeId : Str)
deriving Repr, DecidableEq

/-! ### Graph construction (`DependencyAnalyzer.buildDependencyGraph`) -/

def addMeasureNodes (g : Graph) (measures : List MeasureRec) : Graph :=
  measures.foldl
    (fun g m => g.setNode (str "Measure." ++ m.name)
      { ntype := str "measure", name := m.name, dax := m.dax }) g

def addColumnNodes (g : Graph) (tables : List TableRec) : Graph :=
  tables.foldl
    (fun g t => t.columns.foldl
      (fun g c => g.setNode (t.tableName ++ str "." ++ c.name)
        { ntype := str "column", table := t.tableName, column := c.name }) g) g

def addTableNodes (g : Graph) (tables : List TableRec) : Graph :=
  tables.foldl
    (fun g t => g.setNode (str "Table." ++ t.tableName)
      { ntype := str "table", tableName := t.tableName }) g

def addVisualNodes (g : Graph) (visuals : List VisualRec) : Graph :=
  visuals.foldl
    (fun g v =>
      let displayName := if v.visualName = [] then v.visualId else v.visualName
      g.setNode (v.pageId ++ str "/" ++ v.visualId)
        { ntype := str "visual",
          name := v.visualType ++ str " - " ++ displayName,
          pageId := v.pageId, visualId := v.visualId, visualType := v.visualType }) g

/-- `addCalculationGroupNodes`: group node, item nodes, the
item-to-group edge pair, and column/table edges extracted from each
item's DAX (edges only when the target node exists; nothing is
recorded otherwise). -/
def addCalcItemRefEdges (g : Graph) (t : TableRec) (item : CalcItemRec)
    (itemNodeId : Str) : Graph :=
  if item.dax ≠ [] then
    let refs := extractReferences item.dax
    let g := refs.columnRefs.foldl
      (fun g cr =>
        let colNodeId := cr.1 ++ str "." ++ cr.2
        if (g.find? colNodeId).isSome then
          addEdgePair g itemNodeId colNodeId
            (mkDep (str "column") colNodeId)
            (mkDep (str "calculationItem") itemNodeId
              (t.tableName ++ str ": " ++ item.name))
            (str "calcItem-to-column")
        else g) g
    refs.tableRefs.foldl
      (fun g tn =>
        let tableNodeId := str "Table." ++ tn
        if (g.find? tableNodeId).isSome then
          addEdgePair g itemNodeId tableNodeId
            (mkDep (str "table") tableNodeId tn)
            (mkDep (str "calculationItem") itemNodeId
              (t.tableName ++ str ": " ++ item.name))
            (str "calcItem-to-table")
        else g) g
  else g

def addCalculationGroupNodes (g : Graph) (tables : List TableRec) : Graph :=
  tables.foldl
    (fun g t =>
      if t.isCalculationGroup then
        let groupNodeId := str "CalcGroup." ++ t.tableName
        let g := g.setNode groupNodeId
          { ntype := str "calculationGroup", name := t.tableName,
            tableName := t.tableName }
        t.calculationItems.foldl
          (fun g item =>
            let itemNodeId := str "CalcItem." ++ t.tableName ++ str "." ++ item.name
            let g := g.setNode itemNodeId
              { ntype := str "calculationItem", name := item.name,
                tableName := t.tableName, dax := item.dax }
            let g := addEdgePair g itemNodeId groupNodeId
              (mkDep (str "calculationGroup") groupNodeId t.tableName)
              (mkDep (str "calculationItem") itemNodeId item.name)
              (str "calcItem-to-calcGroup")
            addCalcItemRefEdges g t item itemNodeId) g
      else g) g

def addFieldParameterNodes (g : Graph) (tables : List TableRec) : Graph :=
  tables.foldl
    (fun g t =>
      if t.isFieldParameter then
        g.setNode (str "FieldParam." ++ t.tableName)
          { ntype := str "fieldParameter", name := t.tableName,
            tableName := t.tableName }
      else g) g

/-- One measure-reference step of `buildMeasureDependencies`: an edge
pair when the target measure node exists, otherwise an
`OrphanedReference`. -/
def processMeasureRef (m : MeasureRec) (st : Graph × List Orphan) (refName : Str) :
    Graph × List Orphan :=
  let measureNodeId := str "Measure." ++ m.name
  let refNodeId := str "Measure." ++ refName
  if (st.1.find? refNodeId).isSome then
    (addEdgePair st.1 measureNodeId refNodeId
      (mkDep (str "measure") refNodeId refName)
      (mkDep (str "measure") measureNodeId m.name)
      (str "measure-to-measure"), st.2)
  else
    (st.1, st.2 ++ [Orphan.measureRef refName m.name measureNodeId])

/-- One column-reference step of `buildMeasureDependencies`. -/
def processColumnRef (m : MeasureRec) (st : Graph × List Orphan) (cr : Str × Str) :
    Graph × List Orphan :=
  let measureNodeId := str "Measure." ++ m.name
  let colNodeId := cr.1 ++ str "." ++ cr.2
  if (st.1.find? colNodeId).isSome then
    (addEdgePair st.1 measureNodeId colNodeId
      (mkDep (str "column") colNodeId)
      (mkDep (str "measure") measureNodeId m.name)
      (str "measure-to-column"), st.2)
  else
    (st.1, st.2 ++ [Orphan.columnRef cr.1 cr.2 m.name measureNodeId])

/-- One table-reference step of `buildMeasureDependencies`: an edge
only when the table node exists and no column dependency on the same
table was already recorded for this measure; a missing target is
dropped without an orphan record (the source has no `else` branch). -/
def processTableRef (m : MeasureRec) (g : Graph) (tn : Str) : Graph :=
  let measureNodeId := str "Measure." ++ m.name
  let tableNodeId := str "Table." ++ tn
  if (g.find? tableNodeId).isSome then
    let hasColumnRef :=
      match g.find? measureNodeId with
      | some mnode =>
        mnode.dependencies.any (fun dep =>
          dep.dtype == str "column" &&
          (match g.find? dep.ref with
           | some n => n.table == tn
           | none => false))
      | none => false
    if hasColumnRef then g
    else
      addEdgePair g measureNodeId tableNodeId
        (mkDep (str "table") tableNodeId tn)
        (mkDep (str "measure") measureNodeId m.name)
        (str "measure-to-table")
  else g

def buildMeasureDepsForMeasure (st : Graph × List Orphan) (m : MeasureRec) :
    Graph × List Orphan :=
  match st.1.find? (str "Measure." ++ m.name) with
  | none => st
  | some _ =>
    let refs := extractReferences m.dax
    let st := refs.measureRefs.foldl (processMeasureRef m) st
    let st := refs.columnRefs.foldl (processColumnRef m) st
    (refs.tableRefs.foldl (processTableRef m) st.1, st.2)

/-- `buildMeasureDependencies` (also resets `orphanedReferences`). -/
def buildMeasureDependencies (g : Graph) (measures : List MeasureRec) :
    Graph × List Orphan :=
  measures.foldl buildMeasureDepsForMeasure (g, [])

/-- One visual field of `buildVisualDependencies`.  Unresolvable fields
are dropped silently (no orphan record, no error). -/
def processVisualField (v : VisualRec) (g : Graph) (f : VisualField) : Graph :=
  let visualNodeId := v.pageId ++ str "/" ++ v.visualId
  let usage : Dep :=
    ⟨str "visual", visualNodeId, [], v.pageId, v.visualId, v.visualType⟩
  if f.ftype == str "measure" then
    let measureNodeId := str "Measure." ++ f.name
    if (g.find? measureNodeId).isSome then
      addEdgePair g visualNodeId measureNodeId
        (mkDep (str "measure") measureNodeId f.name) usage
        (str "visual-to-measure")
    else g
  else if f.ftype == str "column" then
    let paramNodeId := str "FieldParam." ++ f.table
    let isFieldParamRef :=
      f.location == str "fieldParameter" ||
      f.locations.any (fun loc => loc == str "fieldParameter")
    if isFieldParamRef && (g.find? paramNodeId).isSome then
      addEdgePair g visualNodeId paramNodeId
        (mkDep (str "fieldParameter") paramNodeId f.table) usage
        (str "visual-to-fieldParameter")
    else
      let calcGroupNodeId := str "CalcGroup." ++ f.table
      if (g.find? calcGroupNodeId).isSome then
        addEdgePair g visualNodeId calcGroupNodeId
          (mkDep (str "calculationGroup") calcGroupNodeId f.table) usage
          (str "visual-to-calculationGroup")
      else
        let colNodeId := f.table ++ str "." ++ f.column
        if (g.find? colNodeId).isSome then
          addEdgePair g visualNodeId colNodeId
            (mkDep (str "column") colNodeId) usage
            (str "visual-to-column")
        else if (g.find? paramNodeId).isSome then
          addEdgePair g visualNodeId paramNodeId
            (mkDep (str "fieldParameter") paramNodeId f.table) usage
            (str "visual-to-fieldParameter")
        else g
  else g

def buildVisualDependencies (g : Graph) (visuals : List VisualRec) : Graph :=
  visuals.foldl
    (fun g v =>
      if (g.find? (v.pageId ++ str "/" ++ v.visualId)).isSome then
        v.fields.foldl (processVisualField v) g
      else g) g

/-- One mapping of `buildFieldParameterDependencies`; missing targets
are dropped silently. -/
def processFieldParamRef (t : TableRec) (g : Graph) (ref : FieldParamRef) : Graph :=
  let paramNodeId := str "FieldParam." ++ t.tableName
  let targetNodeId :=
    if ref.rtype == str "measure" then str "Measure." ++ ref.property
    else ref.table ++ str "." ++ ref.property
  if (g.find? targetNodeId).isSome then
    addEdgePair g paramNodeId targetNodeId
      (mkDep ref.rtype targetNodeId
        (if ref.rtype == str "measure" then ref.property
         else ref.table ++ str "[" ++ ref.property ++ str "]"))
      (mkDep (str "fieldParameter") paramNodeId t.tableName)
      (str "fieldParam-to-" ++ ref.rtype)
  else g

def buildFieldParameterDependencies (g : Graph) (tables : List TableRec) : Graph :=
  tables.foldl
    (fun g t =>
      if t.isFieldParameter then
        if (g.find? (str "FieldParam." ++ t.tableName)).isSome then
          t.fieldParameterRefs.foldl (processFieldParamRef t) g
        else g
      else g) g

/-- `DependencyAnalyzer.buildDependencyGraph`: node phases then edge
phases, in source order; returns the graph and the orphaned-reference
list. -/
def buildDependencyGraph (pd : ParsedData) : Graph × List Orphan :=
  let g : Graph := {}
  let g := addMeasureNodes g pd.measures
  let g := addColumnNodes g pd.tables
  let g := addTableNodes g pd.tables
  let g := addVisualNodes g pd.visuals
  let g := addCalculationGroupNodes g pd.tables
  let g := addFieldParameterNodes g pd.tables
  let (g, orphans) := buildMeasureDependencies g pd.measures
  let g := buildVisualDependencies g pd.visuals
  let g := buildFieldParameterDependencies g pd.tables
  (g, orphans)

/-! ### Traversal (`findAllUpstream` / `findAllDownstream`) -/

/-- A recorded traversal result: the JavaScript code stores
`{...node, nodeId, depth}`; the fields below are the ones the verified
operations read (identity, `type` for grouping, `depth`). -/
structure RNode where
  nodeId : Str
  ntype : Str
  depth : Nat
deriving Repr, DecidableEq

structure Grouped where
  measures : List RNode := []
  columns : List RNode := []
  tables : List RNode := []
  visuals : List RNode := []
  calculationItems : List RNode := []
  calculationGroups : List RNode := []
  fieldParameters : List RNode := []
deriving Repr, DecidableEq

/-- Stable ascending insertion by depth: an element is inserted after
every element of depth ≤ its own, so relative order of equal depths is
preserved. -/
def insertByDepth (n : RNode) : List RNode → List RNode
  | [] => [n]
  | m :: r => if m.depth ≤ n.depth then m :: insertByDepth n r else n :: m :: r

/-- Stable sort by ascending depth: the JavaScript
`arr.sort((a, b) => a.depth - b.depth)` (`Array.prototype.sort` is
stable). -/
def sortByDepth (l : List RNode) : List RNode :=
  l.foldl (fun acc n => insertByDepth n acc) []

/-- `_groupByType`: bucket by `type` (any other type is dropped, as the
if-chain has no final else), then sort each bucket by ascending depth. -/
def groupByType (allNodes : List RNode) : Grouped :=
  let gr := allNodes.foldl
    (fun (gr : Grouped) n =>
      if n.ntype == str "measure" then { gr with measures := gr.measures ++ [n] }
      else if n.ntype == str "column" then { gr with columns := gr.columns ++ [n] }
      else if n.ntype == str "table" then { gr with tables := gr.tables ++ [n] }
      else if n.ntype == str "visual" then { gr with visuals := gr.visuals ++ [n] }
      else if n.ntype == str "calculationItem" then
        { gr with calculationItems := gr.calculationItems ++ [n] }
      else if n.ntype == str "calculationGroup" then
        { gr with calculationGroups := gr.calculationGroups ++ [n] }
      else if n.ntype == str "fieldParameter" then
        { gr with fieldParameters := gr.fieldParameters ++ [n] }
      else gr)
    {}
  { measures := sortByDepth gr.measures
    columns := sortByDepth gr.columns
    tables := sortByDepth gr.tables
    visuals := sortByDepth gr.visuals
    calculationItems := sortByDepth gr.calculationItems
    calculationGroups := sortByDepth gr.calculationGroups
    fieldParameters := sortByDepth gr.fieldParameters }

/-- `_traverseDownstream`, with explicit state passing.  `maxDepth = -1`
means unbounded.  The fuel argument only bounds the recursion for Lean;
`nodes.length + 2` always exceeds the deepest possible call chain
(every call on the stack has a distinct node id and all but the last
two are graph keys), so the fuel-exhaustion branch is unreachable from
`findAllDownstream`. -/
def traverseDownstream (g : Graph) (maxDepth : Int) :
    Nat → Str → List Str → List RNode → Nat → List Str × List RNode
  | 0, _, visited, acc, _ => (visited, acc)
  | Nat.succ fuel, nodeId, visited, acc, depth =>
    if visited.contains nodeId then (visited, acc)
    else
      let visited := nodeId :: visited
      if maxDepth ≠ -1 ∧ (depth : Int) > maxDepth then (visited, acc)
      else
        match g.find? nodeId with
        | none => (visited, acc)
        | some node =>
          let acc := if depth > 0 then acc ++ [⟨nodeId, node.ntype, depth⟩] else acc
          node.usedBy.foldl
            (fun st u => traverseDownstream g maxDepth fuel u.ref st.1 st.2 (depth + 1))
            (visited, acc)

/-- `findAllDownstream` (default `maxDepth = -1`). -/
def findAllDownstream (g : Graph) (nodeId : Str) (maxDepth : Int := -1) : Grouped :=
  groupByType (traverseDownstream g maxDepth (g.nodes.length + 2) nodeId [] [] 0).2

/-- `_traverseUpstream` (identical shape, over `dependencies`). -/
def traverseUpstream (g : Graph) (maxDepth : Int) :
    Nat → Str → List Str → List RNode → Nat → List Str × List RNode
  | 0, _, visited, acc, _ => (visited, acc)
  | Nat.succ fuel, nodeId, visited, acc, depth =>
    if visited.contains nodeId then (visited, acc)
    else
      let visited := nodeId :: visited
      if maxDepth ≠ -1 ∧ (depth : Int) > maxDepth then (visited, acc)
      else
        match g.find? nodeId with
        | none => (visited, acc)
        | some node =>
          let acc := if depth > 0 then acc ++ [⟨nodeId, node.ntype, depth⟩] else acc
          node.dependencies.foldl
            (fun st dep => traverseUpstream g maxDepth fuel dep.ref st.1 st.2 (depth + 1))
            (visited, acc)

/-- `findAllUpstream` (default `maxDepth = -1`). -/
def findAllUpstream (g : Graph) (nodeId : Str) (maxDepth : Int := -1) : Grouped :=
  groupByType (traverseUpstream g maxDepth (g.nodes.length + 2) nodeId [] [] 0).2

/-! ### `findRelationshipsUsingColumn`, `analyzeDelete` -/

def findRelationshipsUsingColumn (relationships : List RelationshipRec)
    (tableName columnName : Str) : List RelationshipRec :=
  relationships.filter (fun rel =>
    (rel.fromTable == tableName && rel.fromColumn == columnName) ||
    (rel.toTable == tableName && rel.toColumn == columnName))

structure DeleteAnalysis where
  targetType : Str
  riskLevel : Str
  directMeasures : List RNode
  directVisuals : List RNode
  directRelationships : List RelationshipRec
  cascadeMeasures : List RNode
  cascadeVisuals : List RNode
  totalBreaks : Nat
deriving Repr, DecidableEq

/-- `DependencyAnalyzer.analyzeDelete`: the missing-node error becomes
`none`.  The single JavaScript loop that pushes depth-1 items into
`directBreaks` and the rest into `cascadeBreaks` is expressed as two
order-preserving filters. -/
def analyzeDelete (g : Graph) (relationships : List RelationshipRec)
    (nodeId : Str) : Option DeleteAnalysis :=
  match g.find? nodeId with
  | none => none
  | some node =>
    let downstream := findAllDownstream g nodeId
    let directMeasures := downstream.measures.filter (fun i => i.depth = 1)
    let cascadeMeasures := downstream.measures.filter (fun i => ¬(i.depth = 1))
    let directVisuals := downstream.visuals.filter (fun i => i.depth = 1)
    let cascadeVisuals := downstream.visuals.filter (fun i => ¬(i.depth = 1))
    let directRelationships :=
      if node.ntype == str "column" then
        findRelationshipsUsingColumn relationships node.table node.column
      else []
    let totalDownstream := downstream.measures.length + downstream.visuals.length
    let riskLevel :=
      if totalDownstream = 0 ∧ directRelationships = [] then str "safe"
      else if totalDownstream ≤ 5 ∧ directRelationships = [] then str "caution"
      else str "dangerous"
    some
      { targetType := node.ntype, riskLevel := riskLevel,
        directMeasures := directMeasures, directVisuals := directVisuals,
        directRelationships := directRelationships,
        cascadeMeasures := cascadeMeasures, cascadeVisuals := cascadeVisuals,
        totalBreaks := totalDownstream + directRelationships.length }

/-! ### `detectCircularDependencies` -/

structure CycState where
  circular : List (List Str) := []
  visited : List Str := []
  recStack : List Str := []
deriving Repr, DecidableEq

/-- The `dfs` closure of `detectCircularDependencies`.  With initial
fuel 1001 the fuel-exhaustion branch is unreachable: every recursive
call grows `path` by one and the source returns as soon as
`path.length` reaches the hard ceiling 1000. -/
def cycleDFS (g : Graph) : Nat → Str → List Str → CycState → CycState
  | 0, _, _, s => s
  | Nat.succ fuel, nodeId, path, s =>
    if path.length ≥ 1000 then s
    else if s.recStack.contains nodeId then
      { s with circular :=
          s.circular ++ [path.drop (path.indexOf nodeId) ++ [nodeId]] }
    else if s.visited.contains nodeId then s
    else
      let s1 : CycState :=
        { s with visited := nodeId :: s.visited, recStack := nodeId :: s.recStack }
      let s2 :=
        match g.find? nodeId with
        | some node =>
          node.dependencies.foldl
            (fun st (dep : Dep) => cycleDFS g fuel dep.ref (path ++ [nodeId]) st) s1
        | none => s1
      { s2 with recStack := s2.recStack.erase nodeId }

/-- `detectCircularDependencies`: run the DFS from every measure node,
in node insertion order, sharing `visited` across roots. -/
def detectCircularDependencies (g : Graph) : List (List Str) :=
  (g.nodes.foldl
    (fun (s : CycState) p =>
      if p.2.ntype == str "measure" then cycleDFS g 1001 p.1 [] s else s)
    {}).circular

/-! ### RefactoringEngine: DAX rewriting -/

/-- Global case-insensitive literal replacement
(`dax.replace(new RegExp(escapeRegex(pat), 'gi'), repl)`); `escapeRegex`
makes the pattern literal, so the scan is a plain case-insensitive
substring scan, leftmost and non-overlapping.  A positive first
argument skips characters already consumed by the previous match. -/
def replaceAllCIAux (pat repl : Str) : Nat → Str → Str
  | _, [] => []
  | skip+1, _ :: r => replaceAllCIAux pat repl skip r
  | 0, c :: r =>
    if pat ≠ [] ∧ ciPrefix pat (c :: r) then
      repl ++ replaceAllCIAux pat repl (pat.length - 1) r
    else c :: replaceAllCIAux pat repl 0 r

def replaceAllCI (pat repl s : Str) : Str := replaceAllCIAux pat repl 0 s

/-- `RefactoringEngine.replaceMeasureInDAX`: `[Old]` → `[New]`,
case-insensitively.  (Replacement-string `$`-sequences never occur in
the planner's inputs and are not modelled.) -/
def replaceMeasureInDAX (dax oldName newName : Str) : Str :=
  replaceAllCI ('[' :: oldName ++ [']']) ('[' :: newName ++ [']']) dax

/-- Pass 1 of `replaceTableNameInDAX`:
`(?<!')OLD\\[` → replacement, case-insensitively.  `prev` is the previous
character of the original text (lookbehinds read the subject string,
and `replace` never rescans emitted text); after a match the last
consumed character is `[`. -/
def tablePass1Aux (old repl : Str) : Option Char → Nat → Str → Str
  | _, _, [] => []
  | prev, skip+1, _ :: r => tablePass1Aux old repl prev skip r
  | prev, 0, c :: r =>
    if ¬(prev = some '\'') ∧ ciPrefix (old ++ ['[']) (c :: r) then
      repl ++ tablePass1Aux old repl (some '[') old.length r
    else c :: tablePass1Aux old repl (some c) 0 r

def tablePass1 (old repl : Str) (prev : Option Char) (s : Str) : Str :=
  tablePass1Aux old repl prev 0 s

/-- The function whitelist of patterns 3 and 4 of
`replaceTableNameInDAX` (longer than the extractor's whitelist). -/
def tableFnNames22 : List Str :=
  [str "COUNTROWS", str "RELATEDTABLE", str "VALUES", str "ALL", str "DISTINCT",
   str "SUMMARIZE", str "ADDCOLUMNS", str "SELECTCOLUMNS", str "FILTER",
   str "CALCULATETABLE", str "TOPN", str "SAMPLE", str "GENERATE",
   str "GENERATEALL", str "NATURALLEFTOUTERJOIN", str "NATURALINNERJOIN",
   str "CROSSJOIN", str "UNION", str "INTERSECT", str "EXCEPT",
   str "DATATABLE", str "TREATAS"]

/-- Pattern 3 matcher
`((?:FN)\\s*\\(\\s*)(?<!')OLD(\\s*[,)])` at the head of `s`: returns the
original texts of capture groups 1 and 2 and the remainder.  The
lookbehind always passes here (the preceding character is `(` or
whitespace); greedy `\\s*` needs no backtracking unless the table name
itself begins with whitespace. -/
def tableFnMatch (old : Str) (s : Str) : Option (Str × Str × Str) :=
  match firstKwCI tableFnNames22 s with
  | none => none
  | some n =>
    let kwTxt := s.take n
    let rest1 := s.drop n
    let ws1 := rest1.takeWhile isSpaceChar
    match rest1.dropWhile isSpaceChar with
    | '(' :: rest2 =>
      let ws2 := rest2.takeWhile isSpaceChar
      let rest3 := rest2.dropWhile isSpaceChar
      if ciPrefix old rest3 then
        let rest4 := rest3.drop old.length
        let ws3 := rest4.takeWhile isSpaceChar
        match rest4.dropWhile isSpaceChar with
        | c :: rest5 =>
          if c = ',' ∨ c = ')' then
            some (kwTxt ++ ws1 ++ ['('] ++ ws2, ws3 ++ [c], rest5)
          else none
        | [] => none
      else none
    | _ => none

theorem tableFnMatch_length :
    ∀ {old s pre suf rest : Str}, tableFnMatch old s = some (pre, suf, rest) →
      rest.length < s.length := by
  intro old s pre suf rest h
  unfold tableFnMatch at h
  dsimp only at h
  split at h
  · simp at h
  · rename_i n hkw
    split at h
    · rename_i rest2 hdw1
      have e1 : rest2.length < s.length := by
        have d0 : (List.drop n s).length ≤ s.length := by
          have := List.length_drop n s
          omega
        have d1 := dropWhile_length_le isSpaceChar (s.drop n)
        rw [hdw1] at d1
        simp at d1
        omega
      split at h
      · split at h
        · rename_i c rest5 hdw3
          split at h
          · simp only [Option.some.injEq, Prod.mk.injEq] at h
            obtain ⟨h1, h2, h3⟩ := h
            subst h3
            have d2 := dropWhile_length_le isSpaceChar rest2
            have d3 : ((rest2.dropWhile isSpaceChar).drop old.length).length ≤
                (rest2.dropWhile isSpaceChar).length := by
              have := List.length_drop old.length (rest2.dropWhile isSpaceChar)
              omega
            have d4 := dropWhile_length_le isSpaceChar
              ((rest2.dropWhile isSpaceChar).drop old.length)
            rw [hdw3] at d4
            simp at d4
            omega
          · simp at h
        · simp at h
      · simp at h
    · simp at h

/-- Pattern 4 matcher `((?:FN)\\s*\\(\\s*)'OLD'(\\s*[,)])` at the head of
`s`. -/
def tableFnMatchQ (old : Str) (s : Str) : Option (Str × Str × Str) :=
  match firstKwCI tableFnNames22 s with
  | none => none
  | some n =>
    let kwTxt := s.take n
    let rest1 := s.drop n
    let ws1 := rest1.takeWhile isSpaceChar
    match rest1.dropWhile isSpaceChar with
    | '(' :: rest2 =>
      let ws2 := rest2.takeWhile isSpaceChar
      match rest2.dropWhile isSpaceChar with
      | '\'' :: rest3 =>
        if ciPrefix (old ++ ['\'']) rest3 then
          let rest4 := rest3.drop (old.length + 1)
          let ws3 := rest4.takeWhile isSpaceChar
          match rest4.dropWhile isSpaceChar with
          | c :: rest5 =>
            if c = ',' ∨ c = ')' then
              some (kwTxt ++ ws1 ++ ['('] ++ ws2, ws3 ++ [c], rest5)
            else none
          | [] => none
        else none
      | _ => none
    | _ => none

theorem tableFnMatchQ_length :
    ∀ {old s pre suf rest : Str}, tableFnMatchQ old s = some (pre, suf, rest) →
      rest.length < s.length := by
  intro old s pre suf rest h
  unfold tableFnMatchQ at h
  dsimp only at h
  split at h
  · simp at h
  · rename_i n hkw
    split at h
    · rename_i rest2 hdw1
      have e1 : rest2.length < s.length := by
        have d0 : (List.drop n s).length ≤ s.length := by
          have := List.length_drop n s
          omega
        have d1 := dropWhile_length_le isSpaceChar (s.drop n)
        rw [hdw1] at d1
        simp at d1
        omega
      split at h
      · rename_i rest3 hdw2
        have e2 : rest3.length < rest2.length := by
          have d1 := dropWhile_length_le isSpaceChar rest2
          rw [hdw2] at d1
          simp at d1
          omega
        split at h
        · split at h
          · rename_i c rest5 hdw3
            split at h
            · simp only [Option.some.injEq, Prod.mk.injEq] at h
              obtain ⟨h1, h2, h3⟩ := h
              subst h3
              have d3 : (rest3.drop (old.length + 1)).length ≤ rest3.length := by
                have := List.length_drop (old.length + 1) rest3
                omega
              have d4 := dropWhile_length_le isSpaceChar (rest3.drop (old.length + 1))
              rw [hdw3] at d4
              simp at d4
              omega
            · simp at h
          · simp at h
        · simp at h
      · simp at h
    · simp at h

/-- Pass 3 scanner: replacement is `$1` ++ `mid` ++ `$2`; the matcher
returns a suffix of `r` as remainder. -/
def tablePass3Aux (old mid : Str) : Nat → Str → Str
  | _, [] => []
  | skip+1, _ :: r => tablePass3Aux old mid skip r
  | 0, c :: r =>
    match tableFnMatch old (c :: r) with
    | some (pre, suf, rest) =>
      pre ++ mid ++ suf ++ tablePass3Aux old mid (r.length - rest.length) r
    | none => c :: tablePass3Aux old mid 0 r

def tablePass3 (old mid s : Str) : Str := tablePass3Aux old mid 0 s

/-- Pass 4 scanner: replacement is `$1'NEW'$2`. -/
def tablePass4Aux (old mid : Str) : Nat → Str → Str
  | _, [] => []
  | skip+1, _ :: r => tablePass4Aux old mid skip r
  | 0, c :: r =>
    match tableFnMatchQ old (c :: r) with
    | some (pre, suf, rest) =>
      pre ++ mid ++ suf ++ tablePass4Aux old mid (r.length - rest.length) r
    | none => c :: tablePass4Aux old mid 0 r

def tablePass4 (old mid s : Str) : Str := tablePass4Aux old mid 0 s

/-- `RefactoringEngine.replaceTableNameInDAX`: the four sequential
replacement passes, auto-quoting the new name where the old occurrence
was unquoted iff the new name contains whitespace
(`needsQuotes = /\\s/.test(newTableName)`). -/
def replaceTableNameInDAX (dax oldTableName newTableName : Str) : Str :=
  let needsQuotes := newTableName.any isSpaceChar
  let r1 := tablePass1 oldTableName
    (if needsQuotes then '\'' :: newTableName ++ str "'[" else newTableName ++ str "[")
    none dax
  let r2 := replaceAllCI ('\'' :: oldTableName ++ str "'[")
    ('\'' :: newTableName ++ str "'[") r1
  let r3 := tablePass3 oldTableName
    (if needsQuotes then '\'' :: newTableName ++ ['\''] else newTableName) r2
  tablePass4 oldTableName ('\'' :: newTableName ++ ['\'']) r3

/-! ### RefactoringEngine: rename planning -/

/-- One ChangeSet entry.  `ctype` is the JavaScript `type`
discriminator; unused fields stay at their defaults. -/
structure Change where
  file : Str
  ctype : Str
  description : Str := []
  oldContent : Str := []
  newContent : Str := []
  fullOldContent : Str := []
  fullNewContent : Str := []
  affectedMeasureName : Str := []
  oldFileName : Str := []
  newFileName : Str := []
deriving Repr, DecidableEq

/-- `substring(0, 200)` plus ellipsis marker, as the planner stores for
display. -/
def truncate200 (s : Str) : Str :=
  s.take 200 ++ (if 200 < s.length then str "..." else [])

/-- `addMeasureDefinitionChange` (no entry when the measure is not in
the parsed list). -/
def addMeasureDefinitionChange (measures : List MeasureRec) (oldName newName : Str) :
    List Change :=
  match measures.find? (fun m => m.name == oldName) with
  | none => []
  | some _ =>
    [{ file := str "definition/tables/Measure.tmdl",
       ctype := str "measure-definition",
       description := str "Rename measure \"" ++ oldName ++ str "\" to \"" ++
         newName ++ str "\"",
       oldContent := str "measure '" ++ oldName ++ str "' =",
       newContent := str "measure '" ++ newName ++ str "' =" }]

/-- `addMeasureDAXReferenceChange` (no entry when the rewrite is the
identity). -/
def addMeasureDAXReferenceChange (measures : List MeasureRec)
    (oldName newName affectedMeasureName : Str) : List Change :=
  match measures.find? (fun m => m.name == affectedMeasureName) with
  | none => []
  | some m =>
    let newDAX := replaceMeasureInDAX m.dax oldName newName
    if m.dax = newDAX then []
    else
      [{ file := str "definition/tables/Measure.tmdl",
         ctype := str "measure-dax-reference",
         description := str "Update reference in measure \"" ++
           affectedMeasureName ++ str "\"",
         oldContent := truncate200 m.dax,
         newContent := truncate200 newDAX,
         fullOldContent := m.dax,
         fullNewContent := newDAX,
         affectedMeasureName := affectedMeasureName }]

/-- `addVisualMeasureReferenceChange`. -/
def addVisualMeasureReferenceChange (oldName newName pageId visualId : Str) : Change :=
  { file := str "definition/pages/" ++ pageId ++ str "/visuals/" ++ visualId ++
      str "/visual.json",
    ctype := str "visual-measure-reference",
    description := str "Update measure reference in visual " ++ visualId ++
      str " on page " ++ pageId,
    oldContent := str "\"Property\": \"" ++ oldName ++ str "\"",
    newContent := str "\"Property\": \"" ++ newName ++ str "\"" }

/-- `addFieldParameterNameofChange` for a measure reference (the column
branch carries the quoted table qualifier). -/
def addFieldParameterNameofChange (oldName newName : Str) (isMeasure : Bool)
    (tableName paramTableName : Str) : Change :=
  { file := str "definition/tables/" ++ paramTableName ++ str ".tmdl",
    ctype := str "field-parameter-nameof",
    description := str "Update NAMEOF() reference in field parameter \"" ++
      paramTableName ++ str "\"",
    oldContent :=
      if isMeasure then str "[" ++ oldName ++ str "]"
      else str "'" ++ tableName ++ str "'[" ++ oldName ++ str "]",
    newContent :=
      if isMeasure then str "[" ++ newName ++ str "]"
      else str "'" ++ tableName ++ str "'[" ++ newName ++ str "]" }

/-- `RefactoringEngine.previewMeasureRename`: `none` models the thrown
"measure not found" error; otherwise the change list in plan order
(definition edit, then measure-DAX edits, then visual edits, then
field-parameter edits, each loop scanning `usedBy` in order). -/
def previewMeasureRename (g : Graph) (measures : List MeasureRec)
    (oldName newName : Str) : Option (List Change) :=
  match g.find? (str "Measure." ++ oldName) with
  | none => none
  | some node =>
    let cs := addMeasureDefinitionChange measures oldName newName
    let cs := node.usedBy.foldl
      (fun cs u =>
        if u.dtype == str "measure" then
          cs ++ addMeasureDAXReferenceChange measures oldName newName u.name
        else cs) cs
    let cs := node.usedBy.foldl
      (fun cs u =>
        if u.dtype == str "visual" then
          cs ++ [addVisualMeasureReferenceChange oldName newName u.pageId u.visualId]
        else cs) cs
    let cs := node.usedBy.foldl
      (fun cs u =>
        if u.dtype == str "fieldParameter" then
          match g.find? u.ref with
          | some paramNode =>
            cs ++ [addFieldParameterNameofChange oldName newName true []
              paramNode.tableName]
          | none => cs
        else cs) cs
    some cs

/-- `RefactoringEngine.previewTableRename`: file rename entry, measure
DAX rewrites, visual entity edits, relationship endpoint edits. -/
def previewTableRename (g : Graph) (measures : List MeasureRec)
    (visuals : List VisualRec) (relationships : List RelationshipRec)
    (oldTableName newTableName : Str) : Option (List Change) :=
  match g.find? (str "Table." ++ oldTableName) with
  | none => none
  | some _ =>
    let cs : List Change :=
      [{ file := str "definition/tables/" ++ oldTableName ++ str ".tmdl",
         ctype := str "file-rename",
         description := str "Rename file \"" ++ oldTableName ++
           str ".tmdl\" to \"" ++ newTableName ++ str ".tmdl\"",
         oldFileName := oldTableName ++ str ".tmdl",
         newFileName := newTableName ++ str ".tmdl",
         oldContent := str "table '" ++ oldTableName ++ str "'",
         newContent := str "table '" ++ newTableName ++ str "'" }]
    let cs := measures.foldl
      (fun cs m =>
        let newDAX := replaceTableNameInDAX m.dax oldTableName newTableName
        if m.dax = newDAX then cs
        else cs ++
          [{ file := str "definition/tables/Measure.tmdl",
             ctype := str "table-dax-reference",
             description := str "Update table references in measure \"" ++
               m.name ++ str "\"",
             oldContent := truncate200 m.dax,
             newContent := truncate200 newDAX,
             fullOldContent := m.dax,
             fullNewContent := newDAX,
             affectedMeasureName := m.name }]) cs
    let cs := visuals.foldl
      (fun cs v =>
        if (g.find? (v.pageId ++ str "/" ++ v.visualId)).isSome then
          let hasTableRef := v.fields.any (fun f =>
            (f.ftype == str "column" && f.table == oldTableName) ||
            (f.ftype == str "measure" && f.entity == oldTableName))
          if hasTableRef then
            cs ++
              [{ file := str "definition/pages/" ++ v.pageId ++ str "/visuals/" ++
                   v.visualId ++ str "/visual.json",
                 ctype := str "visual-entity-reference",
                 description := str "Update table entity in visual " ++ v.visualId ++
                   str " on page " ++ v.pageId,
                 oldContent := str "\"Entity\": \"" ++ oldTableName ++ str "\"",
                 newContent := str "\"Entity\": \"" ++ newTableName ++ str "\"" }]
          else cs
        else cs) cs
    let cs := relationships.foldl
      (fun cs rel =>
        let cs :=
          if rel.fromTable == oldTableName then
            cs ++
              [{ file := str "definition/relationships.tmdl",
                 ctype := str "relationship-table-reference",
                 description := str "Update fromTable in relationship \"" ++
                   rel.name ++ str "\"",
                 oldContent := oldTableName ++ str "." ++ rel.fromColumn,
                 newContent := newTableName ++ str "." ++ rel.fromColumn }]
          else cs
        if rel.toTable == oldTableName then
          cs ++
            [{ file := str "definition/relationships.tmdl",
               ctype := str "relationship-table-reference",
               description := str "Update toTable in relationship \"" ++
                 rel.name ++ str "\"",
               oldContent := oldTableName ++ str "." ++ rel.toColumn,
               newContent := newTableName ++ str "." ++ rel.toColumn }]
        else cs) cs
    some cs

/-! ### RefactoringEngine: applying a ChangeSet -/

/-- JavaScript `content.replace(string, string)`: first occurrence
only; an empty pattern inserts at the front.  (`$`-sequences in the
replacement never occur in the planner's outputs and are not
modelled.) -/
def replaceFirst : Str → Str → Str → Str
  | s, [], repl => repl ++ s
  | [], _ :: _, _ => []
  | c :: r, p :: ps, repl =>
    if isLitPrefix (p :: ps) (c :: r) then repl ++ (c :: r).drop (p :: ps).length
    else c :: replaceFirst r (p :: ps) repl

/-- JavaScript `String.prototype.split` with a nonempty string
separator: leftmost non-overlapping occurrences (a positive first
argument skips separator characters already consumed). -/
def splitOnSubAux (sep : Str) : Nat → Str → List Str
  | _, [] => [[]]
  | skip+1, _ :: r => splitOnSubAux sep skip r
  | 0, c :: r =>
    if sep ≠ [] ∧ isLitPrefix sep (c :: r) then
      [] :: splitOnSubAux sep (sep.length - 1) r
    else
      match splitOnSubAux sep 0 r with
      | [] => [[c]]
      | p :: ps => (c :: p) :: ps

/-- JavaScript `s.split(sep)` (empty separator splits into single
characters). -/
def splitOnSub (sep s : Str) : List Str :=
  if sep = [] then s.map (fun c => [c]) else splitOnSubAux sep 0 s

/-- JavaScript `content.split(old).join(new)`: replace every
occurrence. -/
def replaceAllSub (s pat repl : Str) : Str :=
  List.intercalate repl (splitOnSub pat s)

/-- One substitution of the `applyChangesToFile` loop: DAX-type changes
use the stored full contents and first-occurrence `replace`, guarded by
a truthiness check and `includes`; all other changes use
`split/join`.  Returns the new content and any pattern-not-found
warning. -/
def applyOneChange (content : Str) (ch : Change) : Str × List Str :=
  if ch.ctype == str "measure-dax-reference" ||
     ch.ctype == str "column-dax-reference" ||
     ch.ctype == str "table-dax-reference" then
    if ch.fullOldContent ≠ [] ∧ ch.fullNewContent ≠ [] then
      if containsSub content ch.fullOldContent then
        (replaceFirst content ch.fullOldContent ch.fullNewContent, [])
      else (content, [str "DAX pattern not found for: " ++ ch.affectedMeasureName])
    else (content, [])
  else
    if containsSub content ch.oldContent then
      (replaceAllSub content ch.oldContent ch.newContent, [])
    else (content, [str "Pattern not found: " ++ ch.oldContent])

/-- The substitution loop over one file's queued changes. -/
def applyChangeList (chs : List Change) (content : Str) : Str × List Str :=
  chs.foldl
    (fun st ch =>
      let out := applyOneChange st.1 ch
      (out.1, st.2 ++ out.2))
    (content, [])

/-! #### File-system state with an injectable write-failure schedule -/

/-- The storage collaborator's state: path → content. -/
abbrev FileSys := List (Str × Str)

def fsRead (fs : FileSys) (p : Str) : Option Str := List.lookup p fs

def fsWrite : FileSys → Str → Str → FileSys
  | [], p, c => [(p, c)]
  | (k, v) :: t, p, c => if k == p then (k, c) :: t else (k, v) :: fsWrite t p c

def fsDelete : FileSys → Str → FileSys
  | [], _ => []
  | (k, v) :: t, p => if k == p then t else (k, v) :: fsDelete t p

/-- World state: the file tree plus a counter of attempted writes.  A
write attempt numbered `n` throws iff `sched n`; reads and deletes
fail only on missing paths (a thrown `getFileHandle`). -/
structure W where
  fs : FileSys
  clock : Nat := 0
deriving Repr, DecidableEq

def wWrite (sched : Nat → Bool) (w : W) (p c : Str) : Bool × W :=
  if sched w.clock then (false, { w with clock := w.clock + 1 })
  else (true, { fs := fsWrite w.fs p c, clock := w.clock + 1 })

/-- A `backups` map entry: prior text for content files,
`{dirHandle, oldFileName, newFileName, originalContent}` for file
renames. -/
inductive Backup where
  | content (text : Str)
  | rename (dir oldName newName originalContent : Str)
deriving Repr, DecidableEq

abbrev Backups := List (Str × Backup)

/-- JavaScript `Map.set`: replace in place or append; iteration is in
insertion order. -/
def setBackup : Backups → Str → Backup → Backups
  | [], k, v => [(k, v)]
  | (k0, v0) :: t, k, v => if k0 == k then (k0, v) :: t else (k0, v0) :: setBackup t k v

def joinPath (dir name : Str) : Str :=
  if dir = [] then name else dir ++ str "/" ++ name

/-- The directory part of a `/`-separated path (the handle navigation
over `parts[0 .. n-2]`). -/
def dirOfPath (p : Str) : Str :=
  List.intercalate (str "/") ((splitOnSub (str "/") p).dropLast)

/-- `FileAccessManager.renameFile`: read the old file, write a new file
with its content, delete the old file — not atomic. -/
def renameFile (sched : Nat → Bool) (w : W) (dir oldName newName : Str) : Bool × W :=
  match fsRead w.fs (joinPath dir oldName) with
  | none => (false, w)
  | some content =>
    let out := wWrite sched w (joinPath dir newName) content
    if out.1 then (true, { out.2 with fs := fsDelete out.2.fs (joinPath dir oldName) })
    else (false, out.2)

/-- `RefactoringEngine.applyFileRename`: read and back up the old file,
patch the table declaration (`split/join`, guarded by a truthiness
check), rename, then write the patched content to the new file if it
changed. -/
def applyFileRename (sched : Nat → Bool) (w : W) (bks : Backups) (ch : Change) :
    Bool × W × Backups :=
  let dir := dirOfPath ch.file
  match fsRead w.fs (joinPath dir ch.oldFileName) with
  | none => (false, w, bks)
  | some originalContent =>
    let bks := setBackup bks ch.file
      (Backup.rename dir ch.oldFileName ch.newFileName originalContent)
    let newContent :=
      if ch.oldContent ≠ [] ∧ ch.newContent ≠ [] then
        replaceAllSub originalContent ch.oldContent ch.newContent
      else originalContent
    let out := renameFile sched w dir ch.oldFileName ch.newFileName
    if ¬out.1 then (false, out.2, bks)
    else if newContent ≠ originalContent then
      let out2 := wWrite sched out.2 (joinPath dir ch.newFileName) newContent
      (out2.1, out2.2, bks)
    else (true, out.2, bks)

/-- `RefactoringEngine.applyChangesToFile`: read, back up, run the
substitution loop, write. -/
def applyChangesToFile (sched : Nat → Bool) (w : W) (bks : Backups)
    (filePath : Str) (chs : List Change) : Bool × W × Backups :=
  match fsRead w.fs filePath with
  | none => (false, w, bks)
  | some content =>
    let bks := setBackup bks filePath (Backup.content content)
    let out := applyChangeList chs content
    let wr := wWrite sched w filePath out.1
    (wr.1, wr.2, bks)

/-- Group content changes by target file, preserving first-seen key
order (JavaScript object key insertion order). -/
def addToGroup : List (Str × List Change) → Change → List (Str × List Change)
  | [], ch => [(ch.file, [ch])]
  | (k, l) :: t, ch =>
    if k == ch.file then (k, l ++ [ch]) :: t else (k, l) :: addToGroup t ch

def groupByFile (chs : List Change) : List (Str × List Change) :=
  chs.foldl addToGroup []

/-- The file-rename pass of `applyChanges` (stops at the first
failure). -/
def applyRenames (sched : Nat → Bool) : W → Backups → List Change → Bool × W × Backups
  | w, bks, [] => (true, w, bks)
  | w, bks, ch :: rest =>
    let out := applyFileRename sched w bks ch
    if out.1 then applyRenames sched out.2.1 out.2.2 rest
    else (false, out.2.1, out.2.2)

/-- The grouped content pass of `applyChanges` (stops at the first
failure). -/
def applyContentGroups (sched : Nat → Bool) :
    W → Backups → List (Str × List Change) → Bool × W × Backups
  | w, bks, [] => (true, w, bks)
  | w, bks, (filePath, chs) :: rest =>
    let out := applyChangesToFile sched w bks filePath chs
    if out.1 then applyContentGroups sched out.2.1 out.2.2 rest
    else (false, out.2.1, out.2.2)

/-- One entry of `restoreBackups`: restore a content backup (after a
`getFileHandleFromPath` that throws on a missing file), or reverse a
file rename and rewrite the original content. -/
def restoreOne (sched : Nat → Bool) (w : W) : Str × Backup → Bool × W
  | (filePath, Backup.content text) =>
    match fsRead w.fs filePath with
    | none => (false, w)
    | some _ => wWrite sched w filePath text
  | (_, Backup.rename dir oldName newName originalContent) =>
    let out := renameFile sched w dir newName oldName
    if ¬out.1 then (false, out.2)
    else wWrite sched out.2 (joinPath dir oldName) originalContent

/-- `RefactoringEngine.restoreBackups`: every entry is attempted, in
insertion order, failures collected; the result is `true` iff no entry
failed (otherwise the source throws "Rollback partially failed"). -/
def restoreBackups (sched : Nat → Bool) : W → Backups → Bool × W
  | w, [] => (true, w)
  | w, b :: rest =>
    let out := restoreOne sched w b
    let out2 := restoreBackups sched out.2 rest
    (out.1 && out2.1, out2.2)

/-- The observable outcome of `applyChanges`: `rolledBack = none` when
no rollback was attempted, `some true` for "changes were rolled back",
`some false` for "rollback also failed - manual recovery may be
needed". -/
structure ApplyOutcome where
  success : Bool
  rolledBack : Option Bool := none
  filesModified : Nat := 0
  totalChanges : Nat := 0
deriving Repr, DecidableEq

/-- The catch branch of `applyChanges`. -/
def rollbackOutcome (sched : Nat → Bool) (w : W) (bks : Backups) : ApplyOutcome × W :=
  if bks = [] then ({ success := false }, w)
  else
    let out := restoreBackups sched w bks
    ({ success := false, rolledBack := some out.1 }, out.2)

/-- `RefactoringEngine.applyChanges`: empty plan throws before any
backup; otherwise rename entries first, then grouped content entries,
with rollback of all captured backups on the first failure. -/
def applyChanges (sched : Nat → Bool) (w : W) (changes : List Change) :
    ApplyOutcome × W :=
  if changes = [] then ({ success := false }, w)
  else
    let renames := changes.filter (fun c => c.ctype == str "file-rename")
    let contents := changes.filter (fun c => ¬(c.ctype == str "file-rename"))
    let grouped := groupByFile contents
    let out1 := applyRenames sched w [] renames
    if ¬out1.1 then rollbackOutcome sched out1.2.1 out1.2.2
    else
      let out2 := applyContentGroups sched out1.2.1 out1.2.2 grouped
      if ¬out2.1 then rollbackOutcome sched out2.2.1 out2.2.2
      else
        ({ success := true, filesModified := renames.length + grouped.length,
           totalChanges := changes.length }, out2.2.1)

/-! ### Concrete inputs and predicates used by the claim statements -/

/-- C10 (implicit claim, confirmed): with a depth bound, a node first
reached beyond the bound is marked visited without being recorded, so
the bounded closure can permanently omit a node reachable within the
bound.  In the model below `Measure.X` depends directly on `Measure.T`
(it is in `T`'s `usedBy`, i.e. reachable in one edge), but the DFS
first reaches it at depth 2 through `Measure.A`; with `maxDepth = 1`
the result omits `X` even though the unbounded traversal contains
it. -/
def pdDepthBound : ParsedData :=
  { measures := [⟨str "T", str "1"⟩, ⟨str "A", str "[T]"⟩,
                 ⟨str "X", str "[T] + [A]"⟩] }

/-- C3 counterexample: a measure whose only dependent is a field
parameter.  `analyzeDelete` reports `safe` although the downstream
closure is nonempty, because the risk score counts only downstream
measures and visuals — refuting "safe exactly when the downstream
closure is empty". -/
def pdFieldParamOnly : ParsedData :=
  { measures := [⟨str "M", str "1"⟩],
    tables := [⟨str "P", [], false, [], true, [⟨str "measure", [], str "M"⟩]⟩] }

/-- C3 witness model: a lone measure with no dependents. -/
def pdC3w : ParsedData := { measures := [⟨str "M", str "1"⟩] }

def dC3w : DeleteAnalysis :=
  { targetType := str "measure", riskLevel := str "safe", directMeasures := [],
    directVisuals := [], directRelationships := [], cascadeMeasures := [],
    cascadeVisuals := [], totalBreaks := 0 }

/-- One dependency step of the graph: node `a` has a dependency entry
whose `ref` is `b`. -/
def depRel (g : Graph) (a b : Str) : Prop :=
  ∃ n, g.find? a = some n ∧ ∃ d ∈ n.dependencies, d.ref = b

/-- A graph is acyclic when no node reaches itself through one or more
dependency edges. -/
def Acyclic (g : Graph) : Prop :=
  ∀ a, ¬ Relation.TransGen (depRel g) a a

/-- C5: on every acyclic graph, `detectCircularDependencies` returns
the empty list; on a graph whose only cycle is the three measures
A→B→C→A it returns exactly one cycle, whose node set is
{Measure.A, Measure.B, Measure.C}. -/
def pdCyc3 : ParsedData :=
  { measures := [⟨str "A", str "[B]"⟩, ⟨str "B", str "[C]"⟩, ⟨str "C", str "[A]"⟩] }

def pdOrphanSilent : ParsedData :=
  { measures := [⟨str "M", str "COUNTROWS(NoTable)"⟩],
    visuals := [{ pageId := str "p1", visualId := str "v1",
                  visualType := str "card",
                  fields := [{ ftype := str "measure",
                               name := str "Missing" }] }] }

def vC2w : VisualRec :=
  { pageId := str "p1", visualId := str "v1", visualType := str "card",
    fields := [] }

def fC2w : VisualField := { ftype := str "measure", name := str "Missing" }

def tC2w : TableRec := { tableName := str "P", columns := [] }

def itemC2w : CalcItemRec := ⟨str "I", str "COUNTROWS(T)"⟩

def chC9a : Change :=
  { file := str "f", ctype := str "visual-measure-reference",
    oldContent := str "XYZ", newContent := str "Q" }

def chC9b : Change :=
  { file := str "f", ctype := str "visual-measure-reference",
    oldContent := str "Hello", newContent := str "World" }

def wC9 : W := { fs := [(str "f", str "Hello")] }

def daxC7 : Str :=
  str "CALCULATE(SUM(Sales[Amt]) + SUMX('Sales'[Amt]), COUNTROWS(Sales), COUNTROWS('Sales'))"

/-- The replacement emitted where the old table name was unquoted and
bracketed: quoted iff the new name contains whitespace. -/
def qForm (new : Str) : Str :=
  if new.any isSpaceChar then '\'' :: new ++ str "'[" else new ++ str "["

/-- The replacement emitted for the quoted bracketed form. -/
def qS (new : Str) : Str := '\'' :: new ++ str "'["

/-- The replacement emitted where the old table name stood bare inside
a whitelisted function call: quoted iff the new name contains
whitespace. -/
def mid3Form (new : Str) : Str :=
  if new.any isSpaceChar then '\'' :: new ++ ['\''] else new

/-- The replacement emitted for the quoted function-argument form. -/
def midQ (new : Str) : Str := '\'' :: new ++ ['\'']

def pdC8 : ParsedData :=
  { measures := [⟨str "M", str "1"⟩, ⟨str "B", str "[M] + [m]"⟩] }

def pdC8fwd : ParsedData :=
  { measures := [⟨str "M2", str "1"⟩, ⟨str "B", str "[M2] + [M2]"⟩] }

def pdC8ok : ParsedData :=
  { measures := [⟨str "M", str "1"⟩, ⟨str "B", str "[M] + 2"⟩] }

def pdC8okf : ParsedData :=
  { measures := [⟨str "M2", str "1"⟩, ⟨str "B", str "[M2] + 2"⟩] }

def knownTypes : List Str :=
  [str "measure", str "column", str "table", str "visual",
   str "calculationItem", str "calculationGroup", str "fieldParameter"]

/-- All recorded nodes of a grouped result, bucket by bucket. -/
def groupedAll (gr : Grouped) : List RNode :=
  gr.measures ++ gr.columns ++ gr.tables ++ gr.visuals ++ gr.calculationItems ++
    gr.calculationGroups ++ gr.fieldParameters

def pdC6 : ParsedData := { measures := [⟨str "A", str "[A]"⟩] }

def pdC6w : ParsedData := { measures := [⟨str "A", str "[B]"⟩, ⟨str "B", str "1"⟩] }

def nC6A : GNode :=
  { ntype := str "measure", name := str "A", dax := str "[B]",
    dependencies := [mkDep (str "measure") (str "Measure.B") (str "B")] }

def nC6B : GNode :=
  { ntype := str "measure", name := str "B", dax := str "1",
    usedBy := [mkDep (str "measure") (str "Measure.A") (str "A")] }

/-- The paths a backup entry restores. -/
def entryOwners : Str × Backup → List Str
  | (p, Backup.content _) => [p]
  | (_, Backup.rename d o n _) => [joinPath d o, joinPath d n]

def ownersList : Backups → List Str
  | [] => []
  | e :: r => entryOwners e ++ ownersList r

/-- What a successful restore run leaves at each path: `some (some t)`
(rewritten content), `some none` (deleted rename target), or `none`
(path untouched by the backups). -/
def bspec : Backups → Str → Option (Option Str)
  | [], _ => none
  | (p, Backup.content t) :: rest, q => if q = p then some (some t) else bspec rest q
  | (_, Backup.rename d o n orig) :: rest, q =>
    if q = joinPath d o then some (some orig)
    else if q = joinPath d n then some none
    else bspec rest q

def fsKeys (fs : FileSys) : List Str := fs.map Prod.fst

def bkeys (bks : Backups) : List Str := bks.map Prod.fst

/-- The mid-apply invariant: the file keys stay duplicate-free, the
backup owners are distinct, every backup key is one of its own owned
paths, paths outside the owners are untouched, and every owned path's
backed-up value is its pre-apply value. -/
def ApplyInv (w0 w : W) (bks : Backups) : Prop :=
  (fsKeys w.fs).Nodup ∧ (ownersList bks).Nodup ∧
  (∀ e ∈ bks, e.1 ∈ entryOwners e) ∧
  (∀ q, q ∉ ownersList bks → fsRead w.fs q = fsRead w0.fs q) ∧
  (∀ q v, bspec bks q = some v → v = fsRead w0.fs q)

/-- The file paths a list of rename changes can touch. -/
def ownersR : List Change → List Str
  | [] => []
  | c :: r => joinPath (dirOfPath c.file) c.oldFileName ::
      joinPath (dirOfPath c.file) c.newFileName :: ownersR r

def keysG : List (Str × List Change) → List Str
  | [] => []
  | g :: r => g.1 :: keysG r

def wC1 : W :=
  { fs := [(str "a.tmdl", str "AAA"), (str "dir/t.tmdl", str "T")] }

def chC1a : Change :=
  { file := str "a.tmdl", ctype := str "measure-definition",
    oldContent := str "AAA", newContent := str "BBB" }

def chC1r : Change :=
  { file := str "dir/t.tmdl", ctype := str "file-rename",
    oldFileName := str "t.tmdl", newFileName := str "t2.tmdl" }

def schedC1 : Nat → Bool := fun n => n == 1

/-! ## Shared lemmas -/

theorem isSome_false_eq_none {α : Type} {o : Option α}
    (h : o.isSome = false) : o = none := by
  cases o with
  | none => rfl
  | some w => simp at h

theorem traverseDownstream_no_usedBy (g : Graph) (id : Str) (node : GNode)
    (hfind : g.find? id = some node) (hub : node.usedBy = []) (fuel : Nat) :
    (traverseDownstream g (-1) (fuel + 1) id [] [] 0).2 = [] := by
  unfold traverseDownstream
  simp [hfind, hub]

theorem groupByType_nil : groupByType [] = {} := by
  decide

theorem findAllDownstream_no_usedBy (g : Graph) (id : Str) (node : GNode)
    (hfind : g.find? id = some node) (hub : node.usedBy = []) :
    findAllDownstream g id = {} := by
  unfold findAllDownstream
  rw [show g.nodes.length + 2 = (g.nodes.length + 1) + 1 from rfl]
  rw [traverseDownstream_no_usedBy g id node hfind hub]
  exact groupByType_nil

/-! ## Claims -/

/-- C4: the specification says a bracketed identifier `[X]` is classified
as a measure reference only when it does not immediately follow a
`table[` or `'table'[` prefix, and the source's own comment claims to
"exclude column references"; but the implemented filter only rejects
captures that contain `[`, which a table-prefixed capture never does.
Evaluating the extractor at the failing input `SUM(Sales[Amount])`
(which contains `Sales[Amount]` and no bare `[Amount]`) shows `Amount`
IS returned as a measure reference, contradicting the claim. -/
theorem C4_measureRef_table_prefix_not_excluded :
    extractMeasureReferences (str "SUM(Sales[Amount])") = [str "Amount"] := by
  decide

theorem C10_bounded_closure_misses_reachable_node :
    (((buildDependencyGraph pdDepthBound).1.find? (str "Measure.T")).map
        (fun n => n.usedBy.map (fun u => u.ref)) =
      some [str "Measure.A", str "Measure.X"]) ∧
    ((findAllDownstream (buildDependencyGraph pdDepthBound).1 (str "Measure.T") 1).measures.map
        (fun n => n.nodeId) = [str "Measure.A"]) ∧
    ((findAllDownstream (buildDependencyGraph pdDepthBound).1 (str "Measure.T")).measures.map
        (fun n => n.nodeId) = [str "Measure.A", str "Measure.X"]) := by
  decide

theorem C3_safe_with_nonempty_closure :
    ((analyzeDelete (buildDependencyGraph pdFieldParamOnly).1 [] (str "Measure.M")).map
        (fun d => d.riskLevel) = some (str "safe")) ∧
    ¬((findAllDownstream (buildDependencyGraph pdFieldParamOnly).1
        (str "Measure.M")).fieldParameters = []) := by
  decide

/-- C3 (amended): `analyzeDelete` scores risk from the number of
downstream measures and visuals only (field parameters, calculation
groups and items in the closure are not counted): `safe` iff that
count is zero with zero relationship breaks, `caution` iff it is
nonzero, at most 5, with zero relationship breaks, `dangerous`
otherwise; a measure with zero `usedBy` entries is always `safe`, and a
column referenced by at least one relationship is never `safe`. -/
theorem C3_delete_risk_amended (g : Graph) (rels : List RelationshipRec)
    (nodeId : Str) (d : DeleteAnalysis)
    (h : analyzeDelete g rels nodeId = some d) :
    ((d.riskLevel = str "safe" ↔
        (findAllDownstream g nodeId).measures.length +
          (findAllDownstream g nodeId).visuals.length = 0 ∧
        d.directRelationships = []) ∧
     (d.riskLevel = str "caution" ↔
        ¬((findAllDownstream g nodeId).measures.length +
            (findAllDownstream g nodeId).visuals.length = 0) ∧
        (findAllDownstream g nodeId).measures.length +
          (findAllDownstream g nodeId).visuals.length ≤ 5 ∧
        d.directRelationships = []) ∧
     (d.riskLevel = str "dangerous" ↔
        5 < (findAllDownstream g nodeId).measures.length +
          (findAllDownstream g nodeId).visuals.length ∨
        ¬(d.directRelationships = []))) ∧
    (∀ node, g.find? nodeId = some node → node.ntype = str "measure" →
       node.usedBy = [] → d.riskLevel = str "safe") ∧
    (∀ node, g.find? nodeId = some node → node.ntype = str "column" →
       ¬(findRelationshipsUsingColumn rels node.table node.column = []) →
       ¬(d.riskLevel = str "safe")) := by
  unfold analyzeDelete at h
  rcases hfind : g.find? nodeId with _ | node
  · rw [hfind] at h; simp at h
  · rw [hfind] at h
    dsimp only at h
    have hd := Option.some.inj h
    subst hd
    dsimp only
    have hsc : ¬(str "safe" = str "caution") := by decide
    have hsd : ¬(str "safe" = str "dangerous") := by decide
    have hcd : ¬(str "caution" = str "dangerous") := by decide
    generalize hR : (if (node.ntype == str "column") = true then
        findRelationshipsUsingColumn rels node.table node.column
      else []) = R
    generalize hcnt : (findAllDownstream g nodeId).measures.length +
        (findAllDownstream g nodeId).visuals.length = cnt
    refine ⟨⟨?_, ?_, ?_⟩, ?_, ?_⟩
    · by_cases h1 : cnt = 0 ∧ R = []
      · rw [if_pos h1]
        exact ⟨fun _ => h1, fun _ => rfl⟩
      · rw [if_neg h1]
        by_cases h2 : cnt ≤ 5 ∧ R = []
        · rw [if_pos h2]
          exact ⟨fun hx => absurd hx.symm hsc, fun hc => absurd hc h1⟩
        · rw [if_neg h2]
          exact ⟨fun hx => absurd hx.symm hsd, fun hc => absurd hc h1⟩
    · by_cases h1 : cnt = 0 ∧ R = []
      · rw [if_pos h1]
        exact ⟨fun hx => absurd hx hsc, fun hr => absurd h1.1 hr.1⟩
      · rw [if_neg h1]
        by_cases h2 : cnt ≤ 5 ∧ R = []
        · rw [if_pos h2]
          exact ⟨fun _ => ⟨fun hz => h1 ⟨hz, h2.2⟩, h2.1, h2.2⟩, fun _ => rfl⟩
        · rw [if_neg h2]
          exact ⟨fun hx => absurd hx.symm hcd, fun hr => absurd ⟨hr.2.1, hr.2.2⟩ h2⟩
    · by_cases h1 : cnt = 0 ∧ R = []
      · rw [if_pos h1]
        refine ⟨fun hx => absurd hx hsd, fun hr => ?_⟩
        rcases hr with hr | hr
        · omega
        · exact absurd h1.2 hr
      · rw [if_neg h1]
        by_cases h2 : cnt ≤ 5 ∧ R = []
        · rw [if_pos h2]
          refine ⟨fun hx => absurd hx hcd, fun hr => ?_⟩
          rcases hr with hr | hr
          · omega
          · exact absurd h2.2 hr
        · rw [if_neg h2]
          refine ⟨fun _ => ?_, fun _ => rfl⟩
          by_cases hRe : R = []
          · left
            have : ¬(cnt ≤ 5) := fun hle => h2 ⟨hle, hRe⟩
            omega
          · right
            exact hRe
    · intro node2 hfind2 hty hub
      obtain rfl := Option.some.inj hfind2
      have hds := findAllDownstream_no_usedBy g nodeId node hfind hub
      have hc0 : cnt = 0 := by
        rw [← hcnt, hds]
        rfl
      have hRe : R = [] := by
        rw [← hR]
        have hbe : (node.ntype == str "column") = false := by
          rw [hty]; decide
        rw [hbe]
        simp
      rw [if_pos ⟨hc0, hRe⟩]
    · intro node2 hfind2 hty hrel
      obtain rfl := Option.some.inj hfind2
      have hRe : findRelationshipsUsingColumn rels node.table node.column = R := by
        rw [← hR]
        have hbe : (node.ntype == str "column") = true := by
          rw [hty]; decide
        rw [hbe]
        simp
      have hRne : ¬(R = []) := by
        rw [← hRe]; exact hrel
      have h1 : ¬(cnt = 0 ∧ R = []) := fun hx => hRne hx.2
      have h2 : ¬(cnt ≤ 5 ∧ R = []) := fun hx => hRne hx.2
      rw [if_neg h1, if_neg h2]
      exact fun hx => hsd hx.symm

theorem C3_delete_risk_amended_witness :
    analyzeDelete (buildDependencyGraph pdC3w).1 [] (str "Measure.M") = some dC3w ∧
    ((dC3w.riskLevel = str "safe" ↔
        (findAllDownstream (buildDependencyGraph pdC3w).1 (str "Measure.M")).measures.length +
          (findAllDownstream (buildDependencyGraph pdC3w).1 (str "Measure.M")).visuals.length = 0 ∧
        dC3w.directRelationships = []) ∧
     (dC3w.riskLevel = str "caution" ↔
        ¬((findAllDownstream (buildDependencyGraph pdC3w).1 (str "Measure.M")).measures.length +
            (findAllDownstream (buildDependencyGraph pdC3w).1 (str "Measure.M")).visuals.length = 0) ∧
        (findAllDownstream (buildDependencyGraph pdC3w).1 (str "Measure.M")).measures.length +
          (findAllDownstream (buildDependencyGraph pdC3w).1 (str "Measure.M")).visuals.length ≤ 5 ∧
        dC3w.directRelationships = []) ∧
     (dC3w.riskLevel = str "dangerous" ↔
        5 < (findAllDownstream (buildDependencyGraph pdC3w).1 (str "Measure.M")).measures.length +
          (findAllDownstream (buildDependencyGraph pdC3w).1 (str "Measure.M")).visuals.length ∨
        ¬(dC3w.directRelationships = []))) ∧
    (∀ node, (buildDependencyGraph pdC3w).1.find? (str "Measure.M") = some node →
       node.ntype = str "measure" → node.usedBy = [] → dC3w.riskLevel = str "safe") ∧
    (∀ node, (buildDependencyGraph pdC3w).1.find? (str "Measure.M") = some node →
       node.ntype = str "column" →
       ¬(findRelationshipsUsingColumn [] node.table node.column = []) →
       ¬(dC3w.riskLevel = str "safe")) :=
  ⟨by decide,
   C3_delete_risk_amended (buildDependencyGraph pdC3w).1 [] (str "Measure.M") dC3w
     (by decide)⟩

/-! ## C5: cycle detection -/

theorem chain_transGen (g : Graph) :
    ∀ (v : List Str) (a b : Str),
      List.Chain' (depRel g) (a :: v ++ [b]) → Relation.TransGen (depRel g) a b := by
  intro v
  induction v with
  | nil =>
    intro a b h
    exact Relation.TransGen.single (List.chain'_pair.mp h)
  | cons c v ihv =>
    intro a b h
    have h2 := List.chain'_cons.mp
      (show List.Chain' (depRel g) (a :: c :: (v ++ [b])) from h)
    exact Relation.TransGen.head h2.1 (ihv c b h2.2)

theorem chain_snoc (g : Graph) :
    ∀ (l : List Str) (a b : Str),
      List.Chain' (depRel g) (l ++ [a]) → depRel g a b →
      List.Chain' (depRel g) ((l ++ [a]) ++ [b]) := by
  intro l a b hc hab
  rw [List.chain'_append]
  refine ⟨hc, List.chain'_singleton b, ?_⟩
  intro x hx y hy
  simp only [List.getLast?_concat, Option.mem_def, Option.some.injEq] at hx
  simp only [List.head?_cons, Option.mem_def, Option.some.injEq] at hy
  subst hx
  subst hy
  exact hab

/-- In an acyclic graph the DFS of `detectCircularDependencies` never
emits a cycle and restores the recursion stack, provided the call
invariants hold: `path ++ [nodeId]` is a dependency chain and the
recursion stack holds exactly the ancestors. -/
theorem cycleDFS_acyclic (g : Graph) (hacyc : Acyclic g) :
    ∀ (fuel : Nat) (nodeId : Str) (path : List Str) (s : CycState),
      List.Chain' (depRel g) (path ++ [nodeId]) →
      s.recStack = path.reverse →
      (cycleDFS g fuel nodeId path s).circular = s.circular ∧
      (cycleDFS g fuel nodeId path s).recStack = s.recStack := by
  intro fuel
  induction fuel with
  | zero =>
    intro nodeId path s hchain hrs
    exact ⟨rfl, rfl⟩
  | succ fuel ih =>
    intro nodeId path s hchain hrs
    unfold cycleDFS
    by_cases hlen : path.length ≥ 1000
    · rw [if_pos hlen]
      exact ⟨rfl, rfl⟩
    · rw [if_neg hlen]
      by_cases hrec : s.recStack.contains nodeId = true
      · exfalso
        have hmem : nodeId ∈ path := by
          have := List.elem_iff.mp hrec
          rw [hrs] at this
          exact List.mem_reverse.mp this
        obtain ⟨u, v, huv⟩ := List.append_of_mem hmem
        rw [huv] at hchain
        have hsfx : List.Chain' (depRel g) (nodeId :: (v ++ [nodeId])) := by
          have hassoc : (u ++ nodeId :: v) ++ [nodeId] =
              u ++ (nodeId :: (v ++ [nodeId])) := by
            simp
          rw [hassoc] at hchain
          exact (List.chain'_append.mp hchain).2.1
        exact hacyc nodeId (chain_transGen g v nodeId nodeId hsfx)
      · rw [if_neg hrec]
        by_cases hvis : s.visited.contains nodeId = true
        · rw [if_pos hvis]
          exact ⟨rfl, rfl⟩
        · rw [if_neg hvis]
          dsimp only
          rcases hfind : g.find? nodeId with _ | node
          · constructor
            · rfl
            · dsimp only
              rw [hrs]
              exact List.erase_cons_head nodeId path.reverse
          · have hstep : ∀ d ∈ node.dependencies, depRel g nodeId d.ref :=
              fun d hd => ⟨node, hfind, d, hd, rfl⟩
            have hfold : ∀ (deps : List Dep), (∀ d ∈ deps, depRel g nodeId d.ref) →
                ∀ st : CycState,
                st.recStack = (path ++ [nodeId]).reverse →
                st.circular = s.circular →
                ((deps.foldl
                    (fun st dep => cycleDFS g fuel dep.ref (path ++ [nodeId]) st)
                    st).circular = s.circular ∧
                 (deps.foldl
                    (fun st dep => cycleDFS g fuel dep.ref (path ++ [nodeId]) st)
                    st).recStack = (path ++ [nodeId]).reverse) := by
              intro deps
              induction deps with
              | nil =>
                intro _ st h1 h2
                exact ⟨h2, h1⟩
              | cons d ds ihd =>
                intro hdep st h1 h2
                simp only [List.foldl_cons]
                have hchain2 : List.Chain' (depRel g) ((path ++ [nodeId]) ++ [d.ref]) :=
                  chain_snoc g path nodeId d.ref hchain
                    (hdep d (List.mem_cons_self d ds))
                have hcall := ih d.ref (path ++ [nodeId])
                  st hchain2 h1
                exact ihd (fun d2 hd2 => hdep d2 (List.mem_cons_of_mem d hd2)) _
                  (hcall.2.trans h1) (hcall.1.trans h2)
            have hres := hfold node.dependencies hstep
              { s with visited := nodeId :: s.visited, recStack := nodeId :: s.recStack }
              (by simp [hrs]) rfl
            refine ⟨hres.1, ?_⟩
            rw [hres.2]
            simp only [List.reverse_append, List.reverse_singleton]
            rw [List.singleton_append, List.erase_cons_head, hrs]

theorem C5_cycle_detection :
    (∀ g : Graph, Acyclic g → detectCircularDependencies g = []) ∧
    detectCircularDependencies (buildDependencyGraph pdCyc3).1 =
      [[str "Measure.A", str "Measure.B", str "Measure.C", str "Measure.A"]] ∧
    (detectCircularDependencies (buildDependencyGraph pdCyc3).1).map dedup =
      [[str "Measure.A", str "Measure.B", str "Measure.C"]] := by
  refine ⟨?_, by decide, by decide⟩
  intro g hacyc
  unfold detectCircularDependencies
  have hfold : ∀ (nodes : List (Str × GNode)) (s : CycState),
      s.circular = [] → s.recStack = [] →
      (nodes.foldl
        (fun (s : CycState) p =>
          if p.2.ntype == str "measure" then cycleDFS g 1001 p.1 [] s else s)
        s).circular = [] := by
    intro nodes
    induction nodes with
    | nil =>
      intro s h1 _
      exact h1
    | cons p ps ihp =>
      intro s h1 h2
      simp only [List.foldl_cons]
      by_cases hm : (p.2.ntype == str "measure") = true
      · rw [if_pos hm]
        have hcall := cycleDFS_acyclic g hacyc 1001 p.1 [] s
          (by simp [List.chain'_singleton]) (by rw [h2]; rfl)
        exact ihp _ (hcall.1.trans h1) (hcall.2.trans h2)
      · rw [if_neg hm]
        exact ihp s h1 h2
  exact hfold g.nodes {} rfl rfl

/-- C5 witness: the empty graph is acyclic and yields no cycles. -/
theorem C5_cycle_detection_witness :
    Acyclic ({} : Graph) ∧ detectCircularDependencies ({} : Graph) = [] := by
  have hnd : ∀ a b : Str, ¬ depRel ({} : Graph) a b := by
    intro a b hrel
    obtain ⟨n, hfind, _⟩ := hrel
    simp [Graph.find?, List.lookup] at hfind
  have hacyc : Acyclic ({} : Graph) := by
    intro a hT
    cases hT with
    | single h => exact hnd _ _ h
    | tail _ h => exact hnd _ _ h
  exact ⟨hacyc, C5_cycle_detection.1 {} hacyc⟩

/-! ## C2: orphaned references -/

/-- C2 counterexample: `pdOrphanSilent` contains two unresolvable
references — the measure `M` names the missing table `NoTable` in
`COUNTROWS(NoTable)` and the visual `p1/v1` uses the missing measure
`Missing` — yet the built graph records no orphan and adds no edge:
both references are dropped silently, contradicting the claim that
every edge-creating step records an `OrphanedReference`. -/
theorem C2_silent_drops_exist :
    (buildDependencyGraph pdOrphanSilent).2 = [] ∧
    (buildDependencyGraph pdOrphanSilent).1.edges = [] := by
  decide

/-- C2 (amended): only the measure-expression steps record orphans.
When the target node is missing, `processMeasureRef` and
`processColumnRef` leave the graph unchanged and append an
`OrphanedReference`; the table-reference step of measure expressions,
the visual-field step, the field-parameter step and the
calculation-item step leave both the graph and the orphan list
unchanged (silent drop, no error). -/
theorem C2_orphans_amended :
    (∀ (m : MeasureRec) (st : Graph × List Orphan) (ref : Str),
      (st.1.find? (str "Measure." ++ ref)).isSome = false →
      processMeasureRef m st ref =
        (st.1, st.2 ++ [Orphan.measureRef ref m.name (str "Measure." ++ m.name)])) ∧
    (∀ (m : MeasureRec) (st : Graph × List Orphan) (cr : Str × Str),
      (st.1.find? (cr.1 ++ str "." ++ cr.2)).isSome = false →
      processColumnRef m st cr =
        (st.1, st.2 ++ [Orphan.columnRef cr.1 cr.2 m.name (str "Measure." ++ m.name)])) ∧
    (∀ (m : MeasureRec) (g : Graph) (tn : Str),
      (g.find? (str "Table." ++ tn)).isSome = false →
      processTableRef m g tn = g) ∧
    (∀ (v : VisualRec) (g : Graph) (f : VisualField),
      (g.find? (str "Measure." ++ f.name)).isSome = false →
      (g.find? (str "FieldParam." ++ f.table)).isSome = false →
      (g.find? (str "CalcGroup." ++ f.table)).isSome = false →
      (g.find? (f.table ++ str "." ++ f.column)).isSome = false →
      processVisualField v g f = g) ∧
    (∀ (t : TableRec) (g : Graph) (ref : FieldParamRef),
      (g.find? (if ref.rtype == str "measure" then str "Measure." ++ ref.property
                else ref.table ++ str "." ++ ref.property)).isSome = false →
      processFieldParamRef t g ref = g) ∧
    (∀ (g : Graph) (t : TableRec) (item : CalcItemRec) (itemNodeId : Str),
      (∀ cr ∈ (extractReferences item.dax).columnRefs,
        (g.find? (cr.1 ++ str "." ++ cr.2)).isSome = false) →
      (∀ tn ∈ (extractReferences item.dax).tableRefs,
        (g.find? (str "Table." ++ tn)).isSome = false) →
      addCalcItemRefEdges g t item itemNodeId = g) := by
  refine ⟨?_, ?_, ?_, ?_, ?_, ?_⟩
  · intro m st ref h
    simp [processMeasureRef, isSome_false_eq_none h]
  · intro m st cr h
    simp only [processColumnRef]
    rw [isSome_false_eq_none h]
    simp
  · intro m g tn h
    simp [processTableRef, isSome_false_eq_none h]
  · intro v g f h1 h2 h3 h4
    simp only [processVisualField]
    rw [isSome_false_eq_none h1, isSome_false_eq_none h2, isSome_false_eq_none h3,
      isSome_false_eq_none h4]
    simp
  · intro t g ref h
    simp only [processFieldParamRef]
    rw [isSome_false_eq_none h]
    simp
  · intro g t item itemNodeId hcol htab
    unfold addCalcItemRefEdges
    by_cases hdax : item.dax ≠ []
    · rw [if_pos hdax]
      have hfc : ∀ (l : List (Str × Str)),
          (∀ cr ∈ l, (g.find? (cr.1 ++ str "." ++ cr.2)).isSome = false) →
          l.foldl
            (fun g cr =>
              if (g.find? (cr.1 ++ str "." ++ cr.2)).isSome = true then
                addEdgePair g itemNodeId (cr.1 ++ str "." ++ cr.2)
                  (mkDep (str "column") (cr.1 ++ str "." ++ cr.2))
                  (mkDep (str "calculationItem") itemNodeId
                    (t.tableName ++ str ": " ++ item.name))
                  (str "calcItem-to-column")
              else g) g = g := by
        intro l
        induction l with
        | nil => intro _; rfl
        | cons cr rest ihl =>
          intro hl
          simp only [List.foldl_cons]
          rw [if_neg (by
            rw [isSome_false_eq_none (hl cr (List.mem_cons_self cr rest))]
            simp)]
          exact ihl (fun c hc => hl c (List.mem_cons_of_mem cr hc))
      have hft : ∀ (l : List Str),
          (∀ tn ∈ l, (g.find? (str "Table." ++ tn)).isSome = false) →
          l.foldl
            (fun g tn =>
              if (g.find? (str "Table." ++ tn)).isSome = true then
                addEdgePair g itemNodeId (str "Table." ++ tn)
                  (mkDep (str "table") (str "Table." ++ tn) tn)
                  (mkDep (str "calculationItem") itemNodeId
                    (t.tableName ++ str ": " ++ item.name))
                  (str "calcItem-to-table")
              else g) g = g := by
        intro l
        induction l with
        | nil => intro _; rfl
        | cons tn rest ihl =>
          intro hl
          simp only [List.foldl_cons]
          rw [if_neg (by
            rw [isSome_false_eq_none (hl tn (List.mem_cons_self tn rest))]
            simp)]
          exact ihl (fun c hc => hl c (List.mem_cons_of_mem tn hc))
      dsimp only
      rw [hfc (extractReferences item.dax).columnRefs hcol]
      exact hft (extractReferences item.dax).tableRefs htab
    · rw [if_neg hdax]

/-- C2 witness: each silent/orphan branch exercised on the empty graph. -/
theorem C2_orphans_amended_witness :
    processMeasureRef ⟨str "M", str "[X]"⟩ ({}, []) (str "X") =
      ({}, [Orphan.measureRef (str "X") (str "M") (str "Measure.M")]) ∧
    processColumnRef ⟨str "M", str "[X]"⟩ ({}, []) (str "T", str "C") =
      ({}, [Orphan.columnRef (str "T") (str "C") (str "M") (str "Measure.M")]) ∧
    processTableRef ⟨str "M", str "[X]"⟩ {} (str "T") = {} ∧
    processVisualField vC2w {} fC2w = {} ∧
    processFieldParamRef tC2w {}
      ⟨str "measure", str "T", str "X"⟩ = {} ∧
    addCalcItemRefEdges {} tC2w itemC2w (str "CalcItem.P.I") = {} :=
  ⟨C2_orphans_amended.1 ⟨str "M", str "[X]"⟩ ({}, []) (str "X") (by decide),
   C2_orphans_amended.2.1 ⟨str "M", str "[X]"⟩ ({}, []) (str "T", str "C") (by decide),
   C2_orphans_amended.2.2.1 ⟨str "M", str "[X]"⟩ {} (str "T") (by decide),
   C2_orphans_amended.2.2.2.1 vC2w {} fC2w (by decide) (by decide) (by decide) (by decide),
   C2_orphans_amended.2.2.2.2.1 tC2w {} ⟨str "measure", str "T", str "X"⟩ (by decide),
   C2_orphans_amended.2.2.2.2.2 {} tC2w itemC2w (str "CalcItem.P.I")
     (by decide) (by decide)⟩

/-! ## C9: pattern-not-found is a warning, not an abort -/

theorem applyChangeList_acc :
    ∀ (chs : List Change) (content : Str) (ws0 : List Str),
      List.foldl
        (fun (st : Str × List Str) ch =>
          ((applyOneChange st.1 ch).1, st.2 ++ (applyOneChange st.1 ch).2))
        (content, ws0) chs =
      ((List.foldl
          (fun (st : Str × List Str) ch =>
            ((applyOneChange st.1 ch).1, st.2 ++ (applyOneChange st.1 ch).2))
          (content, []) chs).1,
       ws0 ++ (List.foldl
          (fun (st : Str × List Str) ch =>
            ((applyOneChange st.1 ch).1, st.2 ++ (applyOneChange st.1 ch).2))
          (content, []) chs).2) := by
  intro chs
  induction chs with
  | nil =>
    intro content ws0
    simp
  | cons ch rest ihc =>
    intro content ws0
    simp only [List.foldl_cons]
    rw [ihc (applyOneChange content ch).1 (ws0 ++ (applyOneChange content ch).2),
      ihc (applyOneChange content ch).1 ([] ++ (applyOneChange content ch).2)]
    simp

/-- C9: a missing expected literal produces a warning and leaves the
content unchanged (for both the DAX first-occurrence path and the
split/join path); the loop then continues with the remaining
substitutions, and `applyChangesToFile` still succeeds and writes the
file whenever the file exists and the write itself succeeds — so a
pattern-not-found never fails the apply or triggers rollback by
itself. -/
theorem C9_pattern_not_found_skips :
    (∀ (content : Str) (ch : Change),
      (ch.ctype = str "measure-dax-reference" ∨ ch.ctype = str "column-dax-reference" ∨
       ch.ctype = str "table-dax-reference") →
      ch.fullOldContent ≠ [] → ch.fullNewContent ≠ [] →
      containsSub content ch.fullOldContent = false →
      applyOneChange content ch =
        (content, [str "DAX pattern not found for: " ++ ch.affectedMeasureName])) ∧
    (∀ (content : Str) (ch : Change),
      ¬(ch.ctype = str "measure-dax-reference" ∨ ch.ctype = str "column-dax-reference" ∨
        ch.ctype = str "table-dax-reference") →
      containsSub content ch.oldContent = false →
      applyOneChange content ch =
        (content, [str "Pattern not found: " ++ ch.oldContent])) ∧
    (∀ (content : Str) (ch : Change) (rest : List Change) (ws : List Str),
      applyOneChange content ch = (content, ws) →
      applyChangeList (ch :: rest) content =
        ((applyChangeList rest content).1, ws ++ (applyChangeList rest content).2)) ∧
    (∀ (sched : Nat → Bool) (w : W) (bks : Backups) (filePath content : Str)
       (chs : List Change),
      fsRead w.fs filePath = some content →
      sched w.clock = false →
      (applyChangesToFile sched w bks filePath chs).1 = true ∧
      (applyChangesToFile sched w bks filePath chs).2.1.fs =
        fsWrite w.fs filePath (applyChangeList chs content).1) := by
  refine ⟨?_, ?_, ?_, ?_⟩
  · intro content ch htype h1 h2 hmiss
    have ht : (ch.ctype == str "measure-dax-reference" ||
        ch.ctype == str "column-dax-reference" ||
        ch.ctype == str "table-dax-reference") = true := by
      rcases htype with h | h | h <;> simp [h]
    simp [applyOneChange, ht, h1, h2, hmiss]
  · intro content ch htype hmiss
    have ht : (ch.ctype == str "measure-dax-reference" ||
        ch.ctype == str "column-dax-reference" ||
        ch.ctype == str "table-dax-reference") = false := by
      push_neg at htype
      simp [htype.1, htype.2.1, htype.2.2]
    simp [applyOneChange, ht, hmiss]
  · intro content ch rest ws h
    simp only [applyChangeList, List.foldl_cons]
    rw [h]
    simp only [List.nil_append]
    exact applyChangeList_acc rest content ws
  · intro sched w bks filePath content chs hread hsched
    simp [applyChangesToFile, hread, wWrite, hsched]

/-- C9 witness: with content `Hello`, the absent pattern `XYZ` yields a
warning and no edit, the following substitution still rewrites `Hello`
to `World`, and the file write still succeeds. -/
theorem C9_pattern_not_found_skips_witness :
    applyOneChange (str "Hello") chC9a =
      (str "Hello", [str "Pattern not found: " ++ chC9a.oldContent]) ∧
    applyChangeList [chC9a, chC9b] (str "Hello") =
      ((applyChangeList [chC9b] (str "Hello")).1,
       [str "Pattern not found: " ++ chC9a.oldContent] ++
         (applyChangeList [chC9b] (str "Hello")).2) ∧
    (applyChangesToFile (fun _ => false) wC9 [] (str "f") [chC9a, chC9b]).1 = true ∧
    (applyChangesToFile (fun _ => false) wC9 [] (str "f") [chC9a, chC9b]).2.1.fs =
      fsWrite wC9.fs (str "f") (applyChangeList [chC9a, chC9b] (str "Hello")).1 :=
  ⟨C9_pattern_not_found_skips.2.1 (str "Hello") chC9a (by decide) (by decide),
   C9_pattern_not_found_skips.2.2.1 (str "Hello") chC9a [chC9b] _
     (C9_pattern_not_found_skips.2.1 (str "Hello") chC9a (by decide) (by decide)),
   (C9_pattern_not_found_skips.2.2.2 (fun _ => false) wC9 [] (str "f") (str "Hello")
     [chC9a, chC9b] (by decide) rfl).1,
   (C9_pattern_not_found_skips.2.2.2 (fun _ => false) wC9 [] (str "f") (str "Hello")
     [chC9a, chC9b] (by decide) rfl).2⟩

/-! ## C7: the four surface forms of a table rename -/

theorem ciPrefix_skip (pat repl : Str) :
    ∀ (a b : Str), (∀ i, i < a.length → ciPrefix pat (a.drop i ++ b) = false) →
    replaceAllCIAux pat repl 0 (a ++ b) = a ++ replaceAllCIAux pat repl 0 b := by
  intro a
  induction a with
  | nil => intro b _; rfl
  | cons c r ih =>
    intro b h
    have h0 := h 0 (Nat.succ_pos r.length)
    simp only [List.drop_zero, List.cons_append] at h0
    have h' : ∀ i, i < r.length → ciPrefix pat (r.drop i ++ b) = false := by
      intro i hi
      have h2 := h (i + 1) (Nat.succ_lt_succ hi)
      simpa using h2
    calc replaceAllCIAux pat repl 0 ((c :: r) ++ b)
        = replaceAllCIAux pat repl 0 (c :: (r ++ b)) := rfl
      _ = c :: replaceAllCIAux pat repl 0 (r ++ b) := by
          simp only [replaceAllCIAux]
          rw [if_neg (by simp [h0])]
      _ = c :: (r ++ replaceAllCIAux pat repl 0 b) := by rw [ih b h']
      _ = (c :: r) ++ replaceAllCIAux pat repl 0 b := rfl

theorem tablePass3_skip (old mid : Str) :
    ∀ (a b : Str), (∀ i, i < a.length → tableFnMatch old (a.drop i ++ b) = none) →
    tablePass3Aux old mid 0 (a ++ b) = a ++ tablePass3Aux old mid 0 b := by
  intro a
  induction a with
  | nil => intro b _; rfl
  | cons c r ih =>
    intro b h
    have h0 := h 0 (Nat.succ_pos r.length)
    simp only [List.drop_zero, List.cons_append] at h0
    have h' : ∀ i, i < r.length → tableFnMatch old (r.drop i ++ b) = none := by
      intro i hi
      have h2 := h (i + 1) (Nat.succ_lt_succ hi)
      simpa using h2
    calc tablePass3Aux old mid 0 ((c :: r) ++ b)
        = tablePass3Aux old mid 0 (c :: (r ++ b)) := rfl
      _ = c :: tablePass3Aux old mid 0 (r ++ b) := by
          simp only [tablePass3Aux, h0]
      _ = c :: (r ++ tablePass3Aux old mid 0 b) := by rw [ih b h']
      _ = (c :: r) ++ tablePass3Aux old mid 0 b := rfl

theorem tablePass4_skip (old mid : Str) :
    ∀ (a b : Str), (∀ i, i < a.length → tableFnMatchQ old (a.drop i ++ b) = none) →
    tablePass4Aux old mid 0 (a ++ b) = a ++ tablePass4Aux old mid 0 b := by
  intro a
  induction a with
  | nil => intro b _; rfl
  | cons c r ih =>
    intro b h
    have h0 := h 0 (Nat.succ_pos r.length)
    simp only [List.drop_zero, List.cons_append] at h0
    have h' : ∀ i, i < r.length → tableFnMatchQ old (r.drop i ++ b) = none := by
      intro i hi
      have h2 := h (i + 1) (Nat.succ_lt_succ hi)
      simpa using h2
    calc tablePass4Aux old mid 0 ((c :: r) ++ b)
        = tablePass4Aux old mid 0 (c :: (r ++ b)) := rfl
      _ = c :: tablePass4Aux old mid 0 (r ++ b) := by
          simp only [tablePass4Aux, h0]
      _ = c :: (r ++ tablePass4Aux old mid 0 b) := by rw [ih b h']
      _ = (c :: r) ++ tablePass4Aux old mid 0 b := rfl

theorem tablePass3_match (old mid : Str) (c : Char) (r pre suf rest : Str)
    (h : tableFnMatch old (c :: r) = some (pre, suf, rest)) :
    tablePass3Aux old mid 0 (c :: r) =
      pre ++ mid ++ suf ++ tablePass3Aux old mid (r.length - rest.length) r := by
  simp only [tablePass3Aux, h]

theorem tablePass4_match (old mid : Str) (c : Char) (r pre suf rest : Str)
    (h : tableFnMatchQ old (c :: r) = some (pre, suf, rest)) :
    tablePass4Aux old mid 0 (c :: r) =
      pre ++ mid ++ suf ++ tablePass4Aux old mid (r.length - rest.length) r := by
  simp only [tablePass4Aux, h]

/-- C7: for every new table name, `replaceTableNameInDAX` independently
rewrites all four surface forms in `daxC7` — unquoted `Sales[Amt]`,
quoted `'Sales'[Amt]`, bare `Sales` inside the whitelisted
`COUNTROWS(...)`, and quoted `'Sales'` inside `COUNTROWS(...)` — and
quotes the previously unquoted occurrences iff the new name contains
whitespace (`qForm`, `mid3Form`), while the previously quoted
occurrences always receive the quoted new name (`qS`, `midQ`).  The
hypotheses state that the inserted new name does not itself create a
spurious occurrence of one of the patterns inside or straddling a
replacement site. -/
theorem C7_table_rename_four_forms (new : Str)
    (hA : ∀ i, i < (qForm new).length →
      ciPrefix ('\'' :: str "Sales" ++ str "'[") ((qForm new).drop i ++
        str "Amt]) + SUMX('Sales'[Amt]), COUNTROWS(Sales), COUNTROWS('Sales'))") = false)
    (hB : ∀ i, i < (qForm new).length →
      tableFnMatch (str "Sales") ((qForm new).drop i ++
        (str "Amt]) + SUMX(" ++ (qS new ++
          str "Amt]), COUNTROWS(Sales), COUNTROWS('Sales'))"))) = none)
    (hC : ∀ i, i < (qS new).length →
      tableFnMatch (str "Sales") ((qS new).drop i ++
        str "Amt]), COUNTROWS(Sales), COUNTROWS('Sales'))") = none)
    (hD : ∀ i, i < (qForm new).length →
      tableFnMatchQ (str "Sales") ((qForm new).drop i ++
        (str "Amt]) + SUMX(" ++ (qS new ++ (str "Amt]), " ++
          (str "COUNTROWS(" ++ mid3Form new ++ str ")" ++
            str ", COUNTROWS('Sales'))"))))) = none)
    (hE : ∀ i, i < (qS new).length →
      tableFnMatchQ (str "Sales") ((qS new).drop i ++
        (str "Amt]), " ++ (str "COUNTROWS(" ++ mid3Form new ++ str ")" ++
          str ", COUNTROWS('Sales'))"))) = none)
    (hFG : ∀ i, i < (str "COUNTROWS(" ++ mid3Form new ++ str ")").length →
      tableFnMatchQ (str "Sales") ((str "COUNTROWS(" ++ mid3Form new ++ str ")").drop i ++
        str ", COUNTROWS('Sales'))") = none) :
    replaceTableNameInDAX daxC7 (str "Sales") new =
      str "CALCULATE(SUM(" ++ qForm new ++ str "Amt]) + SUMX(" ++ qS new ++
        str "Amt]), COUNTROWS(" ++ mid3Form new ++ str "), COUNTROWS(" ++
          midQ new ++ str "))" := by
  have hp1 : tablePass1 (str "Sales") (qForm new) none daxC7 =
      str "CALCULATE(SUM(" ++ (qForm new ++
        str "Amt]) + SUMX('Sales'[Amt]), COUNTROWS(Sales), COUNTROWS('Sales'))") := rfl
  have hC1A : ∀ i, i < (str "CALCULATE(SUM(").length →
      ciPrefix ('\'' :: str "Sales" ++ str "'[") ((str "CALCULATE(SUM(").drop i ++
        (qForm new ++
          str "Amt]) + SUMX('Sales'[Amt]), COUNTROWS(Sales), COUNTROWS('Sales'))")) =
        false := by
    intro i hi
    have hl : (str "CALCULATE(SUM(").length = 14 := rfl
    rw [hl] at hi
    interval_cases i <;> rfl
  have hTA : replaceAllCIAux ('\'' :: str "Sales" ++ str "'[") (qS new) 0
      (str "Amt]) + SUMX('Sales'[Amt]), COUNTROWS(Sales), COUNTROWS('Sales'))") =
      str "Amt]) + SUMX(" ++ (qS new ++
        str "Amt]), COUNTROWS(Sales), COUNTROWS('Sales'))") := rfl
  have hp2 : replaceAllCI ('\'' :: str "Sales" ++ str "'[") (qS new)
      (str "CALCULATE(SUM(" ++ (qForm new ++
        str "Amt]) + SUMX('Sales'[Amt]), COUNTROWS(Sales), COUNTROWS('Sales'))")) =
      str "CALCULATE(SUM(" ++ (qForm new ++ (str "Amt]) + SUMX(" ++ (qS new ++
        str "Amt]), COUNTROWS(Sales), COUNTROWS('Sales'))"))) := by
    show replaceAllCIAux _ _ 0 _ = _
    rw [ciPrefix_skip _ _ (str "CALCULATE(SUM(") _ hC1A]
    exact congrArg (fun x => str "CALCULATE(SUM(" ++ x)
      ((ciPrefix_skip _ _ (qForm new) _ hA).trans
        (congrArg (fun x => qForm new ++ x) hTA))
  have hC1B : ∀ i, i < (str "CALCULATE(SUM(").length →
      tableFnMatch (str "Sales") ((str "CALCULATE(SUM(").drop i ++
        (qForm new ++ (str "Amt]) + SUMX(" ++ (qS new ++
          str "Amt]), COUNTROWS(Sales), COUNTROWS('Sales'))")))) = none := by
    intro i hi
    have hl : (str "CALCULATE(SUM(").length = 14 := rfl
    rw [hl] at hi
    interval_cases i <;> rfl
  have hC2B : ∀ i, i < (str "Amt]) + SUMX(").length →
      tableFnMatch (str "Sales") ((str "Amt]) + SUMX(").drop i ++
        (qS new ++ str "Amt]), COUNTROWS(Sales), COUNTROWS('Sales'))")) = none := by
    intro i hi
    have hl : (str "Amt]) + SUMX(").length = 13 := rfl
    rw [hl] at hi
    interval_cases i <;> rfl
  have hTB : tablePass3Aux (str "Sales") (mid3Form new) 0
      (str "Amt]), COUNTROWS(Sales), COUNTROWS('Sales'))") =
      str "Amt]), " ++ (str "COUNTROWS(" ++ mid3Form new ++ str ")" ++
        str ", COUNTROWS('Sales'))") := by
    show tablePass3Aux (str "Sales") (mid3Form new) 0
      (str "Amt]), " ++ str "COUNTROWS(Sales), COUNTROWS('Sales'))") = _
    rw [tablePass3_skip _ _ (str "Amt]), ") _ (by decide)]
    refine congrArg (fun x => str "Amt]), " ++ x) ?_
    show tablePass3Aux (str "Sales") (mid3Form new) 0
      ('C' :: str "OUNTROWS(Sales), COUNTROWS('Sales'))") = _
    rw [tablePass3_match (str "Sales") (mid3Form new) 'C'
      (str "OUNTROWS(Sales), COUNTROWS('Sales'))") (str "COUNTROWS(") (str ")")
      (str ", COUNTROWS('Sales'))") (by decide)]
    refine congrArg (fun x => str "COUNTROWS(" ++ mid3Form new ++ str ")" ++ x) ?_
    rfl
  have hp3 : tablePass3 (str "Sales") (mid3Form new)
      (str "CALCULATE(SUM(" ++ (qForm new ++ (str "Amt]) + SUMX(" ++ (qS new ++
        str "Amt]), COUNTROWS(Sales), COUNTROWS('Sales'))")))) =
      str "CALCULATE(SUM(" ++ (qForm new ++ (str "Amt]) + SUMX(" ++ (qS new ++
        (str "Amt]), " ++ (str "COUNTROWS(" ++ mid3Form new ++ str ")" ++
          str ", COUNTROWS('Sales'))"))))) := by
    show tablePass3Aux _ _ 0 _ = _
    rw [tablePass3_skip _ _ (str "CALCULATE(SUM(") _ hC1B]
    refine congrArg (fun x => str "CALCULATE(SUM(" ++ x) ?_
    rw [tablePass3_skip _ _ (qForm new) _ hB]
    refine congrArg (fun x => qForm new ++ x) ?_
    rw [tablePass3_skip _ _ (str "Amt]) + SUMX(") _ hC2B]
    refine congrArg (fun x => str "Amt]) + SUMX(" ++ x) ?_
    rw [tablePass3_skip _ _ (qS new) _ hC]
    exact congrArg (fun x => qS new ++ x) hTB
  have hC1D : ∀ i, i < (str "CALCULATE(SUM(").length →
      tableFnMatchQ (str "Sales") ((str "CALCULATE(SUM(").drop i ++
        (qForm new ++ (str "Amt]) + SUMX(" ++ (qS new ++ (str "Amt]), " ++
          (str "COUNTROWS(" ++ mid3Form new ++ str ")" ++
            str ", COUNTROWS('Sales'))")))))) = none := by
    intro i hi
    have hl : (str "CALCULATE(SUM(").length = 14 := rfl
    rw [hl] at hi
    interval_cases i <;> rfl
  have hC2D : ∀ i, i < (str "Amt]) + SUMX(").length →
      tableFnMatchQ (str "Sales") ((str "Amt]) + SUMX(").drop i ++
        (qS new ++ (str "Amt]), " ++ (str "COUNTROWS(" ++ mid3Form new ++ str ")" ++
          str ", COUNTROWS('Sales'))")))) = none := by
    intro i hi
    have hl : (str "Amt]) + SUMX(").length = 13 := rfl
    rw [hl] at hi
    interval_cases i <;> rfl
  have hD1D : ∀ i, i < (str "Amt]), ").length →
      tableFnMatchQ (str "Sales") ((str "Amt]), ").drop i ++
        (str "COUNTROWS(" ++ mid3Form new ++ str ")" ++
          str ", COUNTROWS('Sales'))")) = none := by
    intro i hi
    have hl : (str "Amt]), ").length = 7 := rfl
    rw [hl] at hi
    interval_cases i <;> rfl
  have hTD : tablePass4Aux (str "Sales") (midQ new) 0
      (str ", COUNTROWS('Sales'))") =
      str ", " ++ (str "COUNTROWS(" ++ midQ new ++ str ")" ++ str ")") := by
    show tablePass4Aux (str "Sales") (midQ new) 0
      (str ", " ++ str "COUNTROWS('Sales'))") = _
    rw [tablePass4_skip _ _ (str ", ") _ (by decide)]
    refine congrArg (fun x => str ", " ++ x) ?_
    show tablePass4Aux (str "Sales") (midQ new) 0
      ('C' :: str "OUNTROWS('Sales'))") = _
    rw [tablePass4_match (str "Sales") (midQ new) 'C'
      (str "OUNTROWS('Sales'))") (str "COUNTROWS(") (str ")") (str ")") (by decide)]
    refine congrArg (fun x => str "COUNTROWS(" ++ midQ new ++ str ")" ++ x) ?_
    rfl
  have hp4 : tablePass4 (str "Sales") (midQ new)
      (str "CALCULATE(SUM(" ++ (qForm new ++ (str "Amt]) + SUMX(" ++ (qS new ++
        (str "Amt]), " ++ (str "COUNTROWS(" ++ mid3Form new ++ str ")" ++
          str ", COUNTROWS('Sales'))")))))) =
      str "CALCULATE(SUM(" ++ (qForm new ++ (str "Amt]) + SUMX(" ++ (qS new ++
        (str "Amt]), " ++ (str "COUNTROWS(" ++ mid3Form new ++ str ")" ++
          (str ", " ++ (str "COUNTROWS(" ++ midQ new ++ str ")" ++ str ")"))))))) := by
    show tablePass4Aux _ _ 0 _ = _
    rw [tablePass4_skip _ _ (str "CALCULATE(SUM(") _ hC1D]
    refine congrArg (fun x => str "CALCULATE(SUM(" ++ x) ?_
    rw [tablePass4_skip _ _ (qForm new) _ hD]
    refine congrArg (fun x => qForm new ++ x) ?_
    rw [tablePass4_skip _ _ (str "Amt]) + SUMX(") _ hC2D]
    refine congrArg (fun x => str "Amt]) + SUMX(" ++ x) ?_
    rw [tablePass4_skip _ _ (qS new) _ hE]
    refine congrArg (fun x => qS new ++ x) ?_
    rw [tablePass4_skip _ _ (str "Amt]), ") _ hD1D]
    refine congrArg (fun x => str "Amt]), " ++ x) ?_
    rw [tablePass4_skip _ _ (str "COUNTROWS(" ++ mid3Form new ++ str ")") _ hFG]
    exact congrArg (fun x => str "COUNTROWS(" ++ mid3Form new ++ str ")" ++ x) hTD
  calc replaceTableNameInDAX daxC7 (str "Sales") new
      = tablePass4 (str "Sales") (midQ new)
          (tablePass3 (str "Sales") (mid3Form new)
            (replaceAllCI ('\'' :: str "Sales" ++ str "'[") (qS new)
              (tablePass1 (str "Sales") (qForm new) none daxC7))) := rfl
    _ = _ := by
        rw [hp1, hp2, hp3, hp4]
        simp only [List.append_assoc]
        rfl

/-- C7 witness: renaming `Sales` to `Product Data` (a name with
whitespace) rewrites all four forms and auto-quotes the previously
unquoted ones. -/
theorem C7_table_rename_four_forms_witness :
    replaceTableNameInDAX daxC7 (str "Sales") (str "Product Data") =
      str "CALCULATE(SUM('Product Data'[Amt]) + SUMX('Product Data'[Amt]), COUNTROWS('Product Data'), COUNTROWS('Product Data'))" := by
  have h := C7_table_rename_four_forms (str "Product Data")
    (by decide) (by decide) (by decide) (by decide) (by decide) (by decide)
  exact h.trans (by decide)

/-! ## C8: measure-rename round-trip -/

/-- C8 counterexample: measure `B` holds `[M] + [m]`, a case-variant
reference to `M`.  Renaming `M` to `M2` rewrites both brackets
(case-insensitive `gi` replace) to `[M2] + [M2]`; renaming back after
the rebuild yields `[M] + [M]`, which differs from the original file
content — the round-trip does not restore it. -/
theorem C8_case_variant_breaks_roundtrip :
    (previewMeasureRename (buildDependencyGraph pdC8).1 pdC8.measures
        (str "M") (str "M2")).map (fun cs => cs.map (fun c => c.fullNewContent)) =
      some [[], str "[M2] + [M2]"] ∧
    (previewMeasureRename (buildDependencyGraph pdC8fwd).1 pdC8fwd.measures
        (str "M2") (str "M")).map (fun cs => cs.map (fun c => c.fullNewContent)) =
      some [[], str "[M] + [M]"] ∧
    str "[M] + [M]" ≠ str "[M] + [m]" := by
  decide

theorem ciPrefix_self : ∀ (p s : Str), ciPrefix p (p ++ s) = true := by
  intro p
  induction p with
  | nil => intro s; rfl
  | cons c r ih =>
    intro s
    show ciPrefix (c :: r) (c :: (r ++ s)) = true
    simp [ciPrefix, ciChar, ih s]

theorem ciSkipConsume (pat repl : Str) :
    ∀ (x b : Str),
      replaceAllCIAux pat repl x.length (x ++ b) = replaceAllCIAux pat repl 0 b := by
  intro x
  induction x with
  | nil => intro b; rfl
  | cons c r ih =>
    intro b
    calc replaceAllCIAux pat repl (c :: r).length ((c :: r) ++ b)
        = replaceAllCIAux pat repl r.length (r ++ b) := rfl
      _ = replaceAllCIAux pat repl 0 b := ih b

theorem bracketMatchConsume (name repl b : Str) :
    replaceAllCIAux ('[' :: name ++ [']']) repl 0 (('[' :: name ++ [']']) ++ b) =
      repl ++ replaceAllCIAux ('[' :: name ++ [']']) repl 0 b := by
  show replaceAllCIAux ('[' :: name ++ [']']) repl 0
    ('[' :: ((name ++ [']']) ++ b)) = _
  simp only [replaceAllCIAux]
  rw [if_pos ⟨by simp, ciPrefix_self ('[' :: name ++ [']']) b⟩]
  show repl ++ replaceAllCIAux ('[' :: name ++ [']']) repl
    (name ++ [']']).length ((name ++ [']']) ++ b) = _
  exact congrArg (fun x => repl ++ x)
    (ciSkipConsume ('[' :: name ++ [']']) repl (name ++ [']']) b)

theorem ciNoMatch (pat repl : Str) :
    ∀ (s : Str), (∀ i, i < s.length → ciPrefix pat (s.drop i) = false) →
      replaceAllCIAux pat repl 0 s = s := by
  intro s
  induction s with
  | nil => intro _; rfl
  | cons c r ih =>
    intro h
    have h0 := h 0 (Nat.succ_pos r.length)
    simp only [List.drop_zero] at h0
    have h' : ∀ i, i < r.length → ciPrefix pat (r.drop i) = false := by
      intro i hi
      have h2 := h (i + 1) (Nat.succ_lt_succ hi)
      simpa using h2
    simp only [replaceAllCIAux]
    rw [if_neg (by simp [h0])]
    exact congrArg (fun x => c :: x) (ih h')

/-- C8 (amended): the rename round-trip restores the original DAX only
under case-exactness side conditions.  First conjunct: for every DAX of
the form `a ++ [old] ++ b` in which no case-insensitive occurrence of
`[old]` or `[new]` starts inside `a` (or straddles into the reference)
and none occurs in `b`, renaming `old` to `new` and back is the
identity.  Second and third conjuncts: a concrete ChangeSet-level
round-trip with a case-exact reference restores the original content.
The counterexample `C8_case_variant_breaks_roundtrip` shows the claim
fails without these conditions because `replaceMeasureInDAX` replaces
case-insensitively. -/
theorem C8_measure_rename_roundtrip_amended :
    (∀ (a b old new : Str),
      (∀ i, i < a.length →
        ciPrefix ('[' :: old ++ [']'])
          (a.drop i ++ (('[' :: old ++ [']']) ++ b)) = false) →
      (∀ i, i < b.length → ciPrefix ('[' :: old ++ [']']) (b.drop i) = false) →
      (∀ i, i < a.length →
        ciPrefix ('[' :: new ++ [']'])
          (a.drop i ++ (('[' :: new ++ [']']) ++ b)) = false) →
      (∀ i, i < b.length → ciPrefix ('[' :: new ++ [']']) (b.drop i) = false) →
      replaceMeasureInDAX
        (replaceMeasureInDAX (a ++ (('[' :: old ++ [']']) ++ b)) old new) new old =
        a ++ (('[' :: old ++ [']']) ++ b)) ∧
    (previewMeasureRename (buildDependencyGraph pdC8ok).1 pdC8ok.measures
        (str "M") (str "M2")).map (fun cs => cs.map (fun c => c.fullNewContent)) =
      some [[], str "[M2] + 2"] ∧
    (previewMeasureRename (buildDependencyGraph pdC8okf).1 pdC8okf.measures
        (str "M2") (str "M")).map (fun cs => cs.map (fun c => c.fullNewContent)) =
      some [[], str "[M] + 2"] := by
  refine ⟨?_, by decide, by decide⟩
  intro a b old new hOldA hOldB hNewA hNewB
  have hF : replaceMeasureInDAX (a ++ (('[' :: old ++ [']']) ++ b)) old new =
      a ++ (('[' :: new ++ [']']) ++ b) := by
    show replaceAllCIAux ('[' :: old ++ [']']) ('[' :: new ++ [']']) 0
      (a ++ (('[' :: old ++ [']']) ++ b)) = _
    rw [ciPrefix_skip _ _ a _ hOldA]
    refine congrArg (fun x => a ++ x) ?_
    rw [bracketMatchConsume old ('[' :: new ++ [']']) b, ciNoMatch _ _ b hOldB]
  have hR : replaceMeasureInDAX (a ++ (('[' :: new ++ [']']) ++ b)) new old =
      a ++ (('[' :: old ++ [']']) ++ b) := by
    show replaceAllCIAux ('[' :: new ++ [']']) ('[' :: old ++ [']']) 0
      (a ++ (('[' :: new ++ [']']) ++ b)) = _
    rw [ciPrefix_skip _ _ a _ hNewA]
    refine congrArg (fun x => a ++ x) ?_
    rw [bracketMatchConsume new ('[' :: old ++ [']']) b, ciNoMatch _ _ b hNewB]
  rw [hF]
  exact hR

/-- C8 witness: the amended round-trip at a concrete case-exact DAX. -/
theorem C8_measure_rename_roundtrip_amended_witness :
    replaceMeasureInDAX
      (replaceMeasureInDAX (str "x " ++ (('[' :: str "M" ++ [']']) ++ str " + 2"))
        (str "M") (str "M2")) (str "M2") (str "M") =
      str "x " ++ (('[' :: str "M" ++ [']']) ++ str " + 2") :=
  C8_measure_rename_roundtrip_amended.1 (str "x ") (str " + 2") (str "M") (str "M2")
    (by decide) (by decide) (by decide) (by decide)

/-! ## C6: upstream and downstream closures -/

theorem td_mono (g : Graph) (md : Int) :
    ∀ (fuel : Nat) (x : RNode) (id : Str) (v : List Str) (a : List RNode) (d : Nat),
      x ∈ a → x ∈ (traverseDownstream g md fuel id v a d).2 := by
  intro fuel
  induction fuel with
  | zero =>
    intro x id v a d hx
    exact hx
  | succ fuel ih =>
    intro x id v a d hx
    simp only [traverseDownstream]
    by_cases hv : v.contains id = true
    · rw [if_pos hv]
      exact hx
    · rw [if_neg hv]
      by_cases hg : md ≠ -1 ∧ (d : Int) > md
      · rw [if_pos hg]
        exact hx
      · rw [if_neg hg]
        cases hfind : g.find? id with
        | none => exact hx
        | some node =>
          have hfold : ∀ (us : List Dep) (st : List Str × List RNode),
              x ∈ st.2 →
              x ∈ (us.foldl (fun st u =>
                traverseDownstream g md fuel u.ref st.1 st.2 (d + 1)) st).2 := by
            intro us
            induction us with
            | nil =>
              intro st h
              exact h
            | cons u us ihu =>
              intro st h
              simp only [List.foldl_cons]
              exact ihu _ (ih x u.ref st.1 st.2 (d + 1) h)
          apply hfold
          by_cases hd : d > 0
          · rw [if_pos hd]
            exact List.mem_append_left _ hx
          · rw [if_neg hd]
            exact hx

theorem td_inv (g : Graph) :
    ∀ (fuel : Nat) (id : Str) (v : List Str) (a : List RNode) (d : Nat),
      1 ≤ d →
      ∀ x, x ∈ (traverseDownstream g (-1) fuel id v a d).1 →
        x ∈ v ∨ g.find? x = none ∨
          ∃ rn ∈ (traverseDownstream g (-1) fuel id v a d).2, rn.nodeId = x ∧
            ∃ nx, g.find? x = some nx ∧ rn.ntype = nx.ntype := by
  intro fuel
  induction fuel with
  | zero =>
    intro id v a d hd x hx
    exact Or.inl hx
  | succ fuel ih =>
    intro id v a d hd x hx
    rw [traverseDownstream] at hx ⊢
    by_cases hv : v.contains id = true
    · rw [if_pos hv] at hx ⊢
      exact Or.inl hx
    · rw [if_neg hv] at hx ⊢
      rw [if_neg (by simp)] at hx ⊢
      revert hx
      cases hfind : g.find? id with
      | none =>
        intro hx
        dsimp only at hx ⊢
        rcases List.mem_cons.mp hx with h | h
        · subst h
          exact Or.inr (Or.inl hfind)
        · exact Or.inl h
      | some node =>
        intro hx
        dsimp only at hx ⊢
        have hd0 : d > 0 := hd
        rw [if_pos hd0] at hx ⊢
        have hfold : ∀ (us : List Dep) (st : List Str × List RNode),
            (∀ y, y ∈ st.1 → y ∈ v ∨ g.find? y = none ∨
              ∃ rn ∈ st.2, rn.nodeId = y ∧
                ∃ nx, g.find? y = some nx ∧ rn.ntype = nx.ntype) →
            ∀ y, y ∈ (us.foldl (fun st u =>
                traverseDownstream g (-1) fuel u.ref st.1 st.2 (d + 1)) st).1 →
              y ∈ v ∨ g.find? y = none ∨
                ∃ rn ∈ (us.foldl (fun st u =>
                  traverseDownstream g (-1) fuel u.ref st.1 st.2 (d + 1)) st).2,
                  rn.nodeId = y ∧
                    ∃ nx, g.find? y = some nx ∧ rn.ntype = nx.ntype := by
          intro us
          induction us with
          | nil =>
            intro st hst y hy
            exact hst y hy
          | cons u us ihu =>
            intro st hst y hy
            simp only [List.foldl_cons] at hy ⊢
            refine ihu _ ?_ y hy
            intro z hz
            rcases ih u.ref st.1 st.2 (d + 1) (Nat.le_add_left 1 d) z hz with
              h | h | ⟨rn, hrn, hrneq⟩
            · rcases hst z h with h2 | h2 | ⟨rn, hrn, hrneq⟩
              · exact Or.inl h2
              · exact Or.inr (Or.inl h2)
              · exact Or.inr (Or.inr
                  ⟨rn, td_mono g (-1) fuel rn u.ref st.1 st.2 (d + 1) hrn, hrneq⟩)
            · exact Or.inr (Or.inl h)
            · exact Or.inr (Or.inr ⟨rn, hrn, hrneq⟩)
        refine hfold node.usedBy (id :: v, a ++ [⟨id, node.ntype, d⟩]) ?_ x hx
        intro y hy
        rcases List.mem_cons.mp hy with h | h
        · subst h
          exact Or.inr (Or.inr ⟨⟨y, node.ntype, d⟩,
            List.mem_append_right _ (by simp), rfl, node, hfind, rfl⟩)
        · exact Or.inl h

theorem tu_mono (g : Graph) (md : Int) :
    ∀ (fuel : Nat) (x : RNode) (id : Str) (v : List Str) (a : List RNode) (d : Nat),
      x ∈ a → x ∈ (traverseUpstream g md fuel id v a d).2 := by
  intro fuel
  induction fuel with
  | zero =>
    intro x id v a d hx
    exact hx
  | succ fuel ih =>
    intro x id v a d hx
    simp only [traverseUpstream]
    by_cases hv : v.contains id = true
    · rw [if_pos hv]
      exact hx
    · rw [if_neg hv]
      by_cases hg : md ≠ -1 ∧ (d : Int) > md
      · rw [if_pos hg]
        exact hx
      · rw [if_neg hg]
        cases hfind : g.find? id with
        | none => exact hx
        | some node =>
          have hfold : ∀ (us : List Dep) (st : List Str × List RNode),
              x ∈ st.2 →
              x ∈ (us.foldl (fun st dep =>
                traverseUpstream g md fuel dep.ref st.1 st.2 (d + 1)) st).2 := by
            intro us
            induction us with
            | nil =>
              intro st h
              exact h
            | cons u us ihu =>
              intro st h
              simp only [List.foldl_cons]
              exact ihu _ (ih x u.ref st.1 st.2 (d + 1) h)
          apply hfold
          by_cases hd : d > 0
          · rw [if_pos hd]
            exact List.mem_append_left _ hx
          · rw [if_neg hd]
            exact hx

theorem tu_inv (g : Graph) :
    ∀ (fuel : Nat) (id : Str) (v : List Str) (a : List RNode) (d : Nat),
      1 ≤ d →
      ∀ x, x ∈ (traverseUpstream g (-1) fuel id v a d).1 →
        x ∈ v ∨ g.find? x = none ∨
          ∃ rn ∈ (traverseUpstream g (-1) fuel id v a d).2, rn.nodeId = x ∧
            ∃ nx, g.find? x = some nx ∧ rn.ntype = nx.ntype := by
  intro fuel
  induction fuel with
  | zero =>
    intro id v a d hd x hx
    exact Or.inl hx
  | succ fuel ih =>
    intro id v a d hd x hx
    rw [traverseUpstream] at hx ⊢
    by_cases hv : v.contains id = true
    · rw [if_pos hv] at hx ⊢
      exact Or.inl hx
    · rw [if_neg hv] at hx ⊢
      rw [if_neg (by simp)] at hx ⊢
      revert hx
      cases hfind : g.find? id with
      | none =>
        intro hx
        dsimp only at hx ⊢
        rcases List.mem_cons.mp hx with h | h
        · subst h
          exact Or.inr (Or.inl hfind)
        · exact Or.inl h
      | some node =>
        intro hx
        dsimp only at hx ⊢
        have hd0 : d > 0 := hd
        rw [if_pos hd0] at hx ⊢
        have hfold : ∀ (us : List Dep) (st : List Str × List RNode),
            (∀ y, y ∈ st.1 → y ∈ v ∨ g.find? y = none ∨
              ∃ rn ∈ st.2, rn.nodeId = y ∧
                ∃ nx, g.find? y = some nx ∧ rn.ntype = nx.ntype) →
            ∀ y, y ∈ (us.foldl (fun st dep =>
                traverseUpstream g (-1) fuel dep.ref st.1 st.2 (d + 1)) st).1 →
              y ∈ v ∨ g.find? y = none ∨
                ∃ rn ∈ (us.foldl (fun st dep =>
                  traverseUpstream g (-1) fuel dep.ref st.1 st.2 (d + 1)) st).2,
                  rn.nodeId = y ∧
                    ∃ nx, g.find? y = some nx ∧ rn.ntype = nx.ntype := by
          intro us
          induction us with
          | nil =>
            intro st hst y hy
            exact hst y hy
          | cons u us ihu =>
            intro st hst y hy
            simp only [List.foldl_cons] at hy ⊢
            refine ihu _ ?_ y hy
            intro z hz
            rcases ih u.ref st.1 st.2 (d + 1) (Nat.le_add_left 1 d) z hz with
              h | h | ⟨rn, hrn, hrneq⟩
            · rcases hst z h with h2 | h2 | ⟨rn, hrn, hrneq⟩
              · exact Or.inl h2
              · exact Or.inr (Or.inl h2)
              · exact Or.inr (Or.inr
                  ⟨rn, tu_mono g (-1) fuel rn u.ref st.1 st.2 (d + 1) hrn, hrneq⟩)
            · exact Or.inr (Or.inl h)
            · exact Or.inr (Or.inr ⟨rn, hrn, hrneq⟩)
        refine hfold node.dependencies (id :: v, a ++ [⟨id, node.ntype, d⟩]) ?_ x hx
        intro y hy
        rcases List.mem_cons.mp hy with h | h
        · subst h
          exact Or.inr (Or.inr ⟨⟨y, node.ntype, d⟩,
            List.mem_append_right _ (by simp), rfl, node, hfind, rfl⟩)
        · exact Or.inl h

theorem td_direct (g : Graph) (T N : Str) (nT nN : GNode)
    (hT : g.find? T = some nT) (hN : g.find? N = some nN) (hNT : N ≠ T)
    (hu : ∃ u ∈ nT.usedBy, u.ref = N) :
    ∃ rn ∈ (traverseDownstream g (-1) (g.nodes.length + 2) T [] [] 0).2,
      rn.nodeId = N ∧ rn.ntype = nN.ntype := by
  obtain ⟨u, humem, huref⟩ := hu
  obtain ⟨us1, us2, husplit⟩ := List.append_of_mem humem
  have hmono : ∀ (us : List Dep) (st : List Str × List RNode) (x : RNode),
      x ∈ st.2 →
      x ∈ (us.foldl (fun st u =>
        traverseDownstream g (-1) (g.nodes.length + 1) u.ref st.1 st.2 1) st).2 := by
    intro us
    induction us with
    | nil =>
      intro st x h
      exact h
    | cons u2 us ihu =>
      intro st x h
      simp only [List.foldl_cons]
      exact ihu _ x (td_mono g (-1) (g.nodes.length + 1) x u2.ref st.1 st.2 1 h)
  have hfoldinv : ∀ (us : List Dep) (st : List Str × List RNode),
      (∀ y, y ∈ st.1 → y = T ∨ g.find? y = none ∨
        ∃ rn ∈ st.2, rn.nodeId = y ∧ ∃ nx, g.find? y = some nx ∧ rn.ntype = nx.ntype) →
      ∀ y, y ∈ (us.foldl (fun st u =>
          traverseDownstream g (-1) (g.nodes.length + 1) u.ref st.1 st.2 1) st).1 →
        y = T ∨ g.find? y = none ∨
          ∃ rn ∈ (us.foldl (fun st u =>
            traverseDownstream g (-1) (g.nodes.length + 1) u.ref st.1 st.2 1) st).2,
            rn.nodeId = y ∧ ∃ nx, g.find? y = some nx ∧ rn.ntype = nx.ntype := by
    intro us
    induction us with
    | nil =>
      intro st hst y hy
      exact hst y hy
    | cons u2 us ihu =>
      intro st hst y hy
      simp only [List.foldl_cons] at hy ⊢
      refine ihu _ ?_ y hy
      intro z hz
      rcases td_inv g (g.nodes.length + 1) u2.ref st.1 st.2 1 (le_refl 1) z hz with
        h | h | ⟨rn, hrn, hrneq⟩
      · rcases hst z h with h2 | h2 | ⟨rn, hrn, hrneq⟩
        · exact Or.inl h2
        · exact Or.inr (Or.inl h2)
        · exact Or.inr (Or.inr
            ⟨rn, td_mono g (-1) (g.nodes.length + 1) rn u2.ref st.1 st.2 1 hrn, hrneq⟩)
      · exact Or.inr (Or.inl h)
      · exact Or.inr (Or.inr ⟨rn, hrn, hrneq⟩)
  have hfuel : g.nodes.length + 2 = Nat.succ (g.nodes.length + 1) := rfl
  rw [hfuel, traverseDownstream]
  rw [if_neg (by simp)]
  rw [if_neg (by simp)]
  rw [hT]
  dsimp only
  rw [if_neg (by decide)]
  rw [husplit, List.foldl_append]
  simp only [List.foldl_cons, Nat.zero_add]
  set st1 := us1.foldl (fun st u =>
    traverseDownstream g (-1) (g.nodes.length + 1) u.ref st.1 st.2 1) (T :: [], [])
    with hst1
  have hcore : ∃ rn ∈ (traverseDownstream g (-1) (g.nodes.length + 1)
      u.ref st1.1 st1.2 1).2, rn.nodeId = N ∧ rn.ntype = nN.ntype := by
    by_cases hvN : N ∈ st1.1
    · have hinv := hfoldinv us1 (T :: [], []) (by
        intro y hy
        rcases List.mem_cons.mp hy with h | h
        · exact Or.inl h
        · simp at h) N hvN
      rcases hinv with h | h | ⟨rn, hrn, hrneq, nx, hnx, hnty⟩
      · exact absurd h hNT
      · rw [h] at hN
        cases hN
      · obtain rfl := Option.some.inj (hnx.symm.trans hN)
        exact ⟨rn, td_mono g (-1) (g.nodes.length + 1) rn u.ref st1.1 st1.2 1 hrn,
          hrneq, hnty⟩
    · have hfuel2 : g.nodes.length + 1 = Nat.succ g.nodes.length := rfl
      rw [huref, hfuel2, traverseDownstream]
      rw [if_neg (by
        intro hcon
        exact hvN (List.elem_iff.mp hcon))]
      rw [if_neg (by simp)]
      rw [hN]
      dsimp only
      rw [if_pos (by decide)]
      have hx : (⟨N, nN.ntype, 1⟩ : RNode) ∈ st1.2 ++ [⟨N, nN.ntype, 1⟩] :=
        List.mem_append_right _ (by simp)
      have hfold2 : ∀ (us : List Dep) (st : List Str × List RNode) (x : RNode),
          x ∈ st.2 →
          x ∈ (us.foldl (fun st u =>
            traverseDownstream g (-1) g.nodes.length u.ref st.1 st.2 (1 + 1)) st).2 := by
        intro us
        induction us with
        | nil =>
          intro st x h
          exact h
        | cons u2 us ihu =>
          intro st x h
          simp only [List.foldl_cons]
          exact ihu _ x (td_mono g (-1) g.nodes.length x u2.ref st.1 st.2 (1 + 1) h)
      exact ⟨⟨N, nN.ntype, 1⟩, hfold2 nN.usedBy _ _ hx, rfl, rfl⟩
  obtain ⟨rn, hrn, hrneq⟩ := hcore
  exact ⟨rn, hmono us2 _ rn hrn, hrneq⟩

theorem tu_direct (g : Graph) (N T : Str) (nN nT : GNode)
    (hN : g.find? N = some nN) (hT : g.find? T = some nT) (hTN : T ≠ N)
    (hd : ∃ d ∈ nN.dependencies, d.ref = T) :
    ∃ rn ∈ (traverseUpstream g (-1) (g.nodes.length + 2) N [] [] 0).2,
      rn.nodeId = T ∧ rn.ntype = nT.ntype := by
  obtain ⟨u, humem, huref⟩ := hd
  obtain ⟨us1, us2, husplit⟩ := List.append_of_mem humem
  have hmono : ∀ (us : List Dep) (st : List Str × List RNode) (x : RNode),
      x ∈ st.2 →
      x ∈ (us.foldl (fun st dep =>
        traverseUpstream g (-1) (g.nodes.length + 1) dep.ref st.1 st.2 1) st).2 := by
    intro us
    induction us with
    | nil =>
      intro st x h
      exact h
    | cons u2 us ihu =>
      intro st x h
      simp only [List.foldl_cons]
      exact ihu _ x (tu_mono g (-1) (g.nodes.length + 1) x u2.ref st.1 st.2 1 h)
  have hfoldinv : ∀ (us : List Dep) (st : List Str × List RNode),
      (∀ y, y ∈ st.1 → y = N ∨ g.find? y = none ∨
        ∃ rn ∈ st.2, rn.nodeId = y ∧ ∃ nx, g.find? y = some nx ∧ rn.ntype = nx.ntype) →
      ∀ y, y ∈ (us.foldl (fun st dep =>
          traverseUpstream g (-1) (g.nodes.length + 1) dep.ref st.1 st.2 1) st).1 →
        y = N ∨ g.find? y = none ∨
          ∃ rn ∈ (us.foldl (fun st dep =>
            traverseUpstream g (-1) (g.nodes.length + 1) dep.ref st.1 st.2 1) st).2,
            rn.nodeId = y ∧ ∃ nx, g.find? y = some nx ∧ rn.ntype = nx.ntype := by
    intro us
    induction us with
    | nil =>
      intro st hst y hy
      exact hst y hy
    | cons u2 us ihu =>
      intro st hst y hy
      simp only [List.foldl_cons] at hy ⊢
      refine ihu _ ?_ y hy
      intro z hz
      rcases tu_inv g (g.nodes.length + 1) u2.ref st.1 st.2 1 (le_refl 1) z hz with
        h | h | ⟨rn, hrn, hrneq⟩
      · rcases hst z h with h2 | h2 | ⟨rn, hrn, hrneq⟩
        · exact Or.inl h2
        · exact Or.inr (Or.inl h2)
        · exact Or.inr (Or.inr
            ⟨rn, tu_mono g (-1) (g.nodes.length + 1) rn u2.ref st.1 st.2 1 hrn, hrneq⟩)
      · exact Or.inr (Or.inl h)
      · exact Or.inr (Or.inr ⟨rn, hrn, hrneq⟩)
  have hfuel : g.nodes.length + 2 = Nat.succ (g.nodes.length + 1) := rfl
  rw [hfuel, traverseUpstream]
  rw [if_neg (by simp)]
  rw [if_neg (by simp)]
  rw [hN]
  dsimp only
  rw [if_neg (by decide)]
  rw [husplit, List.foldl_append]
  simp only [List.foldl_cons, Nat.zero_add]
  set st1 := us1.foldl (fun st dep =>
    traverseUpstream g (-1) (g.nodes.length + 1) dep.ref st.1 st.2 1) (N :: [], [])
    with hst1
  have hcore : ∃ rn ∈ (traverseUpstream g (-1) (g.nodes.length + 1)
      u.ref st1.1 st1.2 1).2, rn.nodeId = T ∧ rn.ntype = nT.ntype := by
    by_cases hvT : T ∈ st1.1
    · have hinv := hfoldinv us1 (N :: [], []) (by
        intro y hy
        rcases List.mem_cons.mp hy with h | h
        · exact Or.inl h
        · simp at h) T hvT
      rcases hinv with h | h | ⟨rn, hrn, hrneq, nx, hnx, hnty⟩
      · exact absurd h hTN
      · rw [h] at hT
        cases hT
      · obtain rfl := Option.some.inj (hnx.symm.trans hT)
        exact ⟨rn, tu_mono g (-1) (g.nodes.length + 1) rn u.ref st1.1 st1.2 1 hrn,
          hrneq, hnty⟩
    · have hfuel2 : g.nodes.length + 1 = Nat.succ g.nodes.length := rfl
      rw [huref, hfuel2, traverseUpstream]
      rw [if_neg (by
        intro hcon
        exact hvT (List.elem_iff.mp hcon))]
      rw [if_neg (by simp)]
      rw [hT]
      dsimp only
      rw [if_pos (by decide)]
      have hx : (⟨T, nT.ntype, 1⟩ : RNode) ∈ st1.2 ++ [⟨T, nT.ntype, 1⟩] :=
        List.mem_append_right _ (by simp)
      have hfold2 : ∀ (us : List Dep) (st : List Str × List RNode) (x : RNode),
          x ∈ st.2 →
          x ∈ (us.foldl (fun st dep =>
            traverseUpstream g (-1) g.nodes.length dep.ref st.1 st.2 (1 + 1)) st).2 := by
        intro us
        induction us with
        | nil =>
          intro st x h
          exact h
        | cons u2 us ihu =>
          intro st x h
          simp only [List.foldl_cons]
          exact ihu _ x (tu_mono g (-1) g.nodes.length x u2.ref st.1 st.2 (1 + 1) h)
      exact ⟨⟨T, nT.ntype, 1⟩, hfold2 nT.dependencies _ _ hx, rfl, rfl⟩
  obtain ⟨rn, hrn, hrneq⟩ := hcore
  exact ⟨rn, hmono us2 _ rn hrn, hrneq⟩

theorem mem_insertByDepth :
    ∀ (l : List RNode) (n x : RNode), x ∈ insertByDepth n l ↔ x = n ∨ x ∈ l := by
  intro l
  induction l with
  | nil =>
    intro n x
    simp [insertByDepth]
  | cons m r ih =>
    intro n x
    simp only [insertByDepth]
    by_cases h : m.depth ≤ n.depth
    · rw [if_pos h]
      simp only [List.mem_cons, ih n x]
      tauto
    · rw [if_neg h]
      simp only [List.mem_cons]

theorem mem_sortByDepth_aux :
    ∀ (l acc : List RNode) (x : RNode), (x ∈ acc ∨ x ∈ l) →
      x ∈ l.foldl (fun acc n => insertByDepth n acc) acc := by
  intro l
  induction l with
  | nil =>
    intro acc x h
    rcases h with h | h
    · exact h
    · simp at h
  | cons n r ih =>
    intro acc x h
    simp only [List.foldl_cons]
    apply ih
    rcases h with h | h
    · exact Or.inl ((mem_insertByDepth acc n x).mpr (Or.inr h))
    · rcases List.mem_cons.mp h with h2 | h2
      · exact Or.inl ((mem_insertByDepth acc n x).mpr (Or.inl h2))
      · exact Or.inr h2

theorem mem_sortByDepth (l : List RNode) (x : RNode) (h : x ∈ l) :
    x ∈ sortByDepth l :=
  mem_sortByDepth_aux l [] x (Or.inr h)

theorem mem_groupByType_aux :
    ∀ (l : List RNode) (gr : Grouped) (x : RNode),
      (x ∈ groupedAll gr ∨ (x ∈ l ∧ x.ntype ∈ knownTypes)) →
      x ∈ groupedAll (l.foldl
        (fun (gr : Grouped) n =>
          if n.ntype == str "measure" then { gr with measures := gr.measures ++ [n] }
          else if n.ntype == str "column" then { gr with columns := gr.columns ++ [n] }
          else if n.ntype == str "table" then { gr with tables := gr.tables ++ [n] }
          else if n.ntype == str "visual" then { gr with visuals := gr.visuals ++ [n] }
          else if n.ntype == str "calculationItem" then
            { gr with calculationItems := gr.calculationItems ++ [n] }
          else if n.ntype == str "calculationGroup" then
            { gr with calculationGroups := gr.calculationGroups ++ [n] }
          else if n.ntype == str "fieldParameter" then
            { gr with fieldParameters := gr.fieldParameters ++ [n] }
          else gr)
        gr) := by
  intro l
  induction l with
  | nil =>
    intro gr x h
    rcases h with h | ⟨h, _⟩
    · exact h
    · simp at h
  | cons n r ih =>
    intro gr x h
    simp only [List.foldl_cons]
    apply ih
    rcases h with hg | ⟨hxl, hknown⟩
    · left
      split_ifs <;>
        (simp only [groupedAll, List.mem_append] at hg ⊢; tauto)
    · rcases List.mem_cons.mp hxl with h2 | h2
      · subst h2
        left
        simp only [knownTypes, List.mem_cons, List.not_mem_nil, or_false] at hknown
        rcases hknown with hty | hty | hty | hty | hty | hty | hty
        · rw [hty, if_pos (by decide)]
          simp [groupedAll]
        · rw [hty, if_neg (by decide), if_pos (by decide)]
          simp [groupedAll]
        · rw [hty, if_neg (by decide), if_neg (by decide), if_pos (by decide)]
          simp [groupedAll]
        · rw [hty, if_neg (by decide), if_neg (by decide), if_neg (by decide),
            if_pos (by decide)]
          simp [groupedAll]
        · rw [hty, if_neg (by decide), if_neg (by decide), if_neg (by decide),
            if_neg (by decide), if_pos (by decide)]
          simp [groupedAll]
        · rw [hty, if_neg (by decide), if_neg (by decide), if_neg (by decide),
            if_neg (by decide), if_neg (by decide), if_pos (by decide)]
          simp [groupedAll]
        · rw [hty, if_neg (by decide), if_neg (by decide), if_neg (by decide),
            if_neg (by decide), if_neg (by decide), if_neg (by decide),
            if_pos (by decide)]
          simp [groupedAll]
      · exact Or.inr ⟨h2, hknown⟩

theorem mem_groupByType (l : List RNode) (x : RNode) (hx : x ∈ l)
    (hk : x.ntype ∈ knownTypes) : x ∈ groupedAll (groupByType l) := by
  have h := mem_groupByType_aux l {} x (Or.inr ⟨hx, hk⟩)
  simp only [groupByType]
  simp only [groupedAll, List.mem_append, or_assoc] at h ⊢
  rcases h with h | h | h | h | h | h | h
  · exact Or.inl (mem_sortByDepth _ x h)
  · exact Or.inr (Or.inl (mem_sortByDepth _ x h))
  · exact Or.inr (Or.inr (Or.inl (mem_sortByDepth _ x h)))
  · exact Or.inr (Or.inr (Or.inr (Or.inl (mem_sortByDepth _ x h))))
  · exact Or.inr (Or.inr (Or.inr (Or.inr (Or.inl (mem_sortByDepth _ x h)))))
  · exact Or.inr (Or.inr (Or.inr (Or.inr (Or.inr (Or.inl (mem_sortByDepth _ x h))))))
  · exact Or.inr (Or.inr (Or.inr (Or.inr (Or.inr (Or.inr (mem_sortByDepth _ x h))))))

/-- C6 counterexample: the measure `A` with DAX `[A]` depends on
itself, so its node both lists itself in `usedBy` and in
`dependencies`; yet both unbounded closures are empty, because the
traversal marks the start node visited at depth 0 before following the
self edge.  With `N = T = Measure.A` the claimed transposition fails in
both directions. -/
theorem C6_self_loop_breaks_transpose :
    ((buildDependencyGraph pdC6).1.find? (str "Measure.A")).map
        (fun n => n.usedBy.map (fun u => u.ref)) = some [str "Measure.A"] ∧
    ((buildDependencyGraph pdC6).1.find? (str "Measure.A")).map
        (fun n => n.dependencies.map (fun d => d.ref)) = some [str "Measure.A"] ∧
    findAllDownstream (buildDependencyGraph pdC6).1 (str "Measure.A") = {} ∧
    findAllUpstream (buildDependencyGraph pdC6).1 (str "Measure.A") = {} := by
  decide

/-- C6 (amended): for two DISTINCT nodes `N ≠ T` of the graph, if the
edge pair between them is present (`T ∈ dependencies(N)` and
`N ∈ usedBy(T)`, as `addEdgePair` always records both halves), then `N`
appears in the unbounded downstream closure of `T` and `T` appears in
the unbounded upstream closure of `N`.  The distinctness hypothesis is
necessary: see `C6_self_loop_breaks_transpose`. -/
theorem C6_transpose_amended (g : Graph) (N T : Str) (nN nT : GNode)
    (hN : g.find? N = some nN) (hT : g.find? T = some nT) (hNT : N ≠ T)
    (hdep : ∃ d ∈ nN.dependencies, d.ref = T)
    (huse : ∃ u ∈ nT.usedBy, u.ref = N)
    (htyN : nN.ntype ∈ knownTypes) (htyT : nT.ntype ∈ knownTypes) :
    (∃ rn ∈ groupedAll (findAllDownstream g T), rn.nodeId = N) ∧
    (∃ rn ∈ groupedAll (findAllUpstream g N), rn.nodeId = T) := by
  constructor
  · obtain ⟨rn, hrn, hrneq, hrnty⟩ := td_direct g T N nT nN hT hN hNT huse
    exact ⟨rn, mem_groupByType _ rn hrn (by rw [hrnty]; exact htyN), hrneq⟩
  · obtain ⟨rn, hrn, hrneq, hrnty⟩ := tu_direct g N T nN nT hN hT (Ne.symm hNT) hdep
    exact ⟨rn, mem_groupByType _ rn hrn (by rw [hrnty]; exact htyT), hrneq⟩

/-- C6 witness: `Measure.A` references `Measure.B`; each appears in the
other's closure. -/
theorem C6_transpose_amended_witness :
    (∃ rn ∈ groupedAll (findAllDownstream (buildDependencyGraph pdC6w).1
      (str "Measure.B")), rn.nodeId = str "Measure.A") ∧
    (∃ rn ∈ groupedAll (findAllUpstream (buildDependencyGraph pdC6w).1
      (str "Measure.A")), rn.nodeId = str "Measure.B") :=
  C6_transpose_amended (buildDependencyGraph pdC6w).1 (str "Measure.A")
    (str "Measure.B") nC6A nC6B (by decide) (by decide) (by decide) (by decide)
    (by decide) (by decide) (by decide)

/-! ## C1: rollback restores every backed-up file -/

theorem beq_t {a b : Str} (h : a = b) : (a == b) = true := by
  simp [h]

theorem beq_nt {a b : Str} (h : ¬a = b) : ¬(a == b) = true := by
  simp [h]

theorem lookupP (q k v : Str) (t : FileSys) :
    List.lookup q ((k, v) :: t) = if q = k then some v else List.lookup q t := by
  by_cases h : q = k
  · rw [if_pos h]
    simp only [List.lookup]
    rw [beq_t h]
  · rw [if_neg h]
    simp only [List.lookup]
    rw [show (q == k) = false from by simp [h]]

theorem lookup_none (q : Str) :
    ∀ t : FileSys, q ∉ fsKeys t → List.lookup q t = none := by
  intro t
  induction t with
  | nil =>
    intro _
    rfl
  | cons e r ih =>
    obtain ⟨k, v⟩ := e
    intro h
    have hqk : ¬q = k := by
      intro hc
      exact h (by simp [fsKeys, hc])
    rw [lookupP, if_neg hqk]
    exact ih (by
      intro hc
      exact h (by simp [fsKeys] at hc ⊢; exact Or.inr hc))

theorem fsWrite_read : ∀ (fs : FileSys) (p c q : Str),
    fsRead (fsWrite fs p c) q = if q = p then some c else fsRead fs q := by
  intro fs
  induction fs with
  | nil =>
    intro p c q
    simp only [fsWrite, fsRead]
    rw [lookupP]
  | cons e t ih =>
    obtain ⟨k, v⟩ := e
    intro p c q
    simp only [fsWrite, fsRead] at ih ⊢
    by_cases hk : k = p
    · rw [if_pos (beq_t hk)]
      subst hk
      rw [lookupP, lookupP]
      by_cases h : q = k
      · rw [if_pos h, if_pos h]
      · rw [if_neg h, if_neg h, if_neg h]
    · rw [if_neg (beq_nt hk)]
      rw [lookupP, lookupP]
      by_cases h : q = k
      · have hqp : ¬q = p := fun hc => hk (h.symm.trans hc)
        rw [if_pos h, if_neg hqp, if_pos h]
      · rw [if_neg h, if_neg h, ih p c q]

theorem fsDelete_read : ∀ (fs : FileSys) (p q : Str), (fsKeys fs).Nodup →
    fsRead (fsDelete fs p) q = if q = p then none else fsRead fs q := by
  intro fs
  induction fs with
  | nil =>
    intro p q _
    simp only [fsDelete, fsRead]
    by_cases h : q = p
    · rw [if_pos h]
      rfl
    · rw [if_neg h]
  | cons e t ih =>
    obtain ⟨k, v⟩ := e
    intro p q hnd
    have hnd2 : (fsKeys t).Nodup := (List.nodup_cons.mp (by simpa [fsKeys] using hnd)).2
    have hknot : k ∉ fsKeys t := (List.nodup_cons.mp (by simpa [fsKeys] using hnd)).1
    simp only [fsDelete, fsRead] at ih ⊢
    by_cases hk : k = p
    · rw [if_pos (beq_t hk)]
      subst hk
      by_cases h : q = k
      · rw [if_pos h]
        subst h
        exact lookup_none q t hknot
      · rw [if_neg h, lookupP, if_neg h]
    · rw [if_neg (beq_nt hk)]
      rw [lookupP, ih p q hnd2, lookupP]
      by_cases h : q = k
      · have hqp : ¬q = p := fun hc => hk (h.symm.trans hc)
        rw [if_pos h, if_neg hqp, if_pos h]
      · rw [if_neg h, if_neg h]

theorem fsWrite_keys_sub : ∀ (t : FileSys) (p c x : Str),
    x ∈ fsKeys (fsWrite t p c) → x ∈ fsKeys t ∨ x = p := by
  intro t
  induction t with
  | nil =>
    intro p c x hx
    simp [fsWrite, fsKeys] at hx
    exact Or.inr hx
  | cons e r ih =>
    obtain ⟨k, v⟩ := e
    intro p c x hx
    simp only [fsWrite] at hx
    by_cases hk : k = p
    · rw [if_pos (beq_t hk)] at hx
      simp only [fsKeys, List.map_cons, List.mem_cons] at hx ⊢
      tauto
    · rw [if_neg (beq_nt hk)] at hx
      simp only [fsKeys, List.map_cons, List.mem_cons] at hx ⊢
      rcases hx with hx | hx
      · exact Or.inl (Or.inl hx)
      · rcases ih p c x hx with h | h
        · exact Or.inl (Or.inr h)
        · exact Or.inr h

theorem fsDelete_keys_sub : ∀ (t : FileSys) (p x : Str),
    x ∈ fsKeys (fsDelete t p) → x ∈ fsKeys t := by
  intro t
  induction t with
  | nil =>
    intro p x hx
    simp [fsDelete, fsKeys] at hx
  | cons e r ih =>
    obtain ⟨k, v⟩ := e
    intro p x hx
    simp only [fsDelete] at hx
    by_cases hk : k = p
    · rw [if_pos (beq_t hk)] at hx
      simp only [fsKeys, List.map_cons, List.mem_cons]
      exact Or.inr hx
    · rw [if_neg (beq_nt hk)] at hx
      simp only [fsKeys, List.map_cons, List.mem_cons] at hx ⊢
      rcases hx with hx | hx
      · exact Or.inl hx
      · exact Or.inr (ih p x hx)

theorem fsWrite_keys : ∀ (fs : FileSys) (p c : Str), (fsKeys fs).Nodup →
    (fsKeys (fsWrite fs p c)).Nodup := by
  intro fs
  induction fs with
  | nil =>
    intro p c _
    simp [fsWrite, fsKeys]
  | cons e t ih =>
    obtain ⟨k, v⟩ := e
    intro p c hnd
    have hnd2 : (fsKeys t).Nodup := (List.nodup_cons.mp (by simpa [fsKeys] using hnd)).2
    have hknot : k ∉ fsKeys t := (List.nodup_cons.mp (by simpa [fsKeys] using hnd)).1
    simp only [fsWrite]
    by_cases hk : k = p
    · rw [if_pos (beq_t hk)]
      exact hnd
    · rw [if_neg (beq_nt hk)]
      simp only [fsKeys, List.map_cons, List.nodup_cons]
      refine ⟨?_, ih p c hnd2⟩
      intro hc
      rcases fsWrite_keys_sub t p c k hc with h | h
      · exact hknot h
      · exact hk h

theorem fsDelete_keys : ∀ (fs : FileSys) (p : Str), (fsKeys fs).Nodup →
    (fsKeys (fsDelete fs p)).Nodup := by
  intro fs
  induction fs with
  | nil =>
    intro p _
    simp [fsDelete, fsKeys]
  | cons e t ih =>
    obtain ⟨k, v⟩ := e
    intro p hnd
    have hnd2 : (fsKeys t).Nodup := (List.nodup_cons.mp (by simpa [fsKeys] using hnd)).2
    have hknot : k ∉ fsKeys t := (List.nodup_cons.mp (by simpa [fsKeys] using hnd)).1
    simp only [fsDelete]
    by_cases hk : k = p
    · rw [if_pos (beq_t hk)]
      exact hnd2
    · rw [if_neg (beq_nt hk)]
      simp only [fsKeys, List.map_cons, List.nodup_cons]
      exact ⟨fun hc => hknot (fsDelete_keys_sub t p k hc), ih p hnd2⟩

theorem bspec_none : ∀ (bks : Backups) (q : Str), q ∉ ownersList bks →
    bspec bks q = none := by
  intro bks
  induction bks with
  | nil =>
    intro q _
    rfl
  | cons e rest ih =>
    obtain ⟨p, b⟩ := e
    intro q hq
    cases b with
    | content t =>
      have h1 : ¬q = p := by
        intro hc
        exact hq (by simp [ownersList, entryOwners, hc])
      simp only [bspec]
      rw [if_neg h1]
      exact ih q (by
        intro hc
        exact hq (by simp [ownersList]; exact Or.inr hc))
    | rename d o n orig =>
      have h1 : ¬q = joinPath d o := by
        intro hc
        exact hq (by simp [ownersList, entryOwners, hc])
      have h2 : ¬q = joinPath d n := by
        intro hc
        exact hq (by simp [ownersList, entryOwners, hc])
      simp only [bspec]
      rw [if_neg h1, if_neg h2]
      exact ih q (by
        intro hc
        exact hq (by simp [ownersList]; exact Or.inr hc))

theorem bspec_skip (e : Str × Backup) (rest : Backups) (q : Str)
    (hq : q ∉ entryOwners e) : bspec (e :: rest) q = bspec rest q := by
  obtain ⟨p, b⟩ := e
  cases b with
  | content t =>
    have h1 : ¬q = p := by
      intro hc
      exact hq (by simp [entryOwners, hc])
    simp only [bspec]
    rw [if_neg h1]
  | rename d o n orig =>
    have h1 : ¬q = joinPath d o := by
      intro hc
      exact hq (by simp [entryOwners, hc])
    have h2 : ¬q = joinPath d n := by
      intro hc
      exact hq (by simp [entryOwners, hc])
    simp only [bspec]
    rw [if_neg h1, if_neg h2]

theorem bspec_head (e : Str × Backup) (rest : Backups) (q : Str)
    (hq : q ∈ entryOwners e) : bspec (e :: rest) q = bspec [e] q := by
  obtain ⟨p, b⟩ := e
  cases b with
  | content t =>
    have h1 : q = p := by simpa [entryOwners] using hq
    simp only [bspec]
    rw [if_pos h1, if_pos h1]
  | rename d o n orig =>
    simp only [bspec]
    by_cases h1 : q = joinPath d o
    · rw [if_pos h1, if_pos h1]
    · rw [if_neg h1, if_neg h1]
      have h2 : q = joinPath d n := by
        rcases (by simpa [entryOwners] using hq : q = joinPath d o ∨ q = joinPath d n)
          with h | h
        · exact absurd h h1
        · exact h
      rw [if_pos h2, if_pos h2]

theorem restoreOne_sem (sched : Nat → Bool) (w : W) (e : Str × Backup)
    (hnd : (fsKeys w.fs).Nodup) (hdist : (entryOwners e).Nodup)
    (hsucc : (restoreOne sched w e).1 = true) :
    (fsKeys (restoreOne sched w e).2.fs).Nodup ∧
    ∀ q, fsRead (restoreOne sched w e).2.fs q =
      match bspec [e] q with
      | some v => v
      | none => fsRead w.fs q := by
  obtain ⟨p, b⟩ := e
  cases b with
  | content t =>
    rcases hr : fsRead w.fs p with _ | c
    · simp only [restoreOne, hr] at hsucc
      cases hsucc
    · simp only [restoreOne, hr, wWrite] at hsucc ⊢
      by_cases hs : sched w.clock = true
      · rw [if_pos hs] at hsucc
        cases hsucc
      · rw [if_neg hs] at hsucc ⊢
        refine ⟨fsWrite_keys w.fs p t hnd, ?_⟩
        intro q
        rw [fsWrite_read]
        by_cases h : q = p
        · rw [if_pos h]
          simp [bspec, h]
        · rw [if_neg h]
          simp [bspec, h]
  | rename d o n orig =>
    have hon : ¬joinPath d o = joinPath d n := by
      simpa [entryOwners] using hdist
    rcases hr : fsRead w.fs (joinPath d n) with _ | c
    · simp only [restoreOne, renameFile, hr] at hsucc
      cases hsucc
    · by_cases hs : sched w.clock = true
      · have h1 : restoreOne sched w (p, Backup.rename d o n orig) =
            (false, { w with clock := w.clock + 1 }) := by
          simp only [restoreOne, renameFile, hr, wWrite]
          rw [if_pos hs]
          simp
        rw [h1] at hsucc
        cases hsucc
      · have h1 : restoreOne sched w (p, Backup.rename d o n orig) =
            wWrite sched
              { fs := fsDelete (fsWrite w.fs (joinPath d o) c) (joinPath d n),
                clock := w.clock + 1 } (joinPath d o) orig := by
          simp only [restoreOne, renameFile, hr, wWrite]
          rw [if_neg hs]
          simp
        rw [h1] at hsucc ⊢
        simp only [wWrite] at hsucc ⊢
        by_cases hs2 : sched (w.clock + 1) = true
        · rw [if_pos hs2] at hsucc
          cases hsucc
        · rw [if_neg hs2] at hsucc ⊢
          have hk1 := fsWrite_keys w.fs (joinPath d o) c hnd
          have hk2 := fsDelete_keys _ (joinPath d n) hk1
          refine ⟨fsWrite_keys _ (joinPath d o) orig hk2, ?_⟩
          intro q
          dsimp only
          rw [fsWrite_read]
          by_cases h1 : q = joinPath d o
          · rw [if_pos h1]
            simp [bspec, h1, hon]
          · rw [if_neg h1]
            rw [fsDelete_read _ _ _ hk1]
            by_cases h2 : q = joinPath d n
            · rw [if_pos h2]
              simp only [bspec, if_neg h1, if_pos h2]
            · rw [if_neg h2]
              rw [fsWrite_read]
              rw [if_neg h1]
              simp [bspec, h1, h2]

theorem restoreBackups_sem (sched : Nat → Bool) :
    ∀ (bks : Backups) (w : W),
      (fsKeys w.fs).Nodup → (ownersList bks).Nodup →
      (restoreBackups sched w bks).1 = true →
      (fsKeys (restoreBackups sched w bks).2.fs).Nodup ∧
      ∀ q, fsRead (restoreBackups sched w bks).2.fs q =
        match bspec bks q with
        | some v => v
        | none => fsRead w.fs q := by
  intro bks
  induction bks with
  | nil =>
    intro w hnd _ _
    exact ⟨hnd, fun q => rfl⟩
  | cons e rest ih =>
    intro w hnd hown hsucc
    simp only [restoreBackups] at hsucc ⊢
    rw [Bool.and_eq_true] at hsucc
    obtain ⟨hs1, hs2⟩ := hsucc
    have hownE : (entryOwners e).Nodup := (List.nodup_append.mp (by
      simpa [ownersList] using hown)).1
    have hownR : (ownersList rest).Nodup := (List.nodup_append.mp (by
      simpa [ownersList] using hown)).2.1
    have hdisj := (List.nodup_append.mp (by
      simpa [ownersList] using hown)).2.2
    obtain ⟨hk1, hread1⟩ := restoreOne_sem sched w e hnd hownE hs1
    obtain ⟨hk2, hread2⟩ := ih (restoreOne sched w e).2 hk1 hownR hs2
    refine ⟨hk2, ?_⟩
    intro q
    rw [hread2 q]
    by_cases hq : q ∈ entryOwners e
    · have hb1 := bspec_head e rest q hq
      have hbr : bspec rest q = none := bspec_none rest q (by
        intro hc
        exact hdisj hq hc)
      rw [hbr, hb1, hread1 q]
    · rw [bspec_skip e rest q hq]
      cases hbr : bspec rest q with
      | some v => rfl
      | none =>
        rw [hread1 q]
        have : bspec [e] q = none := bspec_none [e] q (by
          simpa [ownersList] using hq)
        rw [this]

theorem ownersList_append : ∀ (a b : Backups),
    ownersList (a ++ b) = ownersList a ++ ownersList b := by
  intro a b
  induction a with
  | nil => rfl
  | cons e r ih =>
    show entryOwners e ++ ownersList (r ++ b) =
      (entryOwners e ++ ownersList r) ++ ownersList b
    rw [ih, List.append_assoc]

theorem bspec_append : ∀ (a b : Backups) (q : Str),
    bspec (a ++ b) q =
      match bspec a q with
      | some v => some v
      | none => bspec b q := by
  intro a b q
  induction a with
  | nil => rfl
  | cons e r ih =>
    obtain ⟨p, bk⟩ := e
    cases bk with
    | content t =>
      simp only [List.cons_append, bspec]
      by_cases h : q = p
      · rw [if_pos h, if_pos h]
      · rw [if_neg h, if_neg h]
        exact ih
    | rename d o n orig =>
      simp only [List.cons_append, bspec]
      by_cases h1 : q = joinPath d o
      · rw [if_pos h1, if_pos h1]
      · rw [if_neg h1, if_neg h1]
        by_cases h2 : q = joinPath d n
        · rw [if_pos h2, if_pos h2]
        · rw [if_neg h2, if_neg h2]
          exact ih

theorem bspec_owner_isSome : ∀ (bks : Backups) (q : Str),
    q ∈ ownersList bks → (bspec bks q).isSome = true := by
  intro bks
  induction bks with
  | nil =>
    intro q hq
    simp [ownersList] at hq
  | cons e r ih =>
    intro q hq
    by_cases h : q ∈ entryOwners e
    · rw [bspec_head e r q h]
      obtain ⟨p, bk⟩ := e
      cases bk with
      | content t =>
        have h1 : q = p := by simpa [entryOwners] using h
        simp [bspec, h1]
      | rename d o n orig =>
        simp only [bspec]
        by_cases h1 : q = joinPath d o
        · rw [if_pos h1]
          rfl
        · rw [if_neg h1]
          have h2 : q = joinPath d n := by
            rcases (by simpa [entryOwners] using h :
              q = joinPath d o ∨ q = joinPath d n) with hh | hh
            · exact absurd hh h1
            · exact hh
          rw [if_pos h2]
          rfl
    · rw [bspec_skip e r q h]
      refine ih q ?_
      simp only [ownersList, List.mem_append] at hq
      rcases hq with hq | hq
      · exact absurd hq h
      · exact hq

theorem setBackup_fresh : ∀ (bks : Backups) (k : Str) (v : Backup),
    k ∉ bkeys bks → setBackup bks k v = bks ++ [(k, v)] := by
  intro bks
  induction bks with
  | nil =>
    intro k v _
    rfl
  | cons e r ih =>
    obtain ⟨k0, v0⟩ := e
    intro k v hk
    have hkr : k ∉ bkeys r := by
      intro hc
      exact hk (List.mem_cons_of_mem k0 hc)
    have hne : ¬k0 = k := by
      intro hc
      exact hk (hc ▸ List.mem_cons_self k0 (bkeys r))
    simp only [setBackup]
    rw [if_neg (beq_nt hne), List.cons_append, ih k v hkr]

theorem rollback_restores (sched : Nat → Bool) (w0 w1 : W) (bks : Backups)
    (hinv : ApplyInv w0 w1 bks)
    (hrb : (rollbackOutcome sched w1 bks).1.rolledBack = some true) :
    ∀ q, fsRead (rollbackOutcome sched w1 bks).2.fs q = fsRead w0.fs q := by
  obtain ⟨hk, hown, _, hA, hB⟩ := hinv
  intro q
  simp only [rollbackOutcome] at hrb ⊢
  by_cases hb : bks = []
  · rw [if_pos hb] at hrb
    simp at hrb
  · rw [if_neg hb] at hrb ⊢
    dsimp only at hrb ⊢
    have hflag : (restoreBackups sched w1 bks).1 = true := by
      simpa using hrb
    obtain ⟨_, hread⟩ := restoreBackups_sem sched bks w1 hk hown hflag
    rw [hread q]
    cases hbs : bspec bks q with
    | some v => exact hB q v hbs
    | none =>
      refine hA q ?_
      intro hc
      have := bspec_owner_isSome bks q hc
      rw [hbs] at this
      cases this

theorem owners_of_mem : ∀ (bks : Backups) (e : Str × Backup), e ∈ bks →
    ∀ x, x ∈ entryOwners e → x ∈ ownersList bks := by
  intro bks
  induction bks with
  | nil =>
    intro e he
    simp at he
  | cons e0 r ih =>
    intro e he x hx
    rcases List.mem_cons.mp he with h | h
    · subst h
      exact List.mem_append_left _ hx
    · exact List.mem_append_right _ (ih e h x hx)

theorem key_not_fresh (bks : Backups) (hkeyown : ∀ e ∈ bks, e.1 ∈ entryOwners e)
    (fp : Str) (hfresh : fp ∉ ownersList bks) : fp ∉ bkeys bks := by
  intro hc
  obtain ⟨e, he, hfst⟩ := List.mem_map.mp hc
  exact hfresh (hfst ▸ owners_of_mem bks e he e.1 (hkeyown e he))

theorem applyContent_step (sched : Nat → Bool) (w0 w : W) (bks : Backups)
    (fp : Str) (chs : List Change)
    (hinv : ApplyInv w0 w bks) (hfresh : fp ∉ ownersList bks) :
    ApplyInv w0 (applyChangesToFile sched w bks fp chs).2.1
      (applyChangesToFile sched w bks fp chs).2.2 ∧
    ∀ x, x ∈ ownersList (applyChangesToFile sched w bks fp chs).2.2 →
      x ∈ ownersList bks ∨ x = fp := by
  obtain ⟨hk, hown, hkeyown, hA, hB⟩ := hinv
  rcases hr : fsRead w.fs fp with _ | content
  · have hres : applyChangesToFile sched w bks fp chs = (false, w, bks) := by
      simp only [applyChangesToFile, hr]
    rw [hres]
    exact ⟨⟨hk, hown, hkeyown, hA, hB⟩, fun x hx => Or.inl hx⟩
  · have hbk := setBackup_fresh bks fp (Backup.content content)
      (key_not_fresh bks hkeyown fp hfresh)
    have hres : applyChangesToFile sched w bks fp chs =
        ((wWrite sched w fp (applyChangeList chs content).1).1,
         (wWrite sched w fp (applyChangeList chs content).1).2,
         bks ++ [(fp, Backup.content content)]) := by
      simp only [applyChangesToFile, hr, hbk]
    rw [hres]
    have hol : ownersList (bks ++ [(fp, Backup.content content)]) =
        ownersList bks ++ [fp] := by
      rw [ownersList_append]
      rfl
    have hC : (ownersList (bks ++ [(fp, Backup.content content)])).Nodup := by
      rw [hol]
      refine List.nodup_append.mpr ⟨hown, by simp, ?_⟩
      intro x hx
      simp only [List.mem_singleton]
      intro hc
      exact hfresh (hc ▸ hx)
    have hE : ∀ e ∈ bks ++ [(fp, Backup.content content)], e.1 ∈ entryOwners e := by
      intro e he
      rcases List.mem_append.mp he with h | h
      · exact hkeyown e h
      · rcases List.mem_singleton.mp h with rfl
        simp [entryOwners]
    have hB2 : ∀ q v, bspec (bks ++ [(fp, Backup.content content)]) q = some v →
        v = fsRead w0.fs q := by
      intro q v hbs
      rw [bspec_append] at hbs
      cases hbsa : bspec bks q with
      | some v2 =>
        rw [hbsa] at hbs
        exact Option.some.inj hbs ▸ hB q v2 hbsa
      | none =>
        rw [hbsa] at hbs
        simp only [bspec] at hbs
        by_cases h : q = fp
        · rw [if_pos h] at hbs
          cases hbs
          rw [h, ← hA fp hfresh, hr]
        · rw [if_neg h] at hbs
          cases hbs
    have hnotq : ∀ q, q ∉ ownersList (bks ++ [(fp, Backup.content content)]) →
        q ∉ ownersList bks ∧ ¬q = fp := by
      intro q hq
      rw [hol] at hq
      constructor
      · intro hc
        exact hq (List.mem_append_left _ hc)
      · intro hc
        exact hq (List.mem_append_right _ (by simp [hc]))
    by_cases hs : sched w.clock = true
    · have hw : wWrite sched w fp (applyChangeList chs content).1 =
          (false, { w with clock := w.clock + 1 }) := by
        simp [wWrite, hs]
      rw [hw]
      refine ⟨⟨hk, hC, hE, ?_, hB2⟩, ?_⟩
      · intro q hq
        exact hA q (hnotq q hq).1
      · intro x hx
        rw [hol] at hx
        rcases List.mem_append.mp hx with h | h
        · exact Or.inl h
        · exact Or.inr (List.mem_singleton.mp h)
    · have hw : wWrite sched w fp (applyChangeList chs content).1 =
          (true, { fs := fsWrite w.fs fp (applyChangeList chs content).1,
                   clock := w.clock + 1 }) := by
        simp [wWrite, hs]
      rw [hw]
      refine ⟨⟨fsWrite_keys w.fs fp _ hk, hC, hE, ?_, hB2⟩, ?_⟩
      · intro q hq
        obtain ⟨hq1, hq2⟩ := hnotq q hq
        show fsRead (fsWrite w.fs fp (applyChangeList chs content).1) q = _
        rw [fsWrite_read, if_neg hq2]
        exact hA q hq1
      · intro x hx
        rw [hol] at hx
        rcases List.mem_append.mp hx with h | h
        · exact Or.inl h
        · exact Or.inr (List.mem_singleton.mp h)

theorem applyRename_step (sched : Nat → Bool) (w0 w : W) (bks : Backups) (ch : Change)
    (hinv : ApplyInv w0 w bks)
    (hkey : joinPath (dirOfPath ch.file) ch.oldFileName = ch.file)
    (hfo : joinPath (dirOfPath ch.file) ch.oldFileName ∉ ownersList bks)
    (hfn : joinPath (dirOfPath ch.file) ch.newFileName ∉ ownersList bks)
    (hne : ¬joinPath (dirOfPath ch.file) ch.oldFileName =
      joinPath (dirOfPath ch.file) ch.newFileName)
    (hw0n : fsRead w0.fs (joinPath (dirOfPath ch.file) ch.newFileName) = none) :
    ApplyInv w0 (applyFileRename sched w bks ch).2.1
      (applyFileRename sched w bks ch).2.2 ∧
    ∀ x, x ∈ ownersList (applyFileRename sched w bks ch).2.2 →
      x ∈ ownersList bks ∨ x = joinPath (dirOfPath ch.file) ch.oldFileName ∨
        x = joinPath (dirOfPath ch.file) ch.newFileName := by
  obtain ⟨hk, hown, hkeyown, hA, hB⟩ := hinv
  rcases hr : fsRead w.fs (joinPath (dirOfPath ch.file) ch.oldFileName) with _ | orig
  · have hres : applyFileRename sched w bks ch = (false, w, bks) := by
      simp only [applyFileRename, hr]
    rw [hres]
    exact ⟨⟨hk, hown, hkeyown, hA, hB⟩, fun x hx => Or.inl hx⟩
  · have horig : fsRead w0.fs (joinPath (dirOfPath ch.file) ch.oldFileName) =
        some orig := (hA _ hfo).symm.trans hr
    have hbk := setBackup_fresh bks ch.file
      (Backup.rename (dirOfPath ch.file) ch.oldFileName ch.newFileName orig)
      (hkey ▸ key_not_fresh bks hkeyown _ hfo)
    have hol : ownersList (bks ++ [(ch.file,
        Backup.rename (dirOfPath ch.file) ch.oldFileName ch.newFileName orig)]) =
        ownersList bks ++ [joinPath (dirOfPath ch.file) ch.oldFileName,
          joinPath (dirOfPath ch.file) ch.newFileName] := by
      rw [ownersList_append]
      rfl
    have hC : (ownersList (bks ++ [(ch.file,
        Backup.rename (dirOfPath ch.file) ch.oldFileName ch.newFileName orig)])).Nodup := by
      rw [hol]
      refine List.nodup_append.mpr ⟨hown, by simp [hne], ?_⟩
      intro x hx
      simp only [List.mem_cons, List.mem_singleton, List.not_mem_nil]
      intro hc
      rcases hc with hc | hc | hc
      · exact hfo (hc ▸ hx)
      · exact hfn (hc ▸ hx)
      · exact hc
    have hE : ∀ e ∈ bks ++ [(ch.file,
        Backup.rename (dirOfPath ch.file) ch.oldFileName ch.newFileName orig)],
        e.1 ∈ entryOwners e := by
      intro e he
      rcases List.mem_append.mp he with h | h
      · exact hkeyown e h
      · rcases List.mem_singleton.mp h with rfl
        simp only [entryOwners]
        rw [List.mem_cons]
        exact Or.inl hkey.symm
    have hB2 : ∀ q v, bspec (bks ++ [(ch.file,
        Backup.rename (dirOfPath ch.file) ch.oldFileName ch.newFileName orig)]) q =
        some v → v = fsRead w0.fs q := by
      intro q v hbs
      rw [bspec_append] at hbs
      cases hbsa : bspec bks q with
      | some v2 =>
        rw [hbsa] at hbs
        exact Option.some.inj hbs ▸ hB q v2 hbsa
      | none =>
        rw [hbsa] at hbs
        simp only [bspec] at hbs
        by_cases h1 : q = joinPath (dirOfPath ch.file) ch.oldFileName
        · rw [if_pos h1] at hbs
          obtain rfl := Option.some.inj hbs
          rw [h1, horig]
        · rw [if_neg h1] at hbs
          by_cases h2 : q = joinPath (dirOfPath ch.file) ch.newFileName
          · rw [if_pos h2] at hbs
            obtain rfl := Option.some.inj hbs
            rw [h2, hw0n]
          · rw [if_neg h2] at hbs
            cases hbs
    have hnotq : ∀ q, q ∉ ownersList (bks ++ [(ch.file,
        Backup.rename (dirOfPath ch.file) ch.oldFileName ch.newFileName orig)]) →
        q ∉ ownersList bks ∧ ¬q = joinPath (dirOfPath ch.file) ch.oldFileName ∧
          ¬q = joinPath (dirOfPath ch.file) ch.newFileName := by
      intro q hq
      rw [hol] at hq
      refine ⟨fun hc => hq (List.mem_append_left _ hc),
        fun hc => hq (List.mem_append_right _ (by simp [hc])),
        fun hc => hq (List.mem_append_right _ (by simp [hc]))⟩
    have hsub : ∀ x, x ∈ ownersList (bks ++ [(ch.file,
        Backup.rename (dirOfPath ch.file) ch.oldFileName ch.newFileName orig)]) →
        x ∈ ownersList bks ∨ x = joinPath (dirOfPath ch.file) ch.oldFileName ∨
          x = joinPath (dirOfPath ch.file) ch.newFileName := by
      intro x hx
      rw [hol] at hx
      rcases List.mem_append.mp hx with h | h
      · exact Or.inl h
      · rcases List.mem_cons.mp h with h | h
        · exact Or.inr (Or.inl h)
        · exact Or.inr (Or.inr (List.mem_singleton.mp h))
    by_cases hs : sched w.clock = true
    · have hren : renameFile sched w (dirOfPath ch.file) ch.oldFileName
          ch.newFileName = (false, { w with clock := w.clock + 1 }) := by
        simp only [renameFile, hr, wWrite]
        rw [if_pos hs]
        simp
      have hres : applyFileRename sched w bks ch =
          (false, { w with clock := w.clock + 1 }, bks ++ [(ch.file,
            Backup.rename (dirOfPath ch.file) ch.oldFileName ch.newFileName orig)]) := by
        simp only [applyFileRename, hr, hbk, hren]
        simp
      rw [hres]
      refine ⟨⟨hk, hC, hE, ?_, hB2⟩, hsub⟩
      intro q hq
      exact hA q (hnotq q hq).1
    · have hren : renameFile sched w (dirOfPath ch.file) ch.oldFileName
          ch.newFileName = (true,
            { fs := fsDelete (fsWrite w.fs
                (joinPath (dirOfPath ch.file) ch.newFileName) orig)
                (joinPath (dirOfPath ch.file) ch.oldFileName),
              clock := w.clock + 1 }) := by
        simp only [renameFile, hr, wWrite]
        rw [if_neg hs]
        simp
      have hk1 : (fsKeys (fsWrite w.fs
          (joinPath (dirOfPath ch.file) ch.newFileName) orig)).Nodup :=
        fsWrite_keys w.fs _ orig hk
      have hkfs1 : (fsKeys (fsDelete (fsWrite w.fs
          (joinPath (dirOfPath ch.file) ch.newFileName) orig)
          (joinPath (dirOfPath ch.file) ch.oldFileName))).Nodup :=
        fsDelete_keys _ _ hk1
      have hfs1 : ∀ q, ¬q = joinPath (dirOfPath ch.file) ch.oldFileName →
          ¬q = joinPath (dirOfPath ch.file) ch.newFileName →
          fsRead (fsDelete (fsWrite w.fs
            (joinPath (dirOfPath ch.file) ch.newFileName) orig)
            (joinPath (dirOfPath ch.file) ch.oldFileName)) q = fsRead w.fs q := by
        intro q h1 h2
        rw [fsDelete_read _ _ _ hk1, if_neg h1, fsWrite_read, if_neg h2]
      by_cases hnc : (if ch.oldContent ≠ [] ∧ ch.newContent ≠ [] then
          replaceAllSub orig ch.oldContent ch.newContent else orig) = orig
      · have hres : applyFileRename sched w bks ch =
            (true, (renameFile sched w (dirOfPath ch.file) ch.oldFileName
              ch.newFileName).2, bks ++ [(ch.file,
              Backup.rename (dirOfPath ch.file) ch.oldFileName ch.newFileName orig)]) := by
          simp only [applyFileRename, hr, hbk, hren]
          rw [if_neg (by simp)]
          rw [if_neg (fun hcc => hcc hnc)]
        rw [hres, hren]
        refine ⟨⟨hkfs1, hC, hE, ?_, hB2⟩, hsub⟩
        intro q hq
        obtain ⟨hq1, hq2, hq3⟩ := hnotq q hq
        show fsRead (fsDelete (fsWrite w.fs _ orig) _) q = _
        rw [hfs1 q hq2 hq3]
        exact hA q hq1
      · by_cases hs2 : sched (w.clock + 1) = true
        · have hres : applyFileRename sched w bks ch =
              (false, W.mk (fsDelete (fsWrite w.fs
                  (joinPath (dirOfPath ch.file) ch.newFileName) orig)
                  (joinPath (dirOfPath ch.file) ch.oldFileName))
                (w.clock + 2), bks ++ [(ch.file,
                Backup.rename (dirOfPath ch.file) ch.oldFileName ch.newFileName orig)]) := by
            simp only [applyFileRename, hr, hbk, hren, wWrite]
            rw [if_neg (by simp)]
            rw [if_pos hnc]
            rw [if_pos hs2]
          rw [hres]
          refine ⟨⟨hkfs1, hC, hE, ?_, hB2⟩, hsub⟩
          intro q hq
          obtain ⟨hq1, hq2, hq3⟩ := hnotq q hq
          show fsRead (fsDelete (fsWrite w.fs _ orig) _) q = _
          rw [hfs1 q hq2 hq3]
          exact hA q hq1
        · have hres : applyFileRename sched w bks ch =
              (true, W.mk (fsWrite (fsDelete (fsWrite w.fs
                  (joinPath (dirOfPath ch.file) ch.newFileName) orig)
                  (joinPath (dirOfPath ch.file) ch.oldFileName))
                  (joinPath (dirOfPath ch.file) ch.newFileName)
                  (if ch.oldContent ≠ [] ∧ ch.newContent ≠ [] then
                    replaceAllSub orig ch.oldContent ch.newContent else orig))
                (w.clock + 2), bks ++ [(ch.file,
                Backup.rename (dirOfPath ch.file) ch.oldFileName ch.newFileName orig)]) := by
            simp only [applyFileRename, hr, hbk, hren, wWrite]
            rw [if_neg (by simp)]
            rw [if_pos hnc]
            rw [if_neg hs2]
          rw [hres]
          refine ⟨⟨fsWrite_keys _ _ _ hkfs1, hC, hE, ?_, hB2⟩, hsub⟩
          intro q hq
          obtain ⟨hq1, hq2, hq3⟩ := hnotq q hq
          show fsRead (fsWrite (fsDelete (fsWrite w.fs _ orig) _) _ _) q = _
          rw [fsWrite_read, if_neg hq3, hfs1 q hq2 hq3]
          exact hA q hq1

theorem applyRenames_inv (sched : Nat → Bool) (w0 : W) :
    ∀ (rs : List Change) (w : W) (bks : Backups),
      ApplyInv w0 w bks →
      (∀ c ∈ rs, joinPath (dirOfPath c.file) c.oldFileName = c.file) →
      (ownersList bks ++ ownersR rs).Nodup →
      (∀ c ∈ rs, fsRead w0.fs (joinPath (dirOfPath c.file) c.newFileName) = none) →
      ApplyInv w0 (applyRenames sched w bks rs).2.1 (applyRenames sched w bks rs).2.2 ∧
      ∀ x, x ∈ ownersList (applyRenames sched w bks rs).2.2 →
        x ∈ ownersList bks ++ ownersR rs := by
  intro rs
  induction rs with
  | nil =>
    intro w bks hinv _ _ _
    exact ⟨hinv, fun x hx => List.mem_append_left _ hx⟩
  | cons c rest ih =>
    intro w bks hinv hkeys hnd hw0
    obtain ⟨hownB, hnodR, hdisj⟩ := List.nodup_append.mp hnd
    have hnpo : joinPath (dirOfPath c.file) c.oldFileName ∉
        joinPath (dirOfPath c.file) c.newFileName :: ownersR rest :=
      (List.nodup_cons.mp hnodR).1
    have hnodR2 := (List.nodup_cons.mp hnodR).2
    have hnpn : joinPath (dirOfPath c.file) c.newFileName ∉ ownersR rest :=
      (List.nodup_cons.mp hnodR2).1
    have hnodR3 := (List.nodup_cons.mp hnodR2).2
    have hfo : joinPath (dirOfPath c.file) c.oldFileName ∉ ownersList bks := by
      intro hc
      exact hdisj hc (by simp [ownersR])
    have hfn : joinPath (dirOfPath c.file) c.newFileName ∉ ownersList bks := by
      intro hc
      exact hdisj hc (by simp [ownersR])
    have hne : ¬joinPath (dirOfPath c.file) c.oldFileName =
        joinPath (dirOfPath c.file) c.newFileName := by
      intro hc
      exact hnpo (by rw [hc]; exact List.mem_cons_self _ _)
    obtain ⟨hinv2, hsub2⟩ := applyRename_step sched w0 w bks c hinv
      (hkeys c (List.mem_cons_self c rest)) hfo hfn hne
      (hw0 c (List.mem_cons_self c rest))
    simp only [applyRenames]
    by_cases ho : (applyFileRename sched w bks c).1 = true
    · rw [if_pos ho]
      have hnd2 : (ownersList (applyFileRename sched w bks c).2.2 ++
          ownersR rest).Nodup := by
        refine List.nodup_append.mpr ⟨hinv2.2.1, hnodR3, ?_⟩
        intro x hx hx2
        rcases hsub2 x hx with h | h | h
        · exact hdisj h (by simp [ownersR, hx2])
        · exact hnpo (List.mem_cons_of_mem _ (h ▸ hx2))
        · exact hnpn (h ▸ hx2)
      obtain ⟨hinv3, hsub3⟩ := ih (applyFileRename sched w bks c).2.1
        (applyFileRename sched w bks c).2.2 hinv2
        (fun c2 h2 => hkeys c2 (List.mem_cons_of_mem c h2)) hnd2
        (fun c2 h2 => hw0 c2 (List.mem_cons_of_mem c h2))
      refine ⟨hinv3, ?_⟩
      intro x hx
      rcases List.mem_append.mp (hsub3 x hx) with h | h
      · rcases hsub2 x h with h2 | h2 | h2
        · exact List.mem_append_left _ h2
        · exact List.mem_append_right _ (by simp [ownersR, h2])
        · exact List.mem_append_right _ (by simp [ownersR, h2])
      · exact List.mem_append_right _ (by simp [ownersR]; exact Or.inr (Or.inr h))
    · rw [if_neg ho]
      refine ⟨hinv2, ?_⟩
      intro x hx
      rcases hsub2 x hx with h | h | h
      · exact List.mem_append_left _ h
      · exact List.mem_append_right _ (by simp [ownersR, h])
      · exact List.mem_append_right _ (by simp [ownersR, h])

theorem applyContentGroups_inv (sched : Nat → Bool) (w0 : W) :
    ∀ (gs : List (Str × List Change)) (w : W) (bks : Backups),
      ApplyInv w0 w bks →
      (ownersList bks ++ keysG gs).Nodup →
      ApplyInv w0 (applyContentGroups sched w bks gs).2.1
        (applyContentGroups sched w bks gs).2.2 ∧
      ∀ x, x ∈ ownersList (applyContentGroups sched w bks gs).2.2 →
        x ∈ ownersList bks ++ keysG gs := by
  intro gs
  induction gs with
  | nil =>
    intro w bks hinv _
    exact ⟨hinv, fun x hx => List.mem_append_left _ hx⟩
  | cons g rest ih =>
    obtain ⟨fp, chs⟩ := g
    intro w bks hinv hnd
    obtain ⟨hownB, hnodK, hdisj⟩ := List.nodup_append.mp hnd
    have hfp : fp ∉ keysG rest := (List.nodup_cons.mp hnodK).1
    have hnodK2 := (List.nodup_cons.mp hnodK).2
    have hfresh : fp ∉ ownersList bks := by
      intro hc
      exact hdisj hc (by simp [keysG])
    obtain ⟨hinv2, hsub2⟩ := applyContent_step sched w0 w bks fp chs hinv hfresh
    simp only [applyContentGroups]
    by_cases ho : (applyChangesToFile sched w bks fp chs).1 = true
    · rw [if_pos ho]
      have hnd2 : (ownersList (applyChangesToFile sched w bks fp chs).2.2 ++
          keysG rest).Nodup := by
        refine List.nodup_append.mpr ⟨hinv2.2.1, hnodK2, ?_⟩
        intro x hx hx2
        rcases hsub2 x hx with h | h
        · exact hdisj h (by simp [keysG, hx2])
        · exact hfp (h ▸ hx2)
      obtain ⟨hinv3, hsub3⟩ := ih (applyChangesToFile sched w bks fp chs).2.1
        (applyChangesToFile sched w bks fp chs).2.2 hinv2 hnd2
      refine ⟨hinv3, ?_⟩
      intro x hx
      rcases List.mem_append.mp (hsub3 x hx) with h | h
      · rcases hsub2 x h with h2 | h2
        · exact List.mem_append_left _ h2
        · exact List.mem_append_right _ (by simp [keysG, h2])
      · exact List.mem_append_right _ (by simp [keysG]; exact Or.inr h)
    · rw [if_neg ho]
      refine ⟨hinv2, ?_⟩
      intro x hx
      rcases hsub2 x hx with h | h
      · exact List.mem_append_left _ h
      · exact List.mem_append_right _ (by simp [keysG, h])

/-- C1: if applying a ChangeSet fails partway and the rollback fully
succeeds (`rolledBack = some true`), then every file again reads
exactly as it did before the apply began, and the surfaced outcome
reports failure together with whether the rollback fully succeeded.
The side conditions say the batch is well-formed: the file keys are
duplicate-free, each rename's `file` is its old path, rename targets
do not exist yet, and no two changes touch the same path. -/
theorem C1_rollback_restores (sched : Nat → Bool) (w : W) (changes : List Change)
    (hkfs : (fsKeys w.fs).Nodup)
    (hkeys : ∀ c ∈ changes.filter (fun c => c.ctype == str "file-rename"),
      joinPath (dirOfPath c.file) c.oldFileName = c.file)
    (hw0 : ∀ c ∈ changes.filter (fun c => c.ctype == str "file-rename"),
      fsRead w.fs (joinPath (dirOfPath c.file) c.newFileName) = none)
    (hnd : (ownersR (changes.filter (fun c => c.ctype == str "file-rename")) ++
      keysG (groupByFile (changes.filter
        (fun c => ¬(c.ctype == str "file-rename"))))).Nodup)
    (hfail : (applyChanges sched w changes).1.success = false)
    (hrb : (applyChanges sched w changes).1.rolledBack = some true) :
    (∀ q, fsRead (applyChanges sched w changes).2.fs q = fsRead w.fs q) ∧
    (∀ (w2 : W) (bks : Backups), bks ≠ [] →
      (rollbackOutcome sched w2 bks).1.success = false ∧
      (rollbackOutcome sched w2 bks).1.rolledBack =
        some (restoreBackups sched w2 bks).1) := by
  refine ⟨?_, ?_⟩
  · by_cases hemp : changes = []
    · rw [hemp] at hrb
      simp [applyChanges] at hrb
    · simp only [applyChanges] at hfail hrb ⊢
      rw [if_neg hemp] at hfail hrb ⊢
      have hinv0 : ApplyInv w w [] := by
        refine ⟨hkfs, by simp [ownersList], by simp, fun q _ => rfl, ?_⟩
        intro q v h
        cases h
      have hndR : (ownersList ([] : Backups) ++
          ownersR (changes.filter (fun c => c.ctype == str "file-rename"))).Nodup := by
        show (([] : List Str) ++ _).Nodup
        rw [List.nil_append]
        exact (List.nodup_append.mp hnd).1
      obtain ⟨hinv1, hsub1⟩ := applyRenames_inv sched w
        (changes.filter (fun c => c.ctype == str "file-rename")) w [] hinv0
        hkeys hndR hw0
      by_cases h1 : (applyRenames sched w []
          (changes.filter (fun c => c.ctype == str "file-rename"))).1 = true
      · rw [if_neg (fun hc => hc h1)] at hfail hrb ⊢
        have hnd2 : (ownersList (applyRenames sched w []
            (changes.filter (fun c => c.ctype == str "file-rename"))).2.2 ++
            keysG (groupByFile (changes.filter
              (fun c => ¬(c.ctype == str "file-rename"))))).Nodup := by
          refine List.nodup_append.mpr ⟨hinv1.2.1,
            (List.nodup_append.mp hnd).2.1, ?_⟩
          intro x hx hx2
          have hx3 := hsub1 x hx
          rw [show ownersList ([] : Backups) ++ ownersR (changes.filter
            (fun c => c.ctype == str "file-rename")) = ownersR (changes.filter
              (fun c => c.ctype == str "file-rename")) from List.nil_append _] at hx3
          exact (List.nodup_append.mp hnd).2.2 hx3 hx2
        obtain ⟨hinv2, hsub2⟩ := applyContentGroups_inv sched w
          (groupByFile (changes.filter (fun c => ¬(c.ctype == str "file-rename"))))
          _ _ hinv1 hnd2
        by_cases h2 : (applyContentGroups sched
            (applyRenames sched w [] (changes.filter
              (fun c => c.ctype == str "file-rename"))).2.1
            (applyRenames sched w [] (changes.filter
              (fun c => c.ctype == str "file-rename"))).2.2
            (groupByFile (changes.filter
              (fun c => ¬(c.ctype == str "file-rename"))))).1 = true
        · rw [if_neg (fun hc => hc h2)] at hfail
          simp at hfail
        · rw [if_pos h2] at hrb ⊢
          exact rollback_restores sched w _ _ hinv2 hrb
      · rw [if_pos h1] at hrb ⊢
        exact rollback_restores sched w _ _ hinv1 hrb
  · intro w2 bks hbne
    simp only [rollbackOutcome]
    rw [if_neg hbne]
    exact ⟨rfl, rfl⟩

/-- C1 witness: the rename succeeds, the content write throws, and the
rollback puts both files back; every path re-reads its pre-apply
content. -/
theorem C1_rollback_restores_witness :
    fsRead (applyChanges schedC1 wC1 [chC1a, chC1r]).2.fs (str "a.tmdl") =
      fsRead wC1.fs (str "a.tmdl") ∧
    fsRead (applyChanges schedC1 wC1 [chC1a, chC1r]).2.fs (str "dir/t.tmdl") =
      fsRead wC1.fs (str "dir/t.tmdl") ∧
    fsRead (applyChanges schedC1 wC1 [chC1a, chC1r]).2.fs (str "dir/t2.tmdl") =
      fsRead wC1.fs (str "dir/t2.tmdl") := by
  have h := C1_rollback_restores schedC1 wC1 [chC1a, chC1r]
    (by decide) (by decide) (by decide) (by decide) (by decide) (by decide)
  exact ⟨h.1 (str "a.tmdl"), h.1 (str "dir/t.tmdl"), h.1 (str "dir/t2.tmdl")⟩

end Pbip
